import Mathlib

/-!
mm2xtgeoip: a shallow embedding of the range compiler and its registry

The definitions below follow `src/csv.c`, `src/mm2xtgeoip/cidr.c` and
`src/mm2xtgeoip/mm2xtgeoip.c` statement by statement.

Conventions of the embedding.

* Target platform: Linux, LP64, little-endian, glibc (the program includes
  `argp.h`).  `unsigned` is 32 bits wide, `unsigned long` and `size_t` are 64 bits
  wide, `uint16_t` is 16 bits wide.  Machine integers are natural numbers and
  every operation that can wrap is reduced modulo the width explicitly.
* A C string is the list of its characters without the terminating NUL.  A
  buffer that the code edits in place (`tokenize_csv`) is a list of characters
  in which the NUL characters are written out.
* A read outside an object, a failed `assert`, or the use of a variable that
  was never assigned is a `Fault`: the embedding stops there, because C gives no
  meaning to the rest of the run.
* A file that is read is the list of the lines `fgets` returns; a file that is
  written is its bytes and the current position.  Failures of `fopen`, `fgets`,
  `fwrite` and `malloc` are outside the embedding.
-/

namespace Mm2xtgeoip

/-! ## Constants of the platform and of `mm2xtgeoip.h` -/

/-- Value of `UINT_MAX` from `limits.h` for a 32 bit `unsigned`. -/
def UINT_MAX : Nat := 4294967295

/-- Value of `ULONG_MAX` from `limits.h` for a 64 bit `unsigned long`. -/
def ULONG_MAX : Nat := 18446744073709551615

/-- Value of `UINT16_MAX` from `stdint.h`. -/
def UINT16_MAX : Nat := 65535

def MAX_LINE : Nat := 256
def MAX_COLS : Nat := 16
def COUNTRY_CODE_SIZE : Nat := 2
def MAX_COUNTRIES : Nat := UINT16_MAX
def PROXY_GEONAME_ID : Nat := ULONG_MAX - 3
def SAT_GEONAME_ID : Nat := ULONG_MAX - 2
def OTHER_GEONAME_ID : Nat := ULONG_MAX - 1
def PROXY_COUNTRY_CODE : List Char := ['A', '1']
def SAT_COUNTRY_CODE : List Char := ['A', '2']
def OTHER_COUNTRY_CODE : List Char := ['O', '1']

/-- Ways in which a run leaves the behaviour C defines. -/
inductive Fault where
  /-- an array was read or written at an index outside its bounds -/
  | out_of_bounds (index : Nat)
  /-- an `assert` failed -/
  | assert_failed
  /-- a variable was used before any value was assigned to it -/
  | uninitialised
  /-- the loop did not finish within the iterations the embedding allows -/
  | no_fuel
  deriving DecidableEq, Repr

instance instDecidableEqExcept {ε α : Type} [DecidableEq ε] [DecidableEq α] :
    DecidableEq (Except ε α)
  | .ok a, .ok b =>
    if h : a = b then isTrue (congrArg Except.ok h) else isFalse (fun h1 => h (Except.ok.inj h1))
  | .error a, .error b =>
    if h : a = b then isTrue (congrArg Except.error h)
    else isFalse (fun h1 => h (Except.error.inj h1))
  | .ok _, .error _ => isFalse (fun h => Except.noConfusion h)
  | .error _, .ok _ => isFalse (fun h => Except.noConfusion h)

/-- The record `Country` of `mm2xtgeoip.h`. -/
structure Country where
  geoname_id : Nat
  country_code : List Char
  forbidden : Bool
  deriving DecidableEq, Repr

/-! ## `str2bool`, `geoname_id_reserved` -/

/-- Embedding of `str2bool`: false for the empty string and for `"0"`. -/
def str2bool (s : List Char) : Bool :=
  if s = [] ∨ s = ['0'] then false else true

/-- Embedding of `geoname_id_reserved`. -/
def geoname_id_reserved (geoname_id : Nat) : Bool :=
  if geoname_id = PROXY_GEONAME_ID ∨ geoname_id = SAT_GEONAME_ID ∨
      geoname_id = OTHER_GEONAME_ID then true else false

/-! ## `get_country` -/

/-- The three `static` variables of `get_country`.  `cached_country_arr` is the
address of the array searched last (`0` is `NULL`); `cached_country` is the
record found last, as an index into that array (`none` is `NULL`). -/
structure CountryCache where
  cached_geoname_id : Nat
  cached_country_arr : Nat
  cached_country : Option Nat
  deriving DecidableEq, Repr

/-- Initial values of the `static` variables of `get_country`. -/
def CountryCache.initial : CountryCache :=
  { cached_geoname_id := 0, cached_country_arr := 0, cached_country := none }

/-- The `while (start <= end)` loop of `get_country`.  `start`, `mid` and `end`
are `unsigned`, so `mid + 1` and `mid - 1` are taken modulo `UINT_MAX + 1 = 4294967296`; a read of
`countries[mid]` beyond the records of the array is a fault. -/
def get_country_search (geoname_id : Nat) (countries : List Country) :
    Nat → Nat → Nat → Except Fault (Option Nat)
  | 0, _, _ => .error .no_fuel
  | fuel + 1, start, end_ =>
    if start ≤ end_ then
      let mid := start + (end_ - start) / 2
      match countries[mid]? with
      | none => .error (.out_of_bounds mid)
      | some c =>
        if c.geoname_id = geoname_id then .ok (some mid)
        else if c.geoname_id < geoname_id then
          get_country_search geoname_id countries fuel ((mid + 1) % 4294967296) end_
        else
          get_country_search geoname_id countries fuel start ((mid + 4294967296 - 1) % 4294967296)
    else .ok none

/-- Embedding of `get_country`.  `arr` is the value of the pointer `countries`
and `countries` the `num_countries` records it points to.  The result is the
record found, as an index into the array, together with the new values of the
`static` variables. -/
def get_country (geoname_id : Nat) (proxy sat : Bool) (num_countries : Nat)
    (arr : Nat) (countries : List Country) (cache : CountryCache) :
    Except Fault (Option Nat × CountryCache) :=
  let start := 0
  let end_ := (num_countries + 4294967296 - 1) % 4294967296
  if num_countries = 0 then .ok (none, cache)
  else
    let geoname_id :=
      if proxy then PROXY_GEONAME_ID
      else if sat then SAT_GEONAME_ID
      else if geoname_id = 0 then OTHER_GEONAME_ID
      else geoname_id
    if cache.cached_country_arr = arr ∧ geoname_id = cache.cached_geoname_id then
      .ok (cache.cached_country, cache)
    else
      let cache1 := { cache with cached_geoname_id := geoname_id, cached_country_arr := arr }
      match get_country_search geoname_id countries (num_countries + 1) start end_ with
      | .error f => .error f
      | .ok (some mid) => .ok (some mid, { cache1 with cached_country := some mid })
      | .ok none => .ok (none, { cache1 with cached_country := none })

/-! ## Notions used to state the properties of the registry -/

/-- The identifier `get_country` searches for, in the words of the
specification: the proxy sentinel if `proxy` is set, else the satellite
sentinel if `sat` is set, else the other sentinel if the identifier is zero,
else the identifier. -/
def effective_geoname_id (geoname_id : Nat) (proxy sat : Bool) : Nat :=
  if proxy then PROXY_GEONAME_ID
  else if sat then SAT_GEONAME_ID
  else if geoname_id = 0 then OTHER_GEONAME_ID
  else geoname_id

/-- The identifiers of the array increase strictly in storage order. -/
def StrictlyAscending (countries : List Country) : Prop :=
  (countries.map Country.geoname_id).Pairwise (· < ·)

instance (countries : List Country) : Decidable (StrictlyAscending countries) := by
  unfold StrictlyAscending; infer_instance

/-- The cache agrees with the array at address `arr`: when it was filled from
that array, the record it holds is the one carrying the cached identifier. -/
def CacheConsistent (cache : CountryCache) (arr : Nat) (countries : List Country) : Prop :=
  cache.cached_country_arr = arr →
    ∀ k c, countries[k]? = some c → c.geoname_id = cache.cached_geoname_id →
      cache.cached_country = some k

/-! ## C strings and the C library functions the program calls -/

/-- The NUL character that ends a C string. -/
def NUL : Char := Char.ofNat 0

/-- `CSV_SEPARATOR` of `csv.h`: the comma. -/
def CSV_SEPARATOR : Char := Char.ofNat 44

/-- `CSV_QUOTE` of `csv.h`: the double quote. -/
def CSV_QUOTE : Char := Char.ofNat 34

/-- `CSV_EOL` of `csv.h`: the line feed. -/
def CSV_EOL : Char := Char.ofNat 10

/-- The character `buf[i]` of a buffer; the embedding reads NUL beyond the
characters it holds. -/
def char_at (buf : List Char) (i : Nat) : Char := buf.getD i NUL

/-- The C string that starts at offset `off` of a buffer: the characters up to
the first NUL. -/
def cstr_at (buf : List Char) (off : Nat) : List Char :=
  (buf.drop off).takeWhile (fun c => c ≠ NUL)

/-- Model of `isdigit` of the C library in the C locale. -/
def isdigit (c : Char) : Bool := 48 ≤ c.toNat ∧ c.toNat ≤ 57

/-- Model of `isspace` of the C library in the C locale. -/
def isspace (c : Char) : Bool := c.toNat = 32 ∨ (9 ≤ c.toNat ∧ c.toNat ≤ 13)

/-- Model of `toupper` of the C library in the C locale, on character codes. -/
def toupper (c : Nat) : Nat := if 97 ≤ c ∧ c ≤ 122 then c - 32 else c

/-- Value of a run of decimal digits, most significant first, on top of `acc`. -/
def decimal_value (acc : Nat) : List Char → Nat
  | [] => acc
  | c :: cs => decimal_value (acc * 10 + (c.toNat - 48)) cs

/-- Model of `strtoul (s, NULL, 10)` of glibc: white space is skipped, one sign
is accepted, the longest run of decimal digits is converted; a value above
`ULONG_MAX` gives `ULONG_MAX` and sets `errno`, a minus sign negates the value
modulo `ULONG_MAX + 1`, and no digit at all gives `0`.  The second component
tells whether `errno` was set. -/
def strtoul (s : List Char) : Nat × Bool :=
  let s1 := s.dropWhile isspace
  let neg := s1.head? = some '-'
  let s2 := if s1.head? = some '-' ∨ s1.head? = some '+' then s1.tail else s1
  let digits := s2.takeWhile isdigit
  if digits = [] then (0, false)
  else
    let v := decimal_value 0 digits
    if v > ULONG_MAX then (ULONG_MAX, true)
    else if neg then ((ULONG_MAX + 1 - v) % (ULONG_MAX + 1), false)
    else (v, false)

/-! ## `csv.c` -/

/-- Result of `tokenize_csv`: the line buffer after the edits made in place and
the offsets into it that were stored in `tokens`, in order.  The value returned
by the C function is the number of these offsets. -/
structure Tokenized where
  line : List Char
  tokens : List Nat
  deriving DecidableEq, Repr

/-- The C string of column `k` of a tokenized line. -/
def Tokenized.col (t : Tokenized) (k : Nat) : Option (List Char) :=
  (t.tokens[k]?).map (cstr_at t.line)

/-- All the columns of a tokenized line as C strings. -/
def Tokenized.cols (t : Tokenized) : List (List Char) :=
  t.tokens.map (cstr_at t.line)

/-- The inner loop `for (j = i; line[j] != 0; line[j] = line[++j]);` of
`tokenize_csv`, read as the comment above it says ("make it a single quote"):
every character after offset `j` moves one place to the left, up to and
including the terminating NUL. -/
def shift_left : Nat → List Char → Nat → List Char
  | 0, line, _ => line
  | fuel + 1, line, j =>
    if char_at line j ≠ NUL then
      shift_left fuel (line.set j (char_at line (j + 1))) (j + 1)
    else line

/-- State of the main loop of `tokenize_csv`. -/
structure TokState where
  line : List Char
  tokens : List Nat
  i : Nat
  begin_ : Nat
  in_quotes : Bool
  deriving DecidableEq, Repr

/-- The `for` loop of `tokenize_csv`: one iteration for each unit of fuel, with
`c = line[i]` and `next = line[i + 1]` read at the top as the loop header
leaves them. -/
def tokenize_loop (max_columns : Nat) : Nat → TokState → TokState
  | 0, st => st
  | fuel + 1, st =>
    let c := char_at st.line st.i
    let next := char_at st.line (st.i + 1)
    if c = NUL then st
    else if st.in_quotes ∧ c = CSV_QUOTE ∧ next = CSV_QUOTE then
      tokenize_loop max_columns fuel
        { st with line := shift_left st.line.length st.line st.i, i := st.i + 1 }
    else if ¬ st.in_quotes ∧ st.i = st.begin_ ∧ c = CSV_QUOTE then
      tokenize_loop max_columns fuel
        { st with begin_ := st.begin_ + 1, in_quotes := true, i := st.i + 1 }
    else if st.in_quotes ∧ c = CSV_QUOTE then
      let line1 :=
        if next = CSV_SEPARATOR ∨ next = NUL then st.line.set st.i NUL else st.line
      tokenize_loop max_columns fuel
        { st with line := line1, in_quotes := false, i := st.i + 1 }
    else if ¬ st.in_quotes ∧ c = CSV_SEPARATOR then
      let st1 : TokState :=
        { st with tokens := st.tokens ++ [st.begin_], line := st.line.set st.i NUL,
                  begin_ := st.i + 1 }
      if st1.tokens.length ≥ max_columns - 1 then st1
      else tokenize_loop max_columns fuel { st1 with i := st.i + 1 }
    else tokenize_loop max_columns fuel { st with i := st.i + 1 }

/-- Embedding of `tokenize_csv`.  `line` is the C string passed in; the buffer
holds it followed by its terminating NUL.  When the last column is empty,
`end` is `0` and `begin[end - 1]` is `begin[UINT_MAX]` in `unsigned`
arithmetic: a read 4 GiB beyond the buffer. -/
def tokenize_csv (line : List Char) (max_columns : Nat) : Except Fault Tokenized :=
  if max_columns = 0 then .ok { line := line ++ [NUL], tokens := [] }
  else if line = [] then .ok { line := line ++ [NUL], tokens := [0] }
  else
    let st := tokenize_loop max_columns (line.length + 1)
      { line := line ++ [NUL], tokens := [], i := 0, begin_ := 0, in_quotes := false }
    let tokens := st.tokens ++ [st.begin_]
    let end_ := (cstr_at st.line st.begin_).length
    if end_ = 0 then .error (.out_of_bounds (st.begin_ + UINT_MAX))
    else if char_at st.line (st.begin_ + (end_ - 1)) = CSV_EOL then
      .ok { line := st.line.set (st.begin_ + (end_ - 1)) NUL, tokens := tokens }
    else .ok { line := st.line, tokens := tokens }

/-- State of the two nested loops of `detect_columns`.  An entry of
`column_positions` that was never assigned is `none`. -/
structure DetectState where
  column_positions : List (Option Nat)
  highest_column : Nat
  first : Nat
  num_found : Nat
  deriving DecidableEq, Repr

/-- The inner loop `for (j = first; j < max_columns; j++)` of `detect_columns`
for the header field `h` at position `i`; `required` holds the required names
from index `j` on. -/
def detect_inner (h : List Char) (i : Nat) : List (List Char) → Nat → DetectState → DetectState
  | [], _, st => st
  | r :: rs, j, st =>
    if h ≠ r then detect_inner h i rs (j + 1) st
    else
      detect_inner h i rs (j + 1)
        { column_positions := st.column_positions.set j (some i),
          highest_column := if i > st.highest_column then i else st.highest_column,
          first := if j = st.first then st.first + 1 else st.first,
          num_found := st.num_found + 1 }

/-- The outer loop `for (i = 0; i < header_size; i++)` of `detect_columns`. -/
def detect_outer (required_columns : List (List Char)) :
    List (List Char) → Nat → DetectState → DetectState
  | [], _, st => st
  | h :: hs, i, st =>
    detect_outer required_columns hs (i + 1)
      (detect_inner h i (required_columns.drop st.first) st.first st)

/-- Embedding of `detect_columns`.  `max_columns` is the length of
`required_columns`.  The result is the value returned, the array
`column_positions` (its entries start unassigned) and `*highest_column`
(unassigned when the function returns early). -/
def detect_columns (header : List (List Char)) (required_columns : List (List Char)) :
    Nat × List (Option Nat) × Option Nat :=
  if header.length = 0 ∨ required_columns.length = 0 then
    (0, List.replicate required_columns.length none, none)
  else
    let st := detect_outer required_columns header 0
      { column_positions := List.replicate required_columns.length none,
        highest_column := 0, first := 0, num_found := 0 }
    (st.num_found, st.column_positions, some st.highest_column)

/-! ## `country_code_pos` and `read_country_file` -/

/-- Embedding of `country_code_pos`.  The function returns `0` unless the
string has exactly two characters; otherwise the two upper-cased characters
are stored in `buf[0]` and `buf[1]` and the two bytes are read back as one
`uint16_t`, which on a little-endian machine is `buf[0] + 256 * buf[1]`. -/
def country_code_pos (country_code : List Char) : Nat :=
  match country_code with
  | [c0, c1] => toupper c0.toNat % 256 + 256 * (toupper c1.toNat % 256)
  | _ => 0

/-- The array `country_code_lookup`: for each position below `MAX_COUNTRIES`
the record it points to, as an index into `countries`, or `none` for `NULL`. -/
abbrev CodeLookup := Nat → Option Nat

/-- Embedding of `init_country_code_lookup`: every entry is `NULL`. -/
def init_country_code_lookup : CodeLookup := fun _ => none

/-- Assignment `country_code_lookup[pos] = &countries[index]`. -/
def CodeLookup.set (lookup : CodeLookup) (pos index : Nat) : CodeLookup :=
  fun p => if p = pos then some index else lookup p

/-- The required header names of `read_country_file`. -/
def COUNTRY_REQUIRED_COLS : List (List Char) :=
  ["geoname_id".toList, "continent_code".toList, "country_iso_code".toList]

/-- The local variables of `read_country_file` that live across lines, and the
two arrays it fills.  `countries` holds the records stored so far, in array
order.  A column variable that was never assigned is `none`. -/
structure CountryFileState where
  countries : List Country
  country_code_lookup : CodeLookup
  num_countries : Nat
  highest_col : Option Nat
  geoname_id_col : Option Nat
  continent_code_col : Option Nat
  country_code_col : Option Nat
  last_geoname_id : Nat

/-- What `read_country_file` hands back: the value returned, the message left in
`*err_msg` (`none` for `NULL`; otherwise the text and the line number that
`snprintf` appends to it), and the two arrays as the call leaves them. -/
structure CountryFileResult where
  num_countries : Nat
  err_msg : Option (String × Nat)
  countries : List Country
  country_code_lookup : CodeLookup

/-- The code after the label `end` of `read_country_file`.  `failed` tells
whether the jump came from a place that sets `num_countries = 0`. -/
def read_country_end (st : CountryFileState) (failed : Bool) (msg : String) (line_num : Nat) :
    CountryFileResult :=
  let num_countries := if failed then 0 else st.num_countries
  { num_countries := num_countries,
    err_msg := if num_countries ≠ 0 then none else some (msg, line_num),
    countries := st.countries,
    country_code_lookup := st.country_code_lookup }

/-- The body of the `for (line_num = 1; ; line_num++)` loop of
`read_country_file`, over the lines that `fgets` still has to return. -/
def read_country_lines : List (List Char) → Nat → CountryFileState →
    Except Fault CountryFileResult
  | [], line_num, st => .ok (read_country_end st false "No usable data in file." line_num)
  | line :: rest, line_num, st =>
    if line_num = MAX_COUNTRIES then
      .ok (read_country_end st true "File too long." line_num)
    else if line.length = 0 then read_country_lines rest (line_num + 1) st
    else if line.length = MAX_LINE - 1 then
      .ok (read_country_end st true "Line too long." line_num)
    else
      match tokenize_csv line MAX_COLS with
      | .error f => .error f
      | .ok line_data =>
        let num_cols := line_data.tokens.length
        if line_num = 1 then
          match detect_columns line_data.cols COUNTRY_REQUIRED_COLS with
          | (num_found, column_positions, highest_column) =>
            if num_found ≠ 3 then
              .ok (read_country_end st true "Required columns not found in header." line_num)
            else
              read_country_lines rest (line_num + 1)
                { st with highest_col := highest_column,
                          geoname_id_col := (column_positions[0]?).join,
                          continent_code_col := (column_positions[1]?).join,
                          country_code_col := (column_positions[2]?).join }
        else
          match st.highest_col with
          | none => .error .uninitialised
          | some highest_col =>
            if num_cols < highest_col + 1 then
              .ok (read_country_end st true "Insufficient columns." line_num)
            else
              match st.geoname_id_col.bind line_data.col with
              | none => .error .uninitialised
              | some geoname_id_str =>
                let geoname_id := (strtoul geoname_id_str).1
                if geoname_id ≤ st.last_geoname_id then
                  .ok (read_country_end st true
                    "Invalid, duplicate, or unsorted geoname_id." line_num)
                else if geoname_id_reserved geoname_id then
                  .ok (read_country_end st true "Reserved geoname_id." line_num)
                else
                  match st.country_code_col.bind line_data.col with
                  | none => .error .uninitialised
                  | some country_code_field =>
                    let country_code_opt :=
                      if country_code_field ≠ [] then some country_code_field
                      else st.continent_code_col.bind line_data.col
                    match country_code_opt with
                    | none => .error .uninitialised
                    | some country_code =>
                      let country_pos := country_code_pos country_code
                      if country_pos = 0 then read_country_lines rest (line_num + 1) st
                      else if country_pos ≥ MAX_COUNTRIES then
                        .error (.out_of_bounds country_pos)
                      else if st.country_code_lookup country_pos ≠ none then
                        read_country_lines rest (line_num + 1) st
                      else
                        read_country_lines rest (line_num + 1)
                          { st with
                            countries := st.countries ++
                              [{ geoname_id := geoname_id, country_code := country_code,
                                 forbidden := false }],
                            country_code_lookup :=
                              st.country_code_lookup.set country_pos st.num_countries,
                            num_countries := st.num_countries + 1 }

/-- Embedding of `read_country_file`.  `lines` are the lines of the country
file as `fgets` returns them, `country_code_lookup` is the lookup array as the
caller passes it. -/
def read_country_file (lines : List (List Char)) (country_code_lookup : CodeLookup) :
    Except Fault CountryFileResult :=
  read_country_lines lines 1
    { countries := [], country_code_lookup := country_code_lookup, num_countries := 0,
      highest_col := none, geoname_id_col := none, continent_code_col := none,
      country_code_col := none, last_geoname_id := 0 }

/-! ## Addresses as text: `inet_pton` and `inet_ntop` of glibc -/

/-- Value of `AF_INET` on Linux. -/
def AF_INET : Nat := 2

/-- Value of `AF_INET6` on Linux. -/
def AF_INET6 : Nat := 10

def IPV4_BYTES : Nat := 4
def IPV6_BYTES : Nat := 16

/-- Local variables of glibc's `inet_pton4`: `done` holds the octets before
`tp`, `cur` is `*tp`. -/
structure Pton4State where
  saw_digit : Bool
  octets : Nat
  done : List Nat
  cur : Nat
  deriving DecidableEq, Repr

/-- The `while` loop of glibc's `inet_pton4`; `none` is `return 0`. -/
def inet_pton4_loop : List Char → Pton4State → Option Pton4State
  | [], st => some st
  | ch :: src, st =>
    if isdigit ch then
      let new := st.cur * 10 + (ch.toNat - 48)
      if st.saw_digit ∧ st.cur = 0 then none
      else if new > 255 then none
      else if ¬ st.saw_digit then
        if st.octets + 1 > 4 then none
        else inet_pton4_loop src { st with cur := new, octets := st.octets + 1, saw_digit := true }
      else inet_pton4_loop src { st with cur := new }
    else if ch = '.' ∧ st.saw_digit then
      if st.octets = 4 then none
      else inet_pton4_loop src
        { saw_digit := false, octets := st.octets, done := st.done ++ [st.cur], cur := 0 }
    else none

/-- Model of glibc's `inet_pton4`: dotted decimal, exactly four octets, no
leading zero.  `none` is the result `0`. -/
def inet_pton4 (src : List Char) : Option (List Nat) :=
  match inet_pton4_loop src { saw_digit := false, octets := 0, done := [], cur := 0 } with
  | none => none
  | some st => if st.octets < 4 then none else some (st.done ++ [st.cur])

/-- Value of a hexadecimal digit, as glibc's `hex_digit_value`; `none` is `-1`. -/
def hex_digit_value (ch : Char) : Option Nat :=
  if 48 ≤ ch.toNat ∧ ch.toNat ≤ 57 then some (ch.toNat - 48)
  else if 97 ≤ ch.toNat ∧ ch.toNat ≤ 102 then some (ch.toNat - 97 + 10)
  else if 65 ≤ ch.toNat ∧ ch.toNat ≤ 70 then some (ch.toNat - 65 + 10)
  else none

/-- Local variables of glibc's `inet_pton6`: `tmp` holds the bytes before
`tp`, `colonp` is the offset of the `::` in `tmp` (`none` for `NULL`), `curtok`
is the text from the start of the current group. -/
structure Pton6State where
  tmp : List Nat
  colonp : Option Nat
  curtok : List Char
  xdigits_seen : Nat
  val : Nat
  deriving DecidableEq, Repr

/-- The part of glibc's `inet_pton6` after its `while` loop. -/
def inet_pton6_finish (st : Pton6State) : Option (List Nat) :=
  let tmp1 : Option (List Nat) :=
    if st.xdigits_seen > 0 then
      if st.tmp.length + 2 > 16 then none
      else some (st.tmp ++ [st.val / 256 % 256, st.val % 256])
    else some st.tmp
  match tmp1 with
  | none => none
  | some tmp =>
    match st.colonp with
    | some colonp =>
      if tmp.length = 16 then none
      else some (tmp.take colonp ++ List.replicate (16 - tmp.length) 0 ++ tmp.drop colonp)
    | none => if tmp.length ≠ 16 then none else some tmp

/-- The `while` loop of glibc's `inet_pton6`; `none` is `return 0`. -/
def inet_pton6_loop : List Char → Pton6State → Option (List Nat)
  | [], st => inet_pton6_finish st
  | ch :: src, st =>
    match hex_digit_value ch with
    | some digit =>
      if st.xdigits_seen = 4 then none
      else
        let val := st.val * 16 + digit
        if val > 65535 then none
        else inet_pton6_loop src { st with val := val, xdigits_seen := st.xdigits_seen + 1 }
    | none =>
      if ch = ':' then
        if st.xdigits_seen = 0 then
          if st.colonp ≠ none then none
          else inet_pton6_loop src { st with curtok := src, colonp := some st.tmp.length }
        else if src = [] then none
        else if st.tmp.length + 2 > 16 then none
        else inet_pton6_loop src
          { st with curtok := src, tmp := st.tmp ++ [st.val / 256 % 256, st.val % 256],
                    xdigits_seen := 0, val := 0 }
      else if ch = '.' ∧ st.tmp.length + 4 ≤ 16 then
        match inet_pton4 st.curtok with
        | some quad => inet_pton6_finish { st with tmp := st.tmp ++ quad, xdigits_seen := 0 }
        | none => none
      else none

/-- Model of glibc's `inet_pton6`.  `none` is the result `0`. -/
def inet_pton6 (src : List Char) : Option (List Nat) :=
  if src = [] then none
  else
    let src1 : Option (List Char) :=
      if src.head? = some ':' then
        if src.tail = [] ∨ src.tail.head? ≠ some ':' then none else some src.tail
      else some src
    match src1 with
    | none => none
    | some s =>
      inet_pton6_loop s { tmp := [], colonp := none, curtok := s, xdigits_seen := 0, val := 0 }

/-- Model of `inet_pton`: `some bytes` when it returns `1`, with the bytes it
stores in the destination. -/
def inet_pton (af : Nat) (src : List Char) : Option (List Nat) :=
  if af = AF_INET then inet_pton4 src
  else if af = AF_INET6 then inet_pton6 src
  else none

/-- The character of a digit below ten, or of a hexadecimal digit below sixteen
in lower case. -/
def digit_char (d : Nat) : Char :=
  if d < 10 then Char.ofNat (48 + d) else Char.ofNat (97 + (d - 10))

/-- Digits of `n` in base `b`, most significant first, pushed in front of
`acc`; at least one digit. -/
def render_digits (b : Nat) : Nat → Nat → List Char → List Char
  | 0, _, acc => acc
  | fuel + 1, n, acc =>
    if n < b then digit_char n :: acc
    else render_digits b fuel (n / b) (digit_char (n % b) :: acc)

/-- Model of the conversion `%u` of `printf`. -/
def render_unsigned (n : Nat) : List Char := render_digits 10 (n + 1) n []

/-- Model of the conversion `%x` of `printf`. -/
def render_hex (n : Nat) : List Char := render_digits 16 (n + 1) n []

/-- Model of glibc's `inet_ntop4`: the conversion `%u.%u.%u.%u` of four bytes. -/
def inet_ntop4 (src : List Nat) : List Char :=
  render_unsigned (src.getD 0 0) ++ ['.'] ++ render_unsigned (src.getD 1 0) ++ ['.'] ++
    render_unsigned (src.getD 2 0) ++ ['.'] ++ render_unsigned (src.getD 3 0)

/-- A run of zero words in glibc's `inet_ntop6`: `base` is `none` for `-1`. -/
structure ZeroRun where
  base : Option Nat
  len : Nat
  deriving DecidableEq, Repr

/-- The loop of glibc's `inet_ntop6` that looks for the longest run of zero
words; `words` are the words from index `i` on. -/
def ntop6_scan : List Nat → Nat → ZeroRun → ZeroRun → ZeroRun × ZeroRun
  | [], _, best, cur => (best, cur)
  | w :: ws, i, best, cur =>
    if w = 0 then
      if cur.base = none then ntop6_scan ws (i + 1) best { base := some i, len := 1 }
      else ntop6_scan ws (i + 1) best { cur with len := cur.len + 1 }
    else
      if cur.base ≠ none then
        if best.base = none ∨ cur.len > best.len then
          ntop6_scan ws (i + 1) cur { cur with base := none }
        else ntop6_scan ws (i + 1) best { cur with base := none }
      else ntop6_scan ws (i + 1) best cur

/-- The run that glibc's `inet_ntop6` replaces by `::`. -/
def ntop6_best (words : List Nat) : ZeroRun :=
  match ntop6_scan words 0 { base := none, len := 0 } { base := none, len := 0 } with
  | (best, cur) =>
    let best1 :=
      if cur.base ≠ none then
        if best.base = none ∨ cur.len > best.len then cur else best
      else best
    if best1.base ≠ none ∧ best1.len < 2 then { best1 with base := none } else best1

/-- The formatting loop of glibc's `inet_ntop6` from word `i` on, for fuel
many words; the result is the text written and whether the loop was left by
`break`. -/
def ntop6_format (src : List Nat) (words : List Nat) (best : ZeroRun) :
    Nat → Nat → List Char → List Char
  | 0, _, tp => tp
  | fuel + 1, i, tp =>
    if best.base ≠ none ∧ i ≥ best.base.getD 0 ∧ i < best.base.getD 0 + best.len then
      ntop6_format src words best fuel (i + 1) (if some i = best.base then tp ++ [':'] else tp)
    else
      let tp1 := if i ≠ 0 then tp ++ [':'] else tp
      if i = 6 ∧ best.base = some 0 ∧
          (best.len = 6 ∨ (best.len = 5 ∧ words.getD 5 0 = 65535)) then
        tp1 ++ inet_ntop4 (src.drop 12)
      else ntop6_format src words best fuel (i + 1) (tp1 ++ render_hex (words.getD i 0))

/-- Model of glibc's `inet_ntop6` on the sixteen bytes `src`. -/
def inet_ntop6 (src : List Nat) : List Char :=
  let words := (List.range 8).map (fun i => src.getD (2 * i) 0 * 256 + src.getD (2 * i + 1) 0)
  let best := ntop6_best words
  let tp := ntop6_format src words best 8 0 []
  if best.base ≠ none ∧ best.base.getD 0 + best.len = 8 then tp ++ [':'] else tp

/-- Model of `inet_ntop` into a buffer that is large enough (the program
passes one of `INET6_ADDRSTRLEN` bytes): `none` is `NULL`, for a family that
is neither `AF_INET` nor `AF_INET6`. -/
def inet_ntop (af : Nat) (src : List Nat) : Option (List Char) :=
  if af = AF_INET then some (inet_ntop4 src)
  else if af = AF_INET6 then some (inet_ntop6 src)
  else none

/-! ## `cidr.c` -/

/-- The record `AddressRange` of `cidr.h`.  Each of the four arrays holds the
`addr_bytes` bytes that `parse_cidr` assigns; the code never reads the
remaining bytes of the sixteen. -/
structure AddressRange where
  addr_family : Nat
  addr_bytes : Nat
  prefix_length : Nat
  base : List Nat
  mask : List Nat
  start : List Nat
  end_ : List Nat
  deriving DecidableEq, Repr

/-- Offset of the first `/` of the C string at the start of a buffer, as
`strchr (cidr, '/')` finds it: the search ends at the first NUL. -/
def strchr_slash : List Char → Option Nat
  | [] => none
  | c :: cs =>
    if c = '/' then some 0
    else if c = NUL then none
    else (strchr_slash cs).map (· + 1)

/-- The value that a caller keeps of a result of type `unsigned long` when it
calls the function through the implicit declaration `int f ()`.  This is how
`cidr.c` calls `strtoul`: the file includes `stdio.h`, `stdint.h`, `stdbool.h`,
`ctype.h`, `string.h`, `arpa/inet.h`, `errno.h` and `cidr.h`, none of which
declares `strtoul`.  On the LP64 target the caller reads the low 32 bits of the
result as an `int` and converts that `int` to `unsigned long`. -/
def implicit_int_result (v : Nat) : Nat :=
  let low := v % 4294967296
  if low < 2147483648 then low else low + (18446744073709551616 - 4294967296)

/-- The mask that `parse_cidr` builds: `memset` to zero, `memset` of
`mask_bytes` bytes to `0xFF`, and the byte `0xFF << (8 - remaining_mask_bits)`
cut to eight bits at index `mask_bytes` when `remaining_mask_bits` is not zero. -/
def cidr_mask (addr_bytes prefix_length : Nat) : List Nat :=
  let mask_bytes := prefix_length / 8
  let remaining_mask_bits := prefix_length % 8
  let mask0 := List.replicate addr_bytes 0
  let mask1 := (List.range addr_bytes).map (fun i => if i < mask_bytes then 255 else mask0.getD i 0)
  if remaining_mask_bits ≠ 0 then
    mask1.set mask_bytes (255 * 2 ^ (8 - remaining_mask_bits) % 256)
  else mask1

/-- Embedding of `parse_cidr`.  The first component is the range on success and
the value left in `errno` on failure; the second component is the caller's
buffer as the call leaves it (the function writes a NUL over the `/` and puts
the `/` back).  `cidr.c` does not include `<stdlib.h>`, so the value of
`strtoul` reaches `prefix_length` through `implicit_int_result`. -/
def parse_cidr_buf (cidr : List Char) : Except Nat AddressRange × List Char :=
  if char_at cidr 0 = NUL ∨ char_at cidr 1 = NUL ∨ char_at cidr 2 = NUL ∨ char_at cidr 3 = NUL then
    (.error 1, cidr)
  else
    let v4 : Bool := char_at cidr 3 = '.' ∨ char_at cidr 2 = '.' ∨ char_at cidr 1 = '.'
    let addr_family := if v4 then AF_INET else AF_INET6
    let addr_bytes := if v4 then IPV4_BYTES else IPV6_BYTES
    match strchr_slash cidr with
    | none => (.error 2, cidr)
    | some separator =>
      if ¬ isdigit (char_at cidr (separator + 1)) then (.error 3, cidr)
      else
        let r := strtoul (cidr.drop (separator + 1))
        let prefix_length := implicit_int_result r.1
        if r.2 ∧ prefix_length = 0 then (.error 4, cidr)
        else if prefix_length > addr_bytes * 8 then (.error 5, cidr)
        else
          let cidr1 := cidr.set separator NUL
          let base_valid := inet_pton addr_family (cstr_at cidr1 0)
          let cidr2 := cidr1.set separator '/'
          match base_valid with
          | none => (.error 6, cidr2)
          | some base =>
            let mask := cidr_mask addr_bytes prefix_length
            let start := (List.range addr_bytes).map (fun i => base.getD i 0 &&& mask.getD i 0)
            let end_ := (List.range addr_bytes).map
              (fun i => (start.getD i 0 ||| (255 - mask.getD i 0)) % 256)
            (.ok { addr_family := addr_family, addr_bytes := addr_bytes,
                   prefix_length := prefix_length % 256, base := base, mask := mask,
                   start := start, end_ := end_ }, cidr2)

/-- The result of `parse_cidr`: the range, or the value of `errno`. -/
def parse_cidr (cidr : List Char) : Except Nat AddressRange := (parse_cidr_buf cidr).1

/-- Embedding of `unparse_cidr`: the text that `snprintf` leaves in `dest`, a
buffer of `length` bytes, or the value of `errno`. -/
def unparse_cidr (range : AddressRange) (length : Nat) : Except Nat (List Char) :=
  match inet_ntop range.addr_family range.base with
  | none => .error 1
  | some buf =>
    let text := buf ++ ['/'] ++ render_unsigned range.prefix_length
    if text.length = 0 then .error 2
    else .ok (text.take (length - 1))

/-- Model of `memcmp` over the first `n` bytes of two arrays that hold at
least `n` bytes: zero when they agree, else the difference of the first two
bytes that differ. -/
def memcmp : List Nat → List Nat → Nat → Int
  | a :: as, b :: bs, n + 1 => if a = b then memcmp as bs n else (a : Int) - (b : Int)
  | _, _, _ => 0

/-- Embedding of `compare_addrs`. -/
def compare_addrs (addr1 addr2 : List Nat) (addr_family : Nat) : Int :=
  let addr_bytes := if addr_family = AF_INET6 then IPV6_BYTES else IPV4_BYTES
  memcmp addr1 addr2 addr_bytes

/-- The loop `for (i = addr_bytes - 1; i >= 0; i--)` of `inc_addr`.  `i` is
`unsigned`, so the test `i >= 0` always holds and `i--` at `0` gives
`UINT_MAX`: when every byte equals `find` the loop goes on at `addr[UINT_MAX]`. -/
def inc_addr_loop (find replace : Nat) (inc_dec : Int) :
    Nat → List Nat → Nat → Except Fault (List Nat)
  | 0, _, _ => .error .no_fuel
  | fuel + 1, addr, i =>
    match addr[i]? with
    | none => .error (.out_of_bounds i)
    | some b =>
      if b = find then
        inc_addr_loop find replace inc_dec fuel (addr.set i replace)
          ((i + 4294967296 - 1) % 4294967296)
      else .ok (addr.set i (((b : Int) + inc_dec) % 256).toNat)

/-- Embedding of `inc_addr` on the `addr_bytes` bytes of the address.  The
result is `none` when the function returns `false`, else the address as the
call leaves it. -/
def inc_addr (addr : List Nat) (addr_family : Nat) (inc_dec : Int) :
    Except Fault (Option (List Nat)) :=
  if addr_family ≠ AF_INET ∧ addr_family ≠ AF_INET6 then .ok none
  else
    let addr_bytes := if addr_family = AF_INET then IPV4_BYTES else IPV6_BYTES
    if inc_dec = 0 then .ok none
    else
      let find := if inc_dec > 0 then 255 else 0
      let replace := if inc_dec > 0 then 0 else 255
      let inc_dec1 : Int := if inc_dec > 0 then 1 else -1
      match inc_addr_loop find replace inc_dec1 (addr_bytes + 1) addr (addr_bytes - 1) with
      | .error f => .error f
      | .ok addr1 => .ok (some addr1)

/-- Embedding of `ranges_contiguous`. -/
def ranges_contiguous (range1 range2 : AddressRange) : Except Fault Bool :=
  if range1.addr_family ≠ range2.addr_family then .ok false
  else
    let addr_family := range1.addr_family
    let comparison := compare_addrs range1.start range2.start addr_family
    if comparison = 0 then .ok false
    else
      let first := if comparison < 0 then range1 else range2
      let second := if comparison < 0 then range2 else range1
      let end1 := first.end_.take first.addr_bytes
      match inc_addr end1 addr_family 1 with
      | .error f => .error f
      | .ok none => .ok false
      | .ok (some end1) => .ok (compare_addrs end1 second.start addr_family = 0)

/-! ## `process_range_file` -/

/-- An output file: its bytes and the position of the stream. -/
structure File where
  data : List Nat
  pos : Nat
  deriving DecidableEq, Repr

/-- A file just opened with `fopen (name, "w")`. -/
def File.empty : File := { data := [], pos := 0 }

/-- Model of `fseek (f, offset, SEEK_CUR)`: `none` when the call fails because
the position would become negative. -/
def fseek_cur (f : File) (offset : Int) : Option File :=
  if (f.pos : Int) + offset < 0 then none
  else some { f with pos := ((f.pos : Int) + offset).toNat }

/-- Model of `fwrite` of the bytes `bytes` at the position of the stream. -/
def fwrite (f : File) (bytes : List Nat) : File :=
  { data := f.data.take f.pos ++ bytes ++ f.data.drop (f.pos + bytes.length),
    pos := f.pos + bytes.length }

/-- The array `out_files`, indexed by country position: `none` is `NULL`. -/
abbrev OutFiles := Nat → Option File

/-- Assignment `out_files[pos] = f`. -/
def OutFiles.set (out_files : OutFiles) (pos : Nat) (f : File) : OutFiles :=
  fun p => if p = pos then some f else out_files p

/-- The required header names of `process_range_file`. -/
def RANGE_REQUIRED_COLS : List (List Char) :=
  ["network".toList, "geoname_id".toList, "registered_country_geoname_id".toList,
   "is_anonymous_proxy".toList, "is_satellite_provider".toList]

/-- The column variables of `process_range_file`; one that was never assigned
is `none`. -/
structure RangeCols where
  highest_col : Option Nat
  cidr_col : Option Nat
  geoname_id_col : Option Nat
  registered_geoname_id_col : Option Nat
  proxy_col : Option Nat
  sat_col : Option Nat
  deriving DecidableEq, Repr

/-- The local variables of `process_range_file` that live across lines, the
output files, and the `static` variables of `get_country`.  `last_range` is
`none` until the first assignment. -/
structure RangeFileState where
  out_files : OutFiles
  num_ranges : Nat
  last_country_pos : Nat
  last_range : Option AddressRange
  cache : CountryCache
  cols : RangeCols

/-- What `process_range_file` hands back: the value returned, the message left
in `*err_msg` (`none` for `NULL`; otherwise the text and the line number that
`snprintf` appends to it, `0` when none is appended), the output files as the
call leaves them, and the `static` variables of `get_country`. -/
structure RangeFileResult where
  num_ranges : Nat
  err_msg : Option (String × Nat)
  out_files : OutFiles
  cache : CountryCache

/-- What one pass through the body of a loop does. -/
inductive Outcome (σ : Type) where
  /-- the pass ends and the loop goes on with the next line -/
  | next (st : σ)
  /-- the pass sets the count to zero, stores the message and jumps to `end` -/
  | fatal (st : σ) (msg : String)
  /-- the pass leaves the behaviour C defines -/
  | fault (f : Fault)

/-- The loop `for (i = 0; i < num_countries; i++)` of `process_range_file` that
opens one output file for each country that is not forbidden. -/
def open_out_files : List Country → OutFiles → Except Fault OutFiles
  | [], out_files => .ok out_files
  | c :: cs, out_files =>
    if c.forbidden then open_out_files cs out_files
    else
      let country_pos := country_code_pos c.country_code
      if country_pos ≥ MAX_COUNTRIES then .error (.out_of_bounds country_pos)
      else open_out_files cs (out_files.set country_pos File.empty)

/-- What lines 624 to 684 of `process_range_file` make of one data line. -/
inductive RowClass where
  /-- the line is skipped by `continue`; the cache is what `get_country` left -/
  | skip (cache : CountryCache)
  /-- the line reaches the write of `range` to the file at `country_pos` -/
  | compile (country_pos : Nat) (range : AddressRange) (cache : CountryCache)
  /-- the line stops the run with a message -/
  | fatal (msg : String) (cache : CountryCache)
  /-- the line leaves the behaviour C defines -/
  | fault (f : Fault)
  deriving DecidableEq, Repr

/-- Lines 649 to 653 of `process_range_file`: the country of the line is looked
up with `get_country`, and `O1` is looked up instead when there is none. -/
def resolve_country (num_countries arr : Nat) (countries : List Country)
    (cache : CountryCache) (geoname_id : Nat) (proxy sat : Bool) :
    Except Fault (Option Nat × CountryCache) :=
  match get_country geoname_id proxy sat num_countries arr countries cache with
  | .error f => .error f
  | .ok (some index, cache1) => .ok (some index, cache1)
  | .ok (none, cache1) =>
    get_country OTHER_GEONAME_ID false false num_countries arr countries cache1

/-- What lines 624 to 657 of `process_range_file` make of one data line. -/
inductive RowLookup where
  /-- the line resolves to the record at `index` of the array -/
  | found (index : Nat) (cache : CountryCache)
  /-- the array has no record for the line, not even `O1`: the line is skipped -/
  | unknown (cache : CountryCache)
  /-- the line stops the run with a message -/
  | fatal (msg : String) (cache : CountryCache)
  /-- the line leaves the behaviour C defines -/
  | fault (f : Fault)
  deriving DecidableEq, Repr

/-- Lines 624 to 657 of `process_range_file` for the tokenized data line
`line_data`: the number of columns is checked, the identifier is read from the
`geoname_id` column, or from the registered one when the first does not start
with a digit, a reserved identifier stops the run, the two flags are read and
the country is resolved. -/
def row_lookup (num_countries arr : Nat) (countries : List Country) (cols : RangeCols)
    (cache : CountryCache) (line_data : Tokenized) : RowLookup :=
  match cols.highest_col with
  | none => .fault .uninitialised
  | some highest_col =>
    if line_data.tokens.length < highest_col + 1 then .fatal "Insufficient columns." cache
    else
      match cols.geoname_id_col.bind line_data.col with
      | none => .fault .uninitialised
      | some geoname_id_field =>
        let geoname_id_str : Option (List Char) :=
          if isdigit (char_at geoname_id_field 0) then some geoname_id_field
          else cols.registered_geoname_id_col.bind line_data.col
        match geoname_id_str with
        | none => .fault .uninitialised
        | some geoname_id_str =>
          let geoname_id := (strtoul geoname_id_str).1
          if geoname_id_reserved geoname_id then .fatal "Reserved geoname_id." cache
          else
            match cols.proxy_col.bind line_data.col, cols.sat_col.bind line_data.col with
            | some proxy_field, some sat_field =>
              match resolve_country num_countries arr countries cache geoname_id
                  (str2bool proxy_field) (str2bool sat_field) with
              | .error f => .fault f
              | .ok (none, cache2) => .unknown cache2
              | .ok (some index, cache2) => .found index cache2
            | _, _ => .fault .uninitialised

/-- Lines 624 to 684 of `process_range_file` for the tokenized data line
`line_data`: after the lookup, lines of unknown or forbidden countries are
skipped, the two assertions are checked and the CIDR is parsed. -/
def classify_row (addr_family num_countries arr : Nat) (countries : List Country)
    (out_files : OutFiles) (cols : RangeCols) (cache : CountryCache) (line_data : Tokenized) :
    RowClass :=
  match row_lookup num_countries arr countries cols cache line_data with
  | .fault f => .fault f
  | .fatal msg cache1 => .fatal msg cache1
  | .unknown cache2 => .skip cache2
  | .found index cache2 =>
    match countries[index]? with
    | none => .fault (.out_of_bounds index)
    | some country =>
      if country.forbidden then .skip cache2
      else
        let country_pos := country_code_pos country.country_code
        if country_pos = 0 then .fault .assert_failed
        else if country_pos ≥ MAX_COUNTRIES then .fault (.out_of_bounds country_pos)
        else if out_files country_pos = none then .fault .assert_failed
        else
          match cols.cidr_col.bind line_data.col with
          | none => .fault .uninitialised
          | some cidr =>
            match parse_cidr cidr with
            | .error _ => .fatal "Invalid CIDR." cache2
            | .ok range =>
              if range.addr_family ≠ addr_family then .fatal "Wrong address family." cache2
              else .compile country_pos range cache2

/-- Lines 686 to 717 of `process_range_file`: the range is merged into the last
pair of the file of its country or written as a new pair, and the count and
the two `last` variables are updated. -/
def write_range (st : RangeFileState) (country_pos : Nat) (range : AddressRange) :
    Outcome RangeFileState :=
  match st.out_files country_pos with
  | none => .fault .assert_failed
  | some file =>
    let merge : Except Fault Bool :=
      if country_pos = st.last_country_pos then
        match st.last_range with
        | none => .error .uninitialised
        | some last_range => ranges_contiguous range last_range
      else .ok false
    match merge with
    | .error f => .fault f
    | .ok merge =>
      let sought : Option (File × Bool) :=
        if merge then (fseek_cur file (-(range.addr_bytes : Int))).map (fun f => (f, false))
        else some (file, true)
      match sought with
      | none => .fatal st "Seek error."
      | some (file1, write_start) =>
        let file2 := if write_start then fwrite file1 (range.start.take range.addr_bytes) else file1
        let file3 := fwrite file2 (range.end_.take range.addr_bytes)
        .next { st with out_files := st.out_files.set country_pos file3,
                        num_ranges := (st.num_ranges + 1) % 4294967296,
                        last_country_pos := country_pos,
                        last_range := some range }

/-- The body of the loop of `process_range_file` for a data line. -/
def process_range_row (addr_family num_countries arr : Nat) (countries : List Country)
    (st : RangeFileState) (line_data : Tokenized) : Outcome RangeFileState :=
  match classify_row addr_family num_countries arr countries st.out_files st.cols st.cache
      line_data with
  | .fault f => .fault f
  | .fatal msg cache => .fatal { st with cache := cache } msg
  | .skip cache => .next { st with cache := cache }
  | .compile country_pos range cache => write_range { st with cache := cache } country_pos range

/-- Lines 606 to 618 of `process_range_file`: the column variables that the
header line `line_data` gives, or `none` when `detect_columns` does not return
`MIN_COLS`. -/
def range_header_cols (line_data : Tokenized) : Option RangeCols :=
  match detect_columns line_data.cols RANGE_REQUIRED_COLS with
  | (num_found, column_positions, highest_column) =>
    if num_found ≠ 5 then none
    else some
      { highest_col := highest_column,
        cidr_col := (column_positions[0]?).join,
        geoname_id_col := (column_positions[1]?).join,
        registered_geoname_id_col := (column_positions[2]?).join,
        proxy_col := (column_positions[3]?).join,
        sat_col := (column_positions[4]?).join }

/-- The code after the label `end` of `process_range_file`. -/
def process_range_end (st : RangeFileState) (failed : Bool) (msg : String) (line_num : Nat) :
    RangeFileResult :=
  let num_ranges := if failed then 0 else st.num_ranges
  { num_ranges := num_ranges,
    err_msg := if num_ranges ≠ 0 then none else some (msg, line_num),
    out_files := st.out_files,
    cache := st.cache }

/-- The loop `for (line_num = 1; ; line_num++)` of `process_range_file`, over
the lines that `fgets` still has to return. -/
def process_range_lines (addr_family num_countries arr : Nat) (countries : List Country) :
    List (List Char) → Nat → RangeFileState → Except Fault RangeFileResult
  | [], line_num, st => .ok (process_range_end st false "No usable data in file." line_num)
  | line :: rest, line_num, st =>
    if line.length = 0 then
      process_range_lines addr_family num_countries arr countries rest (line_num + 1) st
    else if line.length = MAX_LINE - 1 then
      .ok (process_range_end st true "Line too long." line_num)
    else
      match tokenize_csv line MAX_COLS with
      | .error f => .error f
      | .ok line_data =>
        if line_num = 1 then
          match range_header_cols line_data with
          | none =>
            .ok (process_range_end st true "Required columns not found in header." line_num)
          | some cols =>
            process_range_lines addr_family num_countries arr countries rest (line_num + 1)
              { st with cols := cols }
        else
          match process_range_row addr_family num_countries arr countries st line_data with
          | .fault f => .error f
          | .fatal st1 msg => .ok (process_range_end st1 true msg line_num)
          | .next st1 =>
            process_range_lines addr_family num_countries arr countries rest (line_num + 1) st1

/-- Embedding of `process_range_file`.  `lines` are the lines of the range file
as `fgets` returns them, `arr` is the value of the pointer `countries`,
`cache` holds the `static` variables of `get_country` at the time of the call. -/
def process_range_file (lines : List (List Char)) (addr_family num_countries arr : Nat)
    (countries : List Country) (cache : CountryCache) : Except Fault RangeFileResult :=
  if num_countries = 0 then
    .ok { num_ranges := 0, err_msg := some ("No countries to process.", 0),
          out_files := fun _ => none, cache := cache }
  else if addr_family ≠ AF_INET ∧ addr_family ≠ AF_INET6 then
    .ok { num_ranges := 0, err_msg := some ("Invalid address family.", 0),
          out_files := fun _ => none, cache := cache }
  else
    match open_out_files (countries.take num_countries) (fun _ => none) with
    | .error f => .error f
    | .ok out_files =>
      process_range_lines addr_family num_countries arr countries lines 1
        { out_files := out_files, num_ranges := 0, last_country_pos := 0, last_range := none,
          cache := cache,
          cols := { highest_col := none, cidr_col := none, geoname_id_col := none,
                    registered_geoname_id_col := none, proxy_col := none, sat_col := none } }

/-! ## Notions used to state the properties of the range compiler -/

/-- The unsigned big-endian integer that the bytes of an address form. -/
def addr_val : List Nat → Nat
  | [] => 0
  | b :: bs => b * 256 ^ bs.length + addr_val bs

/-- The byte width of the addresses of a range file of family `addr_family`. -/
def family_bytes (addr_family : Nat) : Nat :=
  if addr_family = AF_INET then IPV4_BYTES else IPV6_BYTES

/-- The pairs of addresses of `w` bytes each that the first `fuel` chunks of
`2 * w` bytes of `data` hold. -/
def file_pairs (w : Nat) : Nat → List Nat → List (List Nat × List Nat)
  | 0, _ => []
  | fuel + 1, data =>
    if w = 0 ∨ data.length < 2 * w then []
    else (data.take w, (data.drop w).take w) :: file_pairs w fuel (data.drop (2 * w))

/-- The (start, end) pairs that an output file of addresses of `w` bytes holds. -/
def sink_pairs (w : Nat) (data : List Nat) : List (List Nat × List Nat) :=
  file_pairs w data.length data

/-- The bytes of a list of (start, end) pairs, in file order. -/
def pairs_bytes : List (List Nat × List Nat) → List Nat
  | [] => []
  | p :: ps => p.1 ++ p.2 ++ pairs_bytes ps

/-- The data rows of a range file that reach the write, in file order, each with
the position of its country and its parsed range: the rows "compiled" by
`process_range_file`.  The list ends at the first line that stops the run.
`out_files` are the files opened before the first line is read. -/
def compiled_rows (addr_family num_countries arr : Nat) (countries : List Country)
    (out_files : OutFiles) :
    List (List Char) → Nat → RangeCols → CountryCache → List (Nat × AddressRange)
  | [], _, _, _ => []
  | line :: rest, line_num, cols, cache =>
    if line.length = 0 then
      compiled_rows addr_family num_countries arr countries out_files rest (line_num + 1)
        cols cache
    else if line.length = MAX_LINE - 1 then []
    else
      match tokenize_csv line MAX_COLS with
      | .error _ => []
      | .ok line_data =>
        if line_num = 1 then
          match range_header_cols line_data with
          | none => []
          | some cols1 =>
            compiled_rows addr_family num_countries arr countries out_files rest
              (line_num + 1) cols1 cache
        else
          match classify_row addr_family num_countries arr countries out_files cols cache
              line_data with
          | .skip cache1 =>
            compiled_rows addr_family num_countries arr countries out_files rest
              (line_num + 1) cols cache1
          | .compile country_pos range cache1 =>
            (country_pos, range) ::
              compiled_rows addr_family num_countries arr countries out_files rest
                (line_num + 1) cols cache1
          | .fatal _ _ => []
          | .fault _ => []

/-- The rows compiled by a call of `process_range_file`. -/
def compiled_rows_of (lines : List (List Char)) (addr_family num_countries arr : Nat)
    (countries : List Country) (cache : CountryCache) : List (Nat × AddressRange) :=
  match open_out_files (countries.take num_countries) (fun _ => none) with
  | .error _ => []
  | .ok out_files =>
    compiled_rows addr_family num_countries arr countries out_files lines 1
      { highest_col := none, cidr_col := none, geoname_id_col := none,
        registered_geoname_id_col := none, proxy_col := none, sat_col := none } cache

/-- Two ranges share no address. -/
def RangesDisjoint (r1 r2 : AddressRange) : Prop :=
  addr_val r1.end_ < addr_val r2.start ∨ addr_val r2.end_ < addr_val r1.start

/-- The ranges are in ascending order of their start address and pairwise
disjoint. -/
def SortedDisjoint (ranges : List AddressRange) : Prop :=
  ranges.Pairwise (fun r1 r2 => addr_val r1.start < addr_val r2.start ∧ RangesDisjoint r1 r2)

/-- The address with value `a` lies in one of the (start, end) pairs. -/
def PairsCover (pairs : List (List Nat × List Nat)) (a : Nat) : Prop :=
  ∃ p ∈ pairs, addr_val p.1 ≤ a ∧ a ≤ addr_val p.2

/-- The address with value `a` lies in the range of one of the rows compiled
for the country at position `country_pos`. -/
def RowsCover (rows : List (Nat × AddressRange)) (country_pos : Nat) (a : Nat) : Prop :=
  ∃ e ∈ rows, e.1 = country_pos ∧ addr_val e.2.start ≤ a ∧ a ≤ addr_val e.2.end_

/-- An address of `n` bytes: `n` values below 256. -/
def AddrOK (n : Nat) (a : List Nat) : Prop := a.length = n ∧ ∀ b ∈ a, b < 256

/-- A range as `parse_cidr` builds them for a file of family `addr_family`: the
family and the width agree, start and end are addresses of that width, and the
start is not above the end. -/
def RangeOK (addr_family : Nat) (r : AddressRange) : Prop :=
  r.addr_family = addr_family ∧ r.addr_bytes = family_bytes addr_family ∧
    AddrOK (family_bytes addr_family) r.start ∧ AddrOK (family_bytes addr_family) r.end_ ∧
    addr_val r.start ≤ addr_val r.end_

/-- The state that `write_range` leaves when it stores `file` for the country
at `country_pos`. -/
def RangeFileState.written (st : RangeFileState) (country_pos : Nat) (range : AddressRange)
    (file : File) : RangeFileState :=
  { st with out_files := st.out_files.set country_pos file,
            num_ranges := (st.num_ranges + 1) % 4294967296,
            last_country_pos := country_pos,
            last_range := some range }

/-- The pairs of a file are addresses of `w` bytes with the start not above the
end. -/
def PairsOK (w : Nat) (pairs : List (List Nat × List Nat)) : Prop :=
  ∀ p ∈ pairs, AddrOK w p.1 ∧ AddrOK w p.2 ∧ addr_val p.1 ≤ addr_val p.2

/-- What holds between the variables of the loop of `process_range_file` and
the rows compiled so far: every open file holds whole pairs that cover exactly
the ranges of the rows compiled for its position, its stream stands at its end,
and the file of the country written last ends with the end of the range written
last. -/
structure RunInv (addr_family : Nat) (out_files : OutFiles) (last_country_pos : Nat)
    (last_range : Option AddressRange) (rows : List (Nat × AddressRange)) : Prop where
  rows_ok : ∀ e ∈ rows, RangeOK addr_family e.2
  files : ∀ pos file, out_files pos = some file →
    ∃ pairs, file.data = pairs_bytes pairs ∧ file.pos = file.data.length ∧
      PairsOK (family_bytes addr_family) pairs ∧
      (∀ a, PairsCover pairs a ↔ RowsCover rows pos a) ∧
      (last_country_pos ≠ 0 → pos = last_country_pos →
        ∃ pre s lr, last_range = some lr ∧ pairs = pre ++ [(s, lr.end_)])
  last : last_country_pos ≠ 0 →
    ∃ lr, last_range = some lr ∧ (last_country_pos, lr) ∈ rows ∧
      out_files last_country_pos ≠ none

/-- Every earlier range ends before every later range starts. -/
def EndsBeforeStarts (rows : List (Nat × AddressRange)) : Prop :=
  rows.Pairwise (fun e1 e2 => addr_val e1.2.end_ < addr_val e2.2.start)

instance (r1 r2 : AddressRange) : Decidable (RangesDisjoint r1 r2) := by
  unfold RangesDisjoint; infer_instance

instance (ranges : List AddressRange) : Decidable (SortedDisjoint ranges) := by
  unfold SortedDisjoint; infer_instance

instance (rows : List (Nat × AddressRange)) : Decidable (EndsBeforeStarts rows) := by
  unfold EndsBeforeStarts; infer_instance

/-! ## Sample inputs used to instantiate the properties -/

/-- A registry of two real countries followed by the three virtual ones. -/
def sample_countries : List Country :=
  [⟨5, "PT".toList, false⟩, ⟨9, "ES".toList, false⟩,
   ⟨PROXY_GEONAME_ID, PROXY_COUNTRY_CODE, false⟩, ⟨SAT_GEONAME_ID, SAT_COUNTRY_CODE, false⟩,
   ⟨OTHER_GEONAME_ID, OTHER_COUNTRY_CODE, false⟩]

/-- The header line of a range file in the layout of the GeoLite2 country
blocks. -/
def sample_range_header : List Char :=
  ("network,geoname_id,registered_country_geoname_id,represented_country_geoname_id," ++
    "is_anonymous_proxy,is_satellite_provider\n").toList

/-- The tokenized form of a line that `tokenize_csv` accepts. -/
def tokenized (line : List Char) : Tokenized :=
  match tokenize_csv line MAX_COLS with
  | .ok line_data => line_data
  | .error _ => { line := [], tokens := [] }

/-- The column variables that `sample_range_header` gives. -/
def sample_cols : RangeCols :=
  { highest_col := some 5, cidr_col := some 0, geoname_id_col := some 1,
    registered_geoname_id_col := some 2, proxy_col := some 4, sat_col := some 5 }

/-- The range of `10.0.0.0/24`. -/
def sample_range : AddressRange :=
  { addr_family := AF_INET, addr_bytes := 4, prefix_length := 24, base := [10, 0, 0, 0],
    mask := [255, 255, 255, 0], start := [10, 0, 0, 0], end_ := [10, 0, 0, 255] }

/-- The variables of the loop of `process_range_file` after the header and the
row `10.0.0.0/24` of the country `PT` of `sample_countries`: the file of `PT`
(position 21584) holds one pair, the files of `ES` (21317), `A1` (12609), `A2`
(12865) and `O1` (12623) are empty. -/
def sample_state : RangeFileState :=
  { out_files := fun p =>
      if p = 21584 then some { data := [10, 0, 0, 0, 10, 0, 0, 255], pos := 8 }
      else if p = 21317 ∨ p = 12609 ∨ p = 12865 ∨ p = 12623 then some File.empty
      else none,
    num_ranges := 1, last_country_pos := 21584, last_range := some sample_range,
    cache := { cached_geoname_id := 5, cached_country_arr := 4096, cached_country := some 0 },
    cols := sample_cols }

/-- The registry `sample_countries` with the country `ES` forbidden. -/
def sample_countries_es_forbidden : List Country :=
  [⟨5, "PT".toList, false⟩, ⟨9, "ES".toList, true⟩,
   ⟨PROXY_GEONAME_ID, PROXY_COUNTRY_CODE, false⟩, ⟨SAT_GEONAME_ID, SAT_COUNTRY_CODE, false⟩,
   ⟨OTHER_GEONAME_ID, OTHER_COUNTRY_CODE, false⟩]

/-- What holds of the local variables of `inet_pton4` throughout its loop. -/
def Pton4Inv (st : Pton4State) : Prop :=
  st.cur ≤ 255 ∧ (∀ b ∈ st.done, b ≤ 255) ∧
    (st.saw_digit = true → st.done.length + 1 = st.octets) ∧
    (st.saw_digit = false → st.done.length = st.octets ∧ st.octets ≤ 3) ∧ st.octets ≤ 4

/-- What holds of the local variables of `inet_pton6` throughout its loop. -/
def Pton6Inv (st : Pton6State) : Prop :=
  (∀ b ∈ st.tmp, b < 256) ∧ st.tmp.length ≤ 16 ∧ ∀ c, st.colonp = some c → c ≤ st.tmp.length

/-- Hexadecimal groups separated by colons, as `inet_ntop6` writes a run of
words. -/
def groups_text : List Nat → List Char
  | [] => []
  | [w] => render_hex w
  | w :: ws => render_hex w ++ ':' :: groups_text ws

/-- The bytes of a list of 16 bit words, most significant byte first. -/
def word_bytes : List Nat → List Nat
  | [] => []
  | w :: ws => (w / 256 % 256) :: (w % 256) :: word_bytes ws

/-- A run of zero words found among the first `n` words: where it has a base,
it has at least one word, ends within the first `n` words and covers only
zero words. -/
def ZeroRunOK (words : List Nat) (n : Nat) (r : ZeroRun) : Prop :=
  ∀ b, r.base = some b →
    1 ≤ r.len ∧ b + r.len ≤ n ∧ ∀ j, b ≤ j → j < b + r.len → words.getD j 0 = 0

/-- The run of zero words that is open at word `i`: where it has a base, it
ends exactly before word `i`. -/
def ZeroRunCur (words : List Nat) (i : Nat) (r : ZeroRun) : Prop :=
  ∀ b, r.base = some b →
    1 ≤ r.len ∧ b + r.len = i ∧ ∀ j, b ≤ j → j < b + r.len → words.getD j 0 = 0

/-- A character that `inet_ntop` writes: a colon, a dot, or a digit in lower
case hexadecimal. -/
def AddrChar (c : Char) : Prop := c = ':' ∨ c = '.' ∨ ∃ d, d < 16 ∧ c = digit_char d

/-- The range of `2001:db8::1/64`. -/
def sample_v6_range : AddressRange :=
  { addr_family := AF_INET6, addr_bytes := 16, prefix_length := 64,
    base := [32, 1, 13, 184, 0, 0, 0, 0, 0, 0, 0, 0, 0, 0, 0, 1],
    mask := [255, 255, 255, 255, 255, 255, 255, 255, 0, 0, 0, 0, 0, 0, 0, 0],
    start := [32, 1, 13, 184, 0, 0, 0, 0, 0, 0, 0, 0, 0, 0, 0, 0],
    end_ := [32, 1, 13, 184, 0, 0, 0, 0, 255, 255, 255, 255, 255, 255, 255, 255] }

/-- A mask of `w` bytes that has exactly its `p` high-order bits set: bit `j`,
counted from the most significant bit of byte `0`, is set exactly when
`j < p`, and no byte has a bit above its eight. -/
def MaskHasHighBits (mask : List Nat) (w p : Nat) : Prop :=
  mask.length = w ∧ (∀ i, i < w → mask.getD i 0 < 256) ∧
    ∀ j, j < 8 * w → (mask.getD (j / 8) 0).testBit (7 - j % 8) = decide (j < p)

/-- The range of `10.1.2.3/32`. -/
def sample_host_range : AddressRange :=
  { addr_family := AF_INET, addr_bytes := 4, prefix_length := 32, base := [10, 1, 2, 3],
    mask := [255, 255, 255, 255], start := [10, 1, 2, 3], end_ := [10, 1, 2, 3] }

/-- The range of `0.0.0.0/0`. -/
def sample_whole_range : AddressRange :=
  { addr_family := AF_INET, addr_bytes := 4, prefix_length := 0, base := [0, 0, 0, 0],
    mask := [0, 0, 0, 0], start := [0, 0, 0, 0], end_ := [255, 255, 255, 255] }

/-! ## `set_filtered_countries` -/

/-- The loop `for (i = 0; i < num_countries; i++) countries[i].forbidden = true`
of `set_filtered_countries`, with `n` records still to go from index `i`.  The
embedding holds the records of the array only; a write beyond them is a
fault. -/
def forbid_all : Nat → Nat → List Country → Except Fault (List Country)
  | 0, _, countries => .ok countries
  | n + 1, i, countries =>
    match countries[i]? with
    | none => .error (.out_of_bounds i)
    | some c => forbid_all n (i + 1) (countries.set i { c with forbidden := true })

/-- The loop of `set_filtered_countries` over the 0-terminated array
`country_positions`, from index `i` on.  `country_code_lookup` has
`MAX_COUNTRIES` entries, so a position `MAX_COUNTRIES` (the largest value of
`uint16_t`) is read outside of it; an entry that is not `NULL` is the index of
a record.  `i` and `processed` stay below the number of entries read. -/
def filter_loop (country_code_lookup : CodeLookup) (country_positions : List Nat)
    (forbid : Bool) : Nat → Nat → List Country → Nat → Except Fault (List Country × Nat)
  | 0, _, _, _ => .error .no_fuel
  | fuel + 1, i, countries, processed =>
    match country_positions[i]? with
    | none => .error (.out_of_bounds i)
    | some country_pos =>
      if country_pos = 0 then .ok (countries, processed)
      else if country_pos ≥ MAX_COUNTRIES then .error (.out_of_bounds country_pos)
      else
        match country_code_lookup country_pos with
        | none => filter_loop country_code_lookup country_positions forbid fuel (i + 1)
            countries processed
        | some k =>
          match countries[k]? with
          | none => .error (.out_of_bounds k)
          | some c =>
            if c.forbidden ≠ forbid then
              filter_loop country_code_lookup country_positions forbid fuel (i + 1)
                (countries.set k { c with forbidden := forbid }) (processed + 1)
            else
              filter_loop country_code_lookup country_positions forbid fuel (i + 1)
                countries processed

/-- Embedding of `set_filtered_countries`.  The first component is the value
returned, `none` for the `return;` without a value that the function executes
when `num_countries` is zero; the second is the array `countries` as the call
leaves it. -/
def set_filtered_countries (num_countries : Nat) (countries : List Country)
    (country_code_lookup : CodeLookup) (country_positions : List Nat) (forbid : Bool) :
    Except Fault (Option Nat × List Country) :=
  if num_countries = 0 then .ok (none, countries)
  else
    match (if ¬ forbid then forbid_all num_countries 0 countries else .ok countries) with
    | .error f => .error f
    | .ok countries1 =>
      match filter_loop country_code_lookup country_positions forbid
          (country_positions.length + 1) 0 countries1 0 with
      | .error f => .error f
      | .ok (countries2, processed) => .ok (some processed, countries2)

/-- The index `country_code_lookup` is consistent with the array `countries`:
every record is found at the position of its code, and every entry that is not
`NULL` is the index of a record whose code has that position. -/
def LookupConsistent (country_code_lookup : CodeLookup) (countries : List Country) : Prop :=
  (∀ k c, countries[k]? = some c →
    country_code_lookup (country_code_pos c.country_code) = some k) ∧
  (∀ pos k, country_code_lookup pos = some k →
    ∃ c, countries[k]? = some c ∧ country_code_pos c.country_code = pos)

/-- Number of records whose `forbidden` flag differs between two states of the
array. -/
def count_changed : List Country → List Country → Nat
  | b :: before, a :: after =>
    (if b.forbidden ≠ a.forbidden then 1 else 0) + count_changed before after
  | _, _ => 0

/-- Number of records that are not forbidden. -/
def count_allowed (countries : List Country) : Nat :=
  countries.countP (fun c => !c.forbidden)

/-- A registry of two real countries, both allowed. -/
def sample_pair : List Country := [⟨5, "PT".toList, false⟩, ⟨9, "ES".toList, false⟩]

/-- The index of `sample_pair`: `PT` at position 21584, `ES` at 21317. -/
def sample_pair_lookup : CodeLookup :=
  fun p => if p = 21584 then some 0 else if p = 21317 then some 1 else none

/-! ## Notions used to state the properties of `country_code_pos` -/

/-- An ASCII letter. -/
def is_letter (c : Char) : Prop :=
  (65 ≤ c.toNat ∧ c.toNat ≤ 90) ∨ (97 ≤ c.toNat ∧ c.toNat ≤ 122)

instance (c : Char) : Decidable (is_letter c) := by
  unfold is_letter; infer_instance

/-- The uppercased code: the byte that `toupper` gives for each character. -/
def upper_code (code : List Char) : List Nat :=
  code.map (fun c => toupper c.toNat % 256)

/-- The first code precedes the second in lexicographic order of the
uppercased characters. -/
def code_precedes (c d : List Char) : Prop :=
  List.Lex (· < ·) (upper_code c) (upper_code d)

instance (c d : List Char) : Decidable (code_precedes c d) := by
  unfold code_precedes; infer_instance

/-! ## `add_virtual_countries` -/

/-- Embedding of `add_virtual_countries`: the records of `A1`, `A2` and `O1`
are stored at the indices `num_countries`, `num_countries + 1` and
`num_countries + 2`, and the index is pointed at them.  The result is the
value returned, the first `num_countries + 3` records of the array and the
index.  The array has `MAX_COUNTRIES` elements; a store beyond them is a
fault. -/
def add_virtual_countries (num_countries : Nat) (countries : List Country)
    (country_code_lookup : CodeLookup) : Except Fault (Nat × List Country × CodeLookup) :=
  if num_countries + 3 > MAX_COUNTRIES then .error (.out_of_bounds (num_countries + 2))
  else
    .ok (3,
      countries.take num_countries ++
        [{ geoname_id := PROXY_GEONAME_ID, country_code := PROXY_COUNTRY_CODE,
           forbidden := false },
         { geoname_id := SAT_GEONAME_ID, country_code := SAT_COUNTRY_CODE, forbidden := false },
         { geoname_id := OTHER_GEONAME_ID, country_code := OTHER_COUNTRY_CODE,
           forbidden := false }],
      ((country_code_lookup.set (country_code_pos PROXY_COUNTRY_CODE) num_countries).set
        (country_code_pos SAT_COUNTRY_CODE) (num_countries + 1)).set
        (country_code_pos OTHER_COUNTRY_CODE) (num_countries + 2))

/-! ## Notions used to state that the cache of `get_country` is transparent -/

/-- The lookup of `get_country` without its cache: nothing for an empty
array, else the binary search for the effective identifier. -/
def get_country_plain (geoname_id : Nat) (proxy sat : Bool) (num_countries : Nat)
    (countries : List Country) : Except Fault (Option Nat) :=
  if num_countries = 0 then .ok none
  else
    get_country_search (effective_geoname_id geoname_id proxy sat) countries
      (num_countries + 1) 0 ((num_countries + 4294967296 - 1) % 4294967296)

/-- The arguments of one call of `get_country` that differ between calls on
the same array. -/
structure CountryQuery where
  geoname_id : Nat
  proxy : Bool
  sat : Bool
  deriving DecidableEq, Repr

/-- A sequence of calls of `get_country` on the same array and count: the
records returned, in order, and the `static` variables after the last call. -/
def get_country_calls (num_countries arr : Nat) (countries : List Country) :
    List CountryQuery → CountryCache → Except Fault (List (Option Nat) × CountryCache)
  | [], cache => .ok ([], cache)
  | q :: qs, cache =>
    match get_country q.geoname_id q.proxy q.sat num_countries arr countries cache with
    | .error f => .error f
    | .ok (r, cache1) =>
      match get_country_calls num_countries arr countries qs cache1 with
      | .error f => .error f
      | .ok (rs, cache2) => .ok (r :: rs, cache2)

/-- The same sequence of lookups without a cache. -/
def get_country_plain_calls (num_countries : Nat) (countries : List Country) :
    List CountryQuery → Except Fault (List (Option Nat))
  | [] => .ok []
  | q :: qs =>
    match get_country_plain q.geoname_id q.proxy q.sat num_countries countries with
    | .error f => .error f
    | .ok r =>
      match get_country_plain_calls num_countries countries qs with
      | .error f => .error f
      | .ok rs => .ok (r :: rs)

/-- The cache holds, for the array at `arr`, what the binary search gives for
the cached identifier. -/
def CacheTransparent (cache : CountryCache) (arr num_countries : Nat)
    (countries : List Country) : Prop :=
  cache.cached_country_arr = arr →
    get_country_search cache.cached_geoname_id countries (num_countries + 1) 0
      ((num_countries + 4294967296 - 1) % 4294967296) = .ok cache.cached_country

/-! ## Notions used to state what a line that stops the run does -/

/-- The variables of the loop of `process_range_file` when the lines `pre` have
been read and the next line is about to be read, `line_num` being the number of
the first of them: `none` when the run ends or leaves the behaviour C defines
within `pre`. -/
def process_range_upto (addr_family num_countries arr : Nat) (countries : List Country) :
    List (List Char) → Nat → RangeFileState → Option RangeFileState
  | [], _, st => some st
  | line :: rest, line_num, st =>
    if line.length = 0 then
      process_range_upto addr_family num_countries arr countries rest (line_num + 1) st
    else if line.length = MAX_LINE - 1 then none
    else
      match tokenize_csv line MAX_COLS with
      | .error _ => none
      | .ok line_data =>
        if line_num = 1 then
          match range_header_cols line_data with
          | none => none
          | some cols =>
            process_range_upto addr_family num_countries arr countries rest (line_num + 1)
              { st with cols := cols }
        else
          match process_range_row addr_family num_countries arr countries st line_data with
          | .next st1 =>
            process_range_upto addr_family num_countries arr countries rest (line_num + 1) st1
          | .fatal _ _ => none
          | .fault _ => none

/-- The variables of the loop of `process_range_file` before the first line is
read, the output files `out_files` being open. -/
def range_start_state (out_files : OutFiles) (cache : CountryCache) : RangeFileState :=
  { out_files := out_files, num_ranges := 0, last_country_pos := 0, last_range := none,
    cache := cache,
    cols := { highest_col := none, cidr_col := none, geoname_id_col := none,
              registered_geoname_id_col := none, proxy_col := none, sat_col := none } }

/-- The output files that `process_range_file` opens for `sample_countries`. -/
def sample_out_files : OutFiles :=
  match open_out_files sample_countries (fun _ => none) with
  | .ok out_files => out_files
  | .error _ => fun _ => none

/-- The cells of a data row of the country file that the load uses: the
identifier, the continent code and the country code. -/
structure CountryRow where
  geoname_id : Nat
  continent_code : List Char
  country_code : List Char
  deriving DecidableEq, Repr

/-- The effective code of a row: the country code, or the continent code when
the country code is empty. -/
def CountryRow.effective_code (r : CountryRow) : List Char :=
  if r.country_code = [] then r.continent_code else r.country_code

/-- The row that a data line of the country file holds, the header having
placed the three columns at `geoname_id_col`, `continent_code_col` and
`country_code_col` with `highest_col` the largest of them: `none` for a line
that is empty, too long or has too few columns. -/
def country_row (highest_col geoname_id_col continent_code_col country_code_col : Nat)
    (line : List Char) : Option CountryRow :=
  if line.length = 0 ∨ line.length = MAX_LINE - 1 then none
  else
    match tokenize_csv line MAX_COLS with
    | .error _ => none
    | .ok line_data =>
      if line_data.tokens.length < highest_col + 1 then none
      else
        match line_data.col geoname_id_col, line_data.col continent_code_col,
            line_data.col country_code_col with
        | some g, some ct, some cc =>
          some { geoname_id := (strtoul g).1, continent_code := ct, country_code := cc }
        | _, _, _ => none

/-- The records that a load stores for the data rows `rows`, in the words of the
specification: one record for each row whose effective code has exactly two
characters and whose position is not among the `populated` positions of the
index, in row order; every other row is skipped. -/
def stored_records : List CountryRow → List Nat → List Country
  | [], _ => []
  | r :: rs, populated =>
    if r.effective_code.length = 2 ∧ country_code_pos r.effective_code ∉ populated then
      { geoname_id := r.geoname_id, country_code := r.effective_code, forbidden := false } ::
        stored_records rs (country_code_pos r.effective_code :: populated)
    else stored_records rs populated

/-- A data row that no fatal condition of the load stops: its identifier is
neither zero nor reserved.  The characters of its effective code are bytes of
a C string and the position of the code is an index of the lookup table. -/
def CountryRow.loadable (r : CountryRow) : Prop :=
  r.geoname_id ≠ 0 ∧ geoname_id_reserved r.geoname_id = false ∧
    country_code_pos r.effective_code < MAX_COUNTRIES ∧
    ∀ c ∈ r.effective_code, 0 < c.toNat ∧ c.toNat < 256

instance (r : CountryRow) : Decidable r.loadable := by
  unfold CountryRow.loadable; infer_instance

/-- A country file in the layout of the GeoLite2 country locations: rows for
`PT`, for a continent without a country, for `ES`, for `pt` again in lower
case, for a code of three characters and for the same continent again. -/
def sample_country_lines : List (List Char) :=
  ["5,en,EU,Europe,PT,Portugal\n".toList, "6,en,EU,Europe,,\n".toList,
   "9,en,EU,Europe,ES,Spain\n".toList, "10,en,EU,Europe,pt,Portugal\n".toList,
   "11,en,EU,Europe,XYZ,Nowhere\n".toList, "12,en,EU,Europe,,\n".toList]

/-- The header line of `sample_country_lines`. -/
def sample_country_header : List Char :=
  "geoname_id,locale_code,continent_code,continent_name,country_iso_code,country_name\n".toList

/-! ## Notions used to count what the range compiler writes -/

/-- The number of pairs that the output files hold together: the size of each
open file divided by twice the width `w` of an address, added over all the
positions of `out_files`. -/
def sink_pair_count (w : Nat) (out_files : OutFiles) : Nat :=
  ((List.range MAX_COUNTRIES).map (fun p =>
    match out_files p with
    | none => 0
    | some file => file.data.length / (2 * w))).sum

/-- The number of compiled rows that are merged into the pair written before
them: the rows of the country written last whose range `ranges_contiguous`
finds contiguous with the range written last.  `last_country_pos` and
`last_range` are the two variables of `process_range_file` before the first of
the rows. -/
def merged_rows : Nat → Option AddressRange → List (Nat × AddressRange) → Nat
  | _, _, [] => 0
  | last_country_pos, last_range, (pos, r) :: rest =>
    (if pos = last_country_pos ∧ last_range.map (ranges_contiguous r) = some (.ok true)
      then 1 else 0) + merged_rows pos (some r) rest

/-- Every open output file holds whole pairs of addresses of `w` bytes with its
stream at its end, and the file of the country written last is not empty. -/
def SinksWhole (w : Nat) (st : RangeFileState) : Prop :=
  (∀ p file, st.out_files p = some file →
    file.pos = file.data.length ∧ file.data.length % (2 * w) = 0) ∧
  (st.last_country_pos ≠ 0 → ∀ file, st.out_files st.last_country_pos = some file →
    2 * w ≤ file.data.length)

/-- The variables of the loop of `process_range_file` on `sample_countries`
after the header, the row `10.0.0.0/24` of `PT`, the contiguous row
`10.0.1.0/24` of `PT` and the row `10.0.3.0/24` of `ES`. -/
def sample_counted : RangeFileState :=
  (process_range_upto AF_INET 5 4096 sample_countries
    [sample_range_header, "10.0.0.0/24,5,5,,0,0\n".toList, "10.0.1.0/24,5,5,,0,0\n".toList,
     "10.0.3.0/24,9,9,,0,0\n".toList] 1
    (range_start_state sample_out_files CountryCache.initial)).getD sample_state

/-! ## Notions used to compare a feed with the feed without its skipped rows -/

/-- Two calls of `process_range_file` have the same output: they return the
same count and leave the same bytes in the file of every position, or both
leave the behaviour C defines at the same place. -/
def SameOutput (a b : Except Fault RangeFileResult) : Prop :=
  match a, b with
  | .ok r1, .ok r2 => r1.num_ranges = r2.num_ranges ∧ ∀ p, r1.out_files p = r2.out_files p
  | .error f1, .error f2 => f1 = f2
  | _, _ => False

/-! ## Feeds that the range compiler reads without leaving the array -/

theorem asc_getElem_lt {countries : List Country} (h : StrictlyAscending countries)
    {i j : Nat} {ci cj : Country} (hi : countries[i]? = some ci)
    (hj : countries[j]? = some cj) (hij : i < j) : ci.geoname_id < cj.geoname_id := by
  unfold StrictlyAscending at h
  rw [List.pairwise_iff_getElem] at h
  obtain ⟨hi', rfl⟩ := List.getElem?_eq_some.mp hi
  obtain ⟨hj', rfl⟩ := List.getElem?_eq_some.mp hj
  have := h i j (by simpa using hi') (by simpa using hj') hij
  simpa using this

theorem asc_index_eq {countries : List Country} (h : StrictlyAscending countries)
    {i j : Nat} {ci cj : Country} (hi : countries[i]? = some ci)
    (hj : countries[j]? = some cj) (hid : ci.geoname_id = cj.geoname_id) : i = j := by
  rcases Nat.lt_trichotomy i j with hlt | heq | hgt
  · have := asc_getElem_lt h hi hj hlt; omega
  · exact heq
  · have := asc_getElem_lt h hj hi hgt; omega

theorem get_country_search_finds (geoname_id : Nat) (countries : List Country)
    (hasc : StrictlyAscending countries) (k : Nat) (c : Country)
    (hk : countries[k]? = some c) (hid : c.geoname_id = geoname_id)
    (hlen : countries.length ≤ 4294967296) :
    ∀ fuel start end_, start ≤ k → k ≤ end_ → end_ < countries.length →
      end_ - start < fuel →
      get_country_search geoname_id countries fuel start end_ = .ok (some k) := by
  intro fuel
  induction fuel with
  | zero => intro start end_ _ _ _ h; omega
  | succ fuel ih =>
    intro start end_ hs he hlt hf
    have hmid : start + (end_ - start) / 2 < countries.length := by omega
    obtain ⟨cm, hcm⟩ : ∃ cm, countries[start + (end_ - start) / 2]? = some cm :=
      ⟨_, List.getElem?_eq_getElem hmid⟩
    unfold get_country_search
    simp only [if_pos (Nat.le_trans hs he), hcm]
    by_cases h1 : cm.geoname_id = geoname_id
    · have : start + (end_ - start) / 2 = k :=
        asc_index_eq hasc hcm hk (h1.trans hid.symm)
      simp [h1, this]
    · by_cases h2 : cm.geoname_id < geoname_id
      · have hmk : start + (end_ - start) / 2 < k := by
          by_contra hnot
          rcases Nat.eq_or_lt_of_le (Nat.le_of_not_lt hnot) with heq | hlt2
          · rw [← heq] at hcm
            have : cm = c := by rw [hk] at hcm; exact (Option.some.inj hcm).symm
            subst this; omega
          · have := asc_getElem_lt hasc hk hcm hlt2; omega
        have hmod : (start + (end_ - start) / 2 + 1) % 4294967296 = start + (end_ - start) / 2 + 1 :=
          Nat.mod_eq_of_lt (by omega)
        simp only [h1, h2, if_false, if_true, hmod]
        exact ih _ _ (by omega) he hlt (by omega)
      · have hmk : k < start + (end_ - start) / 2 := by
          by_contra hnot
          rcases Nat.eq_or_lt_of_le (Nat.le_of_not_lt hnot) with heq | hlt2
          · rw [heq] at hcm
            have : cm = c := by rw [hk] at hcm; exact (Option.some.inj hcm).symm
            subst this; omega
          · have := asc_getElem_lt hasc hcm hk hlt2; omega
        have hmod : (start + (end_ - start) / 2 + 4294967296 - 1) % 4294967296
            = start + (end_ - start) / 2 - 1 := by
          have : start + (end_ - start) / 2 + 4294967296 - 1
              = (start + (end_ - start) / 2 - 1) + 4294967296 := by omega
          rw [this, Nat.add_mod_right]; exact Nat.mod_eq_of_lt (by omega)
        simp only [h1, h2, if_false, hmod]
        exact ih _ _ hs (by omega) (by omega) (by omega)

/-- The lookup of `get_country` in a non-empty array with strictly ascending
identifiers: a record whose identifier equals the effective identifier is
found, through the cache or through the binary search. -/
theorem get_country_finds (geoname_id : Nat) (proxy sat : Bool)
    (num_countries arr : Nat) (countries : List Country) (cache : CountryCache)
    (k : Nat) (c : Country)
    (hn : num_countries = countries.length) (hpos : 0 < num_countries)
    (hmax : num_countries ≤ UINT_MAX)
    (hasc : StrictlyAscending countries) (hcache : CacheConsistent cache arr countries)
    (hk : countries[k]? = some c)
    (hid : c.geoname_id = effective_geoname_id geoname_id proxy sat) :
    ∃ cache1, get_country geoname_id proxy sat num_countries arr countries cache
        = .ok (some k, cache1) ∧ CacheConsistent cache1 arr countries := by
  have hklt : k < countries.length := (List.getElem?_eq_some.mp hk).1
  have hU : UINT_MAX = 4294967295 := rfl
  have hend : (num_countries + 4294967296 - 1) % 4294967296 = num_countries - 1 := by
    have : num_countries + 4294967296 - 1 = (num_countries - 1) + 4294967296 := by omega
    rw [this, Nat.add_mod_right]; exact Nat.mod_eq_of_lt (by omega)
  have hne : num_countries ≠ 0 := Nat.pos_iff_ne_zero.mp hpos
  have hs := get_country_search_finds (effective_geoname_id geoname_id proxy sat)
      countries hasc k c hk hid (by omega) (num_countries + 1) 0 (num_countries - 1)
      (Nat.zero_le _) (by omega) (by omega) (by omega)
  unfold get_country
  rw [hend]
  simp only [hne, if_false]
  rw [show (if proxy = true then PROXY_GEONAME_ID else if sat = true then SAT_GEONAME_ID
      else if geoname_id = 0 then OTHER_GEONAME_ID else geoname_id)
      = effective_geoname_id geoname_id proxy sat from rfl]
  by_cases hc : cache.cached_country_arr = arr ∧
      effective_geoname_id geoname_id proxy sat = cache.cached_geoname_id
  · rw [if_pos hc]
    refine ⟨cache, ?_, hcache⟩
    rw [hcache hc.1 k c hk (hid.trans hc.2)]
  · rw [if_neg hc, hs]
    refine ⟨_, rfl, ?_⟩
    intro _ k2 c2 hk2 hid2
    have : k2 = k := asc_index_eq hasc hk2 hk (hid2.trans hid.symm)
    simp [this]

/-- C9: in a non-empty array with strictly ascending identifiers, `get_country`
returns the record whose identifier equals the effective identifier (the proxy
sentinel if `proxy` is set, else the satellite sentinel if `sat` is set, else
the other sentinel if the identifier is zero, else the identifier) whenever such
a record exists; the cache it leaves stays consistent with the array. -/
theorem get_country_returns_record (geoname_id : Nat) (proxy sat : Bool)
    (num_countries arr : Nat) (countries : List Country) (cache : CountryCache)
    (k : Nat) (c : Country)
    (hn : num_countries = countries.length) (hpos : 0 < num_countries)
    (hmax : num_countries ≤ UINT_MAX)
    (hasc : StrictlyAscending countries) (hcache : CacheConsistent cache arr countries)
    (hk : countries[k]? = some c)
    (hid : c.geoname_id = effective_geoname_id geoname_id proxy sat) :
    ∃ cache1, get_country geoname_id proxy sat num_countries arr countries cache
        = .ok (some k, cache1) ∧ CacheConsistent cache1 arr countries :=
  get_country_finds geoname_id proxy sat num_countries arr countries cache k c hn hpos hmax
    hasc hcache hk hid

/-- Witness of C9: with the three virtual countries behind two real ones, a
lookup with the proxy flag set returns the proxy record at index 2. -/
theorem get_country_returns_record_witness :
    ∃ cache1, get_country 7 true false 5 4096
        [⟨5, ['P', 'T'], false⟩, ⟨9, ['E', 'S'], false⟩,
         ⟨PROXY_GEONAME_ID, PROXY_COUNTRY_CODE, false⟩,
         ⟨SAT_GEONAME_ID, SAT_COUNTRY_CODE, false⟩,
         ⟨OTHER_GEONAME_ID, OTHER_COUNTRY_CODE, false⟩] CountryCache.initial
        = .ok (some 2, cache1) ∧
      CacheConsistent cache1 4096
        [⟨5, ['P', 'T'], false⟩, ⟨9, ['E', 'S'], false⟩,
         ⟨PROXY_GEONAME_ID, PROXY_COUNTRY_CODE, false⟩,
         ⟨SAT_GEONAME_ID, SAT_COUNTRY_CODE, false⟩,
         ⟨OTHER_GEONAME_ID, OTHER_COUNTRY_CODE, false⟩] :=
  get_country_returns_record 7 true false 5 4096 _ CountryCache.initial 2
    ⟨PROXY_GEONAME_ID, PROXY_COUNTRY_CODE, false⟩ rfl (by decide) (by decide)
    (by decide) (by intro h; exact absurd h (by decide)) rfl rfl

/-- C8 (the code departs from the claim): for an identifier smaller than the
identifier of the first record, `end = mid - 1` is computed with `mid = 0` in
`unsigned` arithmetic and becomes `UINT_MAX`, so the loop goes on and reads
`countries[2147483647]`, far outside the one-record array, instead of returning
`NULL`. -/
theorem get_country_below_first_out_of_bounds :
    get_country 1 false false 1 4096 [⟨5, ['P', 'T'], false⟩] CountryCache.initial
      = .error (.out_of_bounds 2147483647) := by
  decide

/-! ## The country feed: `read_country_file` -/

/-- C6 (the code departs from the claim): `last_geoname_id` is set to `0` once
and never assigned again, so the test `geoname_id <= last_geoname_id` only
rejects the identifier `0`.  The feed with the identifiers 5, 5, 9 is loaded
without any error: three records are stored and their identifiers 5, 5, 9 are
not strictly increasing. -/
theorem read_country_file_accepts_repeated_identifier :
    (read_country_file
        ["geoname_id,continent_code,country_iso_code\n".toList,
         "5,EU,PT\n".toList, "5,EU,ES\n".toList, "9,EU,FR\n".toList]
        init_country_code_lookup).map
      (fun r => (r.num_countries, r.err_msg, r.countries.map Country.geoname_id))
      = .ok (3, none, [5, 5, 9]) := by
  decide

/-- C7 (the code departs from the claim): `detect_columns` counts every match
of a header field with a required name, so the header
`continent_code,continent_code,geoname_id`, which has no field
`country_iso_code`, gives the count 3 and is accepted.  The load does not stop
at line 1: with no data line it ends at line 2 with the message for an empty
file, and with a data line it uses `country_code_col`, which was never
assigned. -/
theorem read_country_file_accepts_header_without_country_code :
    detect_columns
        ["continent_code".toList, "continent_code".toList, "geoname_id".toList]
        COUNTRY_REQUIRED_COLS = (3, [some 2, some 1, none], some 2) ∧
    (read_country_file ["continent_code,continent_code,geoname_id\n".toList]
        init_country_code_lookup).map (fun r => (r.num_countries, r.err_msg))
      = .ok (0, some ("No usable data in file.", 2)) ∧
    (read_country_file
        ["continent_code,continent_code,geoname_id\n".toList, "EU,EU,5\n".toList]
        init_country_code_lookup).map (fun r => r.num_countries)
      = .error Fault.uninitialised := by
  refine ⟨by decide, by decide, by decide⟩

/-! ## Address arithmetic: `compare_addrs`, `inc_addr`, `ranges_contiguous` -/

theorem addr_val_lt (a : List Nat) (h : ∀ b ∈ a, b < 256) : addr_val a < 256 ^ a.length := by
  induction a with
  | nil => simp [addr_val]
  | cons x xs ih =>
    have hx : x < 256 := h x (List.mem_cons_self _ _)
    have hxs := ih (fun b hb => h b (List.mem_cons_of_mem _ hb))
    simp only [addr_val, List.length_cons, pow_succ]
    nlinarith

theorem memcmp_eq_zero_iff (a : List Nat) :
    ∀ (b : List Nat) (n : Nat), a.length = n → b.length = n → (memcmp a b n = 0 ↔ a = b) := by
  induction a with
  | nil =>
    intro b n ha hb
    have : b = [] := List.length_eq_zero.mp (by rw [hb, ← ha]; rfl)
    subst this
    simp [memcmp]
  | cons x xs ih =>
    intro b n ha hb
    cases b with
    | nil => simp at ha hb; omega
    | cons y ys =>
      cases n with
      | zero => simp at ha
      | succ m =>
        simp only [List.length_cons, Nat.add_right_cancel_iff] at ha hb
        simp only [memcmp]
        by_cases hxy : x = y
        · subst hxy
          simp [ih ys m ha hb]
        · simp only [hxy, if_false, List.cons.injEq, false_and, iff_false]
          omega

theorem memcmp_neg_iff (a : List Nat) :
    ∀ (b : List Nat) (n : Nat), AddrOK n a → AddrOK n b →
      (memcmp a b n < 0 ↔ addr_val a < addr_val b) := by
  induction a with
  | nil =>
    intro b n ha hb
    have : b = [] := List.length_eq_zero.mp (by rw [hb.1, ← ha.1]; rfl)
    subst this
    simp [memcmp, addr_val]
  | cons x xs ih =>
    intro b n ha hb
    cases b with
    | nil => have h1 := ha.1; have h2 := hb.1; simp at h1 h2; omega
    | cons y ys =>
      cases n with
      | zero => have h1 := ha.1; simp at h1
      | succ m =>
        have hal : xs.length = m := by have := ha.1; simpa using this
        have hbl : ys.length = m := by have := hb.1; simpa using this
        have hxs : ∀ b ∈ xs, b < 256 := fun b hb1 => ha.2 b (List.mem_cons_of_mem _ hb1)
        have hys : ∀ b ∈ ys, b < 256 := fun b hb1 => hb.2 b (List.mem_cons_of_mem _ hb1)
        have hvx := addr_val_lt xs hxs
        have hvy := addr_val_lt ys hys
        rw [hal] at hvx
        rw [hbl] at hvy
        simp only [memcmp, addr_val, hal, hbl]
        by_cases hxy : x = y
        · subst hxy
          simp only [if_true]
          rw [ih ys m ⟨hal, hxs⟩ ⟨hbl, hys⟩]
          omega
        · simp only [hxy, if_false]
          rcases Nat.lt_or_gt_of_ne hxy with hlt | hgt
          · constructor
            · intro _
              have : (x + 1) * 256 ^ m ≤ y * 256 ^ m := Nat.mul_le_mul_right _ hlt
              nlinarith
            · intro _; omega
          · constructor
            · intro h; omega
            · intro h
              have : (y + 1) * 256 ^ m ≤ x * 256 ^ m := Nat.mul_le_mul_right _ hgt
              nlinarith

theorem addr_val_inj (n : Nat) (a b : List Nat) (ha : AddrOK n a) (hb : AddrOK n b)
    (h : addr_val a = addr_val b) : a = b := by
  by_contra hne
  have h0 : memcmp a b n ≠ 0 := fun h0 => hne ((memcmp_eq_zero_iff a b n ha.1 hb.1).mp h0)
  have h1 : ¬ memcmp a b n < 0 := fun h1 => by
    have := (memcmp_neg_iff a b n ha hb).mp h1; omega
  have h2 : memcmp a b n > 0 := by omega
  -- a positive result means that `b` is below `a`
  have h3 : ∀ (a b : List Nat) (n : Nat), a.length = n → b.length = n →
      memcmp a b n > 0 → memcmp b a n < 0 := by
    intro a
    induction a with
    | nil => intro b n _ _ h; simp [memcmp] at h
    | cons x xs ih =>
      intro b n ha hb h
      cases b with
      | nil => simp [memcmp] at h
      | cons y ys =>
        cases n with
        | zero => simp at ha
        | succ m =>
          simp only [List.length_cons, Nat.add_right_cancel_iff] at ha hb
          simp only [memcmp] at h ⊢
          by_cases hxy : x = y
          · subst hxy; simp only [if_true] at h ⊢; exact ih ys m ha hb h
          · have hyx : ¬ y = x := fun e => hxy e.symm
            simp only [hxy, hyx, if_false] at h ⊢; omega
  have := (memcmp_neg_iff b a n hb ha).mp (h3 a b n ha.1 hb.1 h2)
  omega

theorem compare_addrs_eq_zero_iff (addr_family : Nat) (a b : List Nat)
    (ha : AddrOK (family_bytes addr_family) a) (hb : AddrOK (family_bytes addr_family) b)
    (hf : addr_family = AF_INET ∨ addr_family = AF_INET6) :
    compare_addrs a b addr_family = 0 ↔ addr_val a = addr_val b := by
  have hw : (if addr_family = AF_INET6 then IPV6_BYTES else IPV4_BYTES)
      = family_bytes addr_family := by
    rcases hf with h | h <;> subst h <;> decide
  unfold compare_addrs
  simp only [hw]
  rw [memcmp_eq_zero_iff a b _ ha.1 hb.1]
  exact ⟨fun h => by rw [h], addr_val_inj _ a b ha hb⟩

theorem compare_addrs_neg_iff (addr_family : Nat) (a b : List Nat)
    (ha : AddrOK (family_bytes addr_family) a) (hb : AddrOK (family_bytes addr_family) b)
    (hf : addr_family = AF_INET ∨ addr_family = AF_INET6) :
    compare_addrs a b addr_family < 0 ↔ addr_val a < addr_val b := by
  have hw : (if addr_family = AF_INET6 then IPV6_BYTES else IPV4_BYTES)
      = family_bytes addr_family := by
    rcases hf with h | h <;> subst h <;> decide
  unfold compare_addrs
  simp only [hw]
  exact memcmp_neg_iff a b _ ha hb

theorem addr_val_append (xs ys : List Nat) :
    addr_val (xs ++ ys) = addr_val xs * 256 ^ ys.length + addr_val ys := by
  induction xs with
  | nil => simp [addr_val]
  | cons x xs ih =>
    show addr_val (x :: (xs ++ ys)) = addr_val (x :: xs) * 256 ^ ys.length + addr_val ys
    simp only [addr_val, ih, List.length_append, pow_add]
    ring

theorem addr_val_replicate_zero (m : Nat) : addr_val (List.replicate m 0) = 0 := by
  induction m with
  | zero => rfl
  | succ m ih => simp [List.replicate_succ, addr_val, ih]

theorem addr_val_replicate_ones (m : Nat) : addr_val (List.replicate m 255) + 1 = 256 ^ m := by
  induction m with
  | zero => rfl
  | succ m ih =>
    simp only [List.replicate_succ, addr_val, List.length_replicate, pow_succ]
    omega

theorem inc_addr_loop_carry (m : Nat) :
    ∀ (front : List Nat) (b : Nat) (tail : List Nat) (fuel : Nat),
      b ≠ 255 → b < 256 → m < fuel → front.length + m < 4294967296 →
      inc_addr_loop 255 0 1 fuel (front ++ b :: (List.replicate m 255 ++ tail))
          (front.length + m)
        = .ok (front ++ (b + 1) :: (List.replicate m 0 ++ tail)) := by
  induction m with
  | zero =>
    intro front b tail fuel hb hb2 hf _
    obtain ⟨f, rfl⟩ : ∃ f, fuel = f + 1 := ⟨fuel - 1, by omega⟩
    have hget : (front ++ b :: ([] ++ tail))[front.length]? = some b := by
      rw [List.getElem?_append_right (Nat.le_refl _)]
      simp
    simp only [inc_addr_loop, List.replicate_zero, Nat.add_zero, hget, hb, if_false]
    have : (((b : Int) + 1) % 256).toNat = b + 1 := by omega
    rw [this]
    simp
  | succ m ih =>
    intro front b tail fuel hb hb2 hf hlen
    obtain ⟨f, rfl⟩ : ∃ f, fuel = f + 1 := ⟨fuel - 1, by omega⟩
    have hget : (front ++ b :: (List.replicate (m + 1) 255 ++ tail))[front.length + (m + 1)]?
        = some 255 := by
      rw [List.getElem?_append_right (by omega)]
      simp only [Nat.add_sub_cancel_left, List.getElem?_cons_succ]
      rw [List.getElem?_append_left (by simp)]
      simp
    have hset : (front ++ b :: (List.replicate (m + 1) 255 ++ tail)).set (front.length + (m + 1)) 0
        = front ++ b :: (List.replicate m 255 ++ 0 :: tail) := by
      rw [List.set_append_right _ _ (by omega)]
      simp only [Nat.add_sub_cancel_left, List.set_cons_succ]
      congr 2
      rw [List.set_append_left _ _ (by simp)]
      have : (List.replicate (m + 1) 255).set m 0 = List.replicate m 255 ++ [0] := by
        rw [List.replicate_succ']
        rw [List.set_append_right _ _ (by simp)]
        simp
      rw [this]; simp
    have hmod : (front.length + (m + 1) + 4294967296 - 1) % 4294967296 = front.length + m := by
      have : front.length + (m + 1) + 4294967296 - 1 = (front.length + m) + 4294967296 := by omega
      rw [this, Nat.add_mod_right]; exact Nat.mod_eq_of_lt (by omega)
    simp only [inc_addr_loop, hget, if_true]
    rw [hset]
    rw [hmod]
    have hih := ih front b (0 :: tail) f hb hb2 (by omega) (by omega)
    rw [hih]
    have hrep : List.replicate m 0 ++ 0 :: tail = List.replicate (m + 1) 0 ++ tail := by
      rw [List.replicate_succ' m 0]
      simp
    rw [hrep]

theorem exists_carry_decomposition (a : List Nat) (h : ∃ x ∈ a, x ≠ 255) :
    ∃ front b m, a = front ++ b :: List.replicate m 255 ∧ b ≠ 255 := by
  induction a with
  | nil => obtain ⟨x, hx, _⟩ := h; simp at hx
  | cons x xs ih =>
    by_cases hxs : ∃ y ∈ xs, y ≠ 255
    · obtain ⟨front, b, m, heq, hb⟩ := ih hxs
      exact ⟨x :: front, b, m, by rw [heq]; rfl, hb⟩
    · have hall : ∀ y ∈ xs, y = 255 := by
        intro y hy
        by_contra hne
        exact hxs ⟨y, hy, hne⟩
      have hx : x ≠ 255 := by
        obtain ⟨y, hy, hne⟩ := h
        rcases List.mem_cons.mp hy with rfl | hy2
        · exact hne
        · exact absurd (hall y hy2) hne
      exact ⟨[], x, xs.length, by rw [List.eq_replicate_of_mem hall]; simp, hx⟩

theorem addr_val_all_ones (a : List Nat) (hall : ∀ x ∈ a, x = 255) :
    addr_val a + 1 = 256 ^ a.length := by
  rw [List.eq_replicate_of_mem hall]
  simpa using addr_val_replicate_ones a.length

/-- `inc_addr` with a positive direction adds one to an address that is not
all-ones. -/
theorem inc_addr_succ (addr_family : Nat) (a : List Nat)
    (hf : addr_family = AF_INET ∨ addr_family = AF_INET6)
    (ha : AddrOK (family_bytes addr_family) a)
    (hlt : addr_val a + 1 < 256 ^ family_bytes addr_family) :
    ∃ a1, inc_addr a addr_family 1 = .ok (some a1) ∧
      AddrOK (family_bytes addr_family) a1 ∧ addr_val a1 = addr_val a + 1 := by
  have hex : ∃ x ∈ a, x ≠ 255 := by
    by_contra hno
    have hall : ∀ x ∈ a, x = 255 := by
      intro x hx
      by_contra hne
      exact hno ⟨x, hx, hne⟩
    have := addr_val_all_ones a hall
    rw [ha.1] at this
    omega
  obtain ⟨front, b, m, heq, hb⟩ := exists_carry_decomposition a hex
  have hb2 : b < 256 := ha.2 b (by rw [heq]; simp)
  have hlen : front.length + 1 + m = family_bytes addr_family := by
    have := ha.1
    rw [heq] at this
    simp only [List.length_append, List.length_cons, List.length_replicate] at this
    omega
  have hw : family_bytes addr_family ≤ 16 := by
    rcases hf with h | h <;> subst h <;> decide
  have hw2 : (if addr_family = AF_INET then IPV4_BYTES else IPV6_BYTES)
      = family_bytes addr_family := rfl
  have hfam : ¬ (addr_family ≠ AF_INET ∧ addr_family ≠ AF_INET6) := by
    rcases hf with h | h <;> subst h <;> decide
  have hloop := inc_addr_loop_carry m front b [] (family_bytes addr_family + 1) hb hb2
    (by omega) (by omega)
  have hidx : family_bytes addr_family - 1 = front.length + m := by omega
  refine ⟨front ++ (b + 1) :: List.replicate m 0, ?_, ⟨?_, ?_⟩, ?_⟩
  · unfold inc_addr
    simp only [hfam, if_false, hw2, hidx, heq]
    simp only [List.append_nil] at hloop
    have h1 : ((1 : Int) = 0) = False := by simp
    have h2 : ((1 : Int) > 0) = True := by simp
    simp only [h1, h2, if_true, if_false, hloop]
  · simp only [List.length_append, List.length_cons, List.length_replicate]; omega
  · intro x hx
    simp only [List.mem_append, List.mem_cons, List.mem_replicate] at hx
    rcases hx with hx | rfl | ⟨_, rfl⟩
    · exact ha.2 x (by rw [heq]; simp [hx])
    · omega
    · omega
  · rw [heq, addr_val_append, addr_val_append]
    simp only [addr_val, List.length_cons, List.length_replicate, addr_val_replicate_zero]
    have := addr_val_replicate_ones m
    have hp : 0 < 256 ^ m := Nat.pow_pos (by omega)
    nlinarith

theorem getD_map_range (n : Nat) (f : Nat → Nat) (i d : Nat) (hi : i < n) :
    ((List.range n).map f).getD i d = f i := by
  simp [List.getD, List.getElem?_map, List.getElem?_range hi]

theorem addr_val_map_le (l : List Nat) (f g : Nat → Nat) (h : ∀ i ∈ l, f i ≤ g i) :
    addr_val (l.map f) ≤ addr_val (l.map g) := by
  induction l with
  | nil => simp [addr_val]
  | cons x xs ih =>
    have h1 := h x (List.mem_cons_self _ _)
    have h2 := ih (fun i hi => h i (List.mem_cons_of_mem _ hi))
    simp only [List.map_cons, addr_val, List.length_map]
    have : f x * 256 ^ xs.length ≤ g x * 256 ^ xs.length := Nat.mul_le_mul_right _ h1
    omega

theorem cidr_mask_getD_lt (addr_bytes prefix_length i : Nat) :
    (cidr_mask addr_bytes prefix_length).getD i 0 < 256 := by
  unfold cidr_mask
  simp only
  have hbase : ∀ j, (List.map (fun i => if i < prefix_length / 8 then 255
      else (List.replicate addr_bytes 0).getD i 0) (List.range addr_bytes)).getD j 0 < 256 := by
    intro j
    by_cases hj : j < addr_bytes
    · rw [getD_map_range _ _ _ _ hj]
      split
      · omega
      · simp [List.getD, List.getElem?_replicate]
        split <;> simp
    · simp [List.getD, List.getElem?_map, List.getElem?_range]
      rw [List.getElem?_eq_none (by simp; omega)]
      simp
  split
  · simp only [List.getD_eq_getElem?_getD, List.getElem?_set]
    split
    · split
      · simp; omega
      · simp
    · have := hbase i
      simpa [List.getD_eq_getElem?_getD] using this
  · exact hbase i

theorem le_or_mod (s x : Nat) (hs : s < 256) (hx : x < 256) : s ≤ (s ||| x) % 256 := by
  have h1 : s ||| x < 2 ^ 8 := Nat.or_lt_two_pow (by simpa using hs) (by simpa using hx)
  rw [Nat.mod_eq_of_lt (by simpa using h1)]
  apply Nat.le_of_testBit
  intro i hi
  simp [Nat.testBit_or, hi]

/-- The shape of a range that `parse_cidr` returns. -/
theorem parse_cidr_shape (cidr : List Char) (r : AddressRange) (h : parse_cidr cidr = .ok r) :
    ∃ (v4 : Bool) (p : Nat),
      r.addr_family = (if v4 then AF_INET else AF_INET6) ∧
      r.addr_bytes = (if v4 then IPV4_BYTES else IPV6_BYTES) ∧
      p ≤ r.addr_bytes * 8 ∧ r.prefix_length = p % 256 ∧
      r.mask = cidr_mask r.addr_bytes p ∧
      r.start = (List.range r.addr_bytes).map (fun i => r.base.getD i 0 &&& r.mask.getD i 0) ∧
      r.end_ = (List.range r.addr_bytes).map
        (fun i => (r.start.getD i 0 ||| (255 - r.mask.getD i 0)) % 256) := by
  unfold parse_cidr parse_cidr_buf at h
  by_cases h1 : char_at cidr 0 = NUL ∨ char_at cidr 1 = NUL ∨ char_at cidr 2 = NUL ∨
      char_at cidr 3 = NUL
  · rw [if_pos h1] at h; cases h
  · rw [if_neg h1] at h
    simp only at h
    generalize hv : decide (char_at cidr 3 = '.' ∨ char_at cidr 2 = '.' ∨ char_at cidr 1 = '.')
      = v4 at h
    cases hsep : strchr_slash cidr with
    | none => rw [hsep] at h; cases h
    | some separator =>
      rw [hsep] at h
      simp only at h
      by_cases h2 : ¬ isdigit (char_at cidr (separator + 1)) = true
      · rw [if_pos h2] at h; cases h
      · rw [if_neg h2] at h
        by_cases h3 : (strtoul (List.drop (separator + 1) cidr)).2 = true ∧
            implicit_int_result (strtoul (List.drop (separator + 1) cidr)).1 = 0
        · rw [if_pos h3] at h; cases h
        · rw [if_neg h3] at h
          by_cases h4 : implicit_int_result (strtoul (List.drop (separator + 1) cidr)).1 >
              (if v4 = true then IPV4_BYTES else IPV6_BYTES) * 8
          · rw [if_pos h4] at h; cases h
          · rw [if_neg h4] at h
            cases hb : inet_pton (if v4 = true then AF_INET else AF_INET6)
                (cstr_at (cidr.set separator NUL) 0) with
            | none => rw [hb] at h; cases h
            | some base =>
              rw [hb] at h
              simp only [Except.ok.injEq] at h
              subst h
              exact ⟨v4, _, rfl, rfl, Nat.le_of_not_gt h4, rfl, rfl, rfl, rfl⟩

/-- A range that `parse_cidr` returns is well formed: its family is `AF_INET` or
`AF_INET6`, start and end are addresses of the width of the family, and the
start is not above the end. -/
theorem parse_cidr_range_ok (cidr : List Char) (r : AddressRange)
    (h : parse_cidr cidr = .ok r) :
    (r.addr_family = AF_INET ∨ r.addr_family = AF_INET6) ∧ RangeOK r.addr_family r := by
  obtain ⟨v4, p, hfam, hbytes, _, _, hmask, hstart, hend⟩ := parse_cidr_shape cidr r h
  have hw : r.addr_bytes = family_bytes r.addr_family := by
    rw [hfam, hbytes]; cases v4 <;> rfl
  have hf : r.addr_family = AF_INET ∨ r.addr_family = AF_INET6 := by
    rw [hfam]; cases v4 <;> simp
  have hm : ∀ i, r.mask.getD i 0 < 256 := by
    intro i; rw [hmask]; exact cidr_mask_getD_lt _ _ _
  have hs : ∀ i, r.base.getD i 0 &&& r.mask.getD i 0 < 256 :=
    fun i => Nat.lt_of_le_of_lt Nat.and_le_right (hm i)
  refine ⟨hf, rfl, hw, ⟨?_, ?_⟩, ⟨?_, ?_⟩, ?_⟩
  · rw [hstart]; simp [hw]
  · intro b hb
    rw [hstart] at hb
    obtain ⟨i, _, rfl⟩ := List.mem_map.mp hb
    exact hs i
  · rw [hend]; simp [hw]
  · intro b hb
    rw [hend] at hb
    obtain ⟨i, _, rfl⟩ := List.mem_map.mp hb
    exact Nat.mod_lt _ (by omega)
  · rw [hend]
    conv_lhs => rw [hstart]
    apply addr_val_map_le
    intro i hi
    have hi2 : i < r.addr_bytes := List.mem_range.mp hi
    have hsi : r.start.getD i 0 = r.base.getD i 0 &&& r.mask.getD i 0 := by
      rw [hstart]; exact getD_map_range _ _ _ _ hi2
    rw [hsi]
    exact le_or_mod _ _ (hs i) (by have := hm i; omega)

/-- `ranges_contiguous` of a range `B` and a range `A` that ends before `B`
starts is true exactly when the end of `A` plus one is the start of `B`. -/
theorem ranges_contiguous_after (addr_family : Nat) (A B : AddressRange)
    (hf : addr_family = AF_INET ∨ addr_family = AF_INET6)
    (hA : RangeOK addr_family A) (hB : RangeOK addr_family B)
    (hlt : addr_val A.end_ < addr_val B.start) :
    ranges_contiguous B A = .ok (decide (addr_val A.end_ + 1 = addr_val B.start)) := by
  obtain ⟨hAf, hAw, hAs, hAe, hAle⟩ := hA
  obtain ⟨hBf, hBw, hBs, hBe, hBle⟩ := hB
  have hBmax := addr_val_lt B.start hBs.2
  rw [hBs.1] at hBmax
  obtain ⟨a1, hinc, ha1, hval⟩ := inc_addr_succ addr_family A.end_ hf hAe (by omega)
  have hc0 : ¬ compare_addrs B.start A.start addr_family = 0 := by
    rw [compare_addrs_eq_zero_iff addr_family _ _ hBs hAs hf]; omega
  have hc1 : ¬ compare_addrs B.start A.start addr_family < 0 := by
    rw [compare_addrs_neg_iff addr_family _ _ hBs hAs hf]; omega
  have htake : A.end_.take A.addr_bytes = A.end_ := by
    rw [hAw, ← hAe.1]; exact List.take_length _
  unfold ranges_contiguous
  have hfeq : ¬ B.addr_family ≠ A.addr_family := by rw [hAf, hBf]; simp
  rw [if_neg hfeq]
  simp only [hBf, hc0, hc1, if_false, htake, hinc]
  congr 1
  rw [decide_eq_decide]
  exact compare_addrs_eq_zero_iff addr_family _ _ ha1 hBs hf |>.trans (by rw [hval])

/-! ## The write step of `process_range_file` -/

theorem fwrite_at_end (f : File) (bytes : List Nat) (h : f.pos = f.data.length) :
    fwrite f bytes = { data := f.data ++ bytes, pos := f.data.length + bytes.length } := by
  unfold fwrite
  rw [h]
  simp

theorem fseek_back_fwrite (pre e bytes : List Nat) (hlen : bytes.length = e.length) :
    (fseek_cur { data := pre ++ e, pos := (pre ++ e).length } (-(e.length : Int))).map
        (fun f => fwrite f bytes)
      = some { data := pre ++ bytes, pos := (pre ++ bytes).length } := by
  unfold fseek_cur
  have h1 : ¬ (((pre ++ e).length : Int) + -(e.length : Int) < 0) := by
    simp only [List.length_append]; push_cast; omega
  have h2 : (((pre ++ e).length : Int) + -(e.length : Int)).toNat = pre.length := by
    simp only [List.length_append]; push_cast; omega
  simp only [h1, if_false, Option.map_some', h2]
  unfold fwrite
  simp [hlen]

theorem write_range_other_country (st : RangeFileState) (country_pos : Nat)
    (range : AddressRange) (file : File)
    (hfile : st.out_files country_pos = some file) (hpos : file.pos = file.data.length)
    (hne : country_pos ≠ st.last_country_pos) :
    write_range st country_pos range
      = .next (st.written country_pos range
          { data := file.data ++ range.start.take range.addr_bytes ++
              range.end_.take range.addr_bytes,
            pos := (file.data ++ range.start.take range.addr_bytes ++
              range.end_.take range.addr_bytes).length }) := by
  unfold write_range
  rw [hfile]
  simp only [hne, if_false, Bool.false_eq_true, if_true]
  rw [fwrite_at_end file _ hpos, fwrite_at_end _ _ (by simp)]
  simp [RangeFileState.written, Nat.add_assoc]

theorem write_range_not_contiguous (st : RangeFileState) (country_pos : Nat)
    (range last_range : AddressRange) (file : File)
    (hfile : st.out_files country_pos = some file) (hpos : file.pos = file.data.length)
    (hlast : st.last_range = some last_range)
    (hc : ranges_contiguous range last_range = .ok false) :
    write_range st country_pos range
      = .next (st.written country_pos range
          { data := file.data ++ range.start.take range.addr_bytes ++
              range.end_.take range.addr_bytes,
            pos := (file.data ++ range.start.take range.addr_bytes ++
              range.end_.take range.addr_bytes).length }) := by
  unfold write_range
  rw [hfile]
  simp only [hlast, hc, ite_self]
  simp only [Bool.false_eq_true, if_false, if_true]
  rw [fwrite_at_end file _ hpos, fwrite_at_end _ _ (by simp)]
  simp [RangeFileState.written, Nat.add_assoc]

theorem write_range_merge (st : RangeFileState) (country_pos : Nat)
    (range last_range : AddressRange) (pre e : List Nat)
    (hfile : st.out_files country_pos
      = some { data := pre ++ e, pos := (pre ++ e).length })
    (hsame : country_pos = st.last_country_pos)
    (hlast : st.last_range = some last_range)
    (hc : ranges_contiguous range last_range = .ok true)
    (he : e.length = range.addr_bytes)
    (hend : (range.end_.take range.addr_bytes).length = range.addr_bytes) :
    write_range st country_pos range
      = .next (st.written country_pos range
          { data := pre ++ range.end_.take range.addr_bytes,
            pos := (pre ++ range.end_.take range.addr_bytes).length }) := by
  have hsw := fseek_back_fwrite pre e (range.end_.take range.addr_bytes) (by rw [hend, he])
  rw [he] at hsw
  unfold write_range
  rw [hfile]
  simp only [← hsame, if_true, hlast, hc]
  cases hseek : fseek_cur { data := pre ++ e, pos := (pre ++ e).length }
      (-(range.addr_bytes : Int)) with
  | none => rw [hseek] at hsw; simp at hsw
  | some f1 =>
    rw [hseek] at hsw
    simp only [Option.map_some', Option.some.injEq] at hsw
    simp only [Option.map_some', Bool.false_eq_true, if_false, hsw]
    rfl

/-! ## The invariant of the loop of `process_range_file` -/

theorem pairs_bytes_append (ps qs : List (List Nat × List Nat)) :
    pairs_bytes (ps ++ qs) = pairs_bytes ps ++ pairs_bytes qs := by
  induction ps with
  | nil => rfl
  | cons p ps ih => simp [pairs_bytes, ih]

theorem pairs_cover_append_single (ps : List (List Nat × List Nat)) (s e : List Nat) (a : Nat) :
    PairsCover (ps ++ [(s, e)]) a ↔ PairsCover ps a ∨ (addr_val s ≤ a ∧ a ≤ addr_val e) := by
  unfold PairsCover
  constructor
  · rintro ⟨p, hp, h⟩
    rcases List.mem_append.mp hp with hp | hp
    · exact Or.inl ⟨p, hp, h⟩
    · simp only [List.mem_singleton] at hp; subst hp; exact Or.inr h
  · rintro (⟨p, hp, h⟩ | h)
    · exact ⟨p, List.mem_append_left _ hp, h⟩
    · exact ⟨(s, e), by simp, h⟩

theorem rows_cover_append_single (rows : List (Nat × AddressRange)) (pos : Nat)
    (r : AddressRange) (q a : Nat) :
    RowsCover (rows ++ [(pos, r)]) q a ↔
      RowsCover rows q a ∨ (pos = q ∧ addr_val r.start ≤ a ∧ a ≤ addr_val r.end_) := by
  unfold RowsCover
  constructor
  · rintro ⟨e, he, h⟩
    rcases List.mem_append.mp he with he | he
    · exact Or.inl ⟨e, he, h⟩
    · simp only [List.mem_singleton] at he; subst he; exact Or.inr h
  · rintro (⟨e, he, h⟩ | h)
    · exact ⟨e, List.mem_append_left _ he, h⟩
    · exact ⟨(pos, r), by simp, h⟩

theorem pairs_ok_append_single (w : Nat) (ps : List (List Nat × List Nat)) (s e : List Nat)
    (hps : PairsOK w ps) (hs : AddrOK w s) (he : AddrOK w e) (hle : addr_val s ≤ addr_val e) :
    PairsOK w (ps ++ [(s, e)]) := by
  intro p hp
  rcases List.mem_append.mp hp with hp | hp
  · exact hps p hp
  · simp only [List.mem_singleton] at hp; subst hp; exact ⟨hs, he, hle⟩

theorem run_inv_written (addr_family : Nat) (out_files : OutFiles) (last_country_pos : Nat)
    (last_range : Option AddressRange) (rows : List (Nat × AddressRange)) (pos : Nat)
    (r : AddressRange) (file1 : File) (pairs1 : List (List Nat × List Nat))
    (hinv : RunInv addr_family out_files last_country_pos last_range rows)
    (hr : RangeOK addr_family r)
    (hdata : file1.data = pairs_bytes pairs1) (hfpos : file1.pos = file1.data.length)
    (hok : PairsOK (family_bytes addr_family) pairs1)
    (hcov : ∀ a, PairsCover pairs1 a ↔ RowsCover (rows ++ [(pos, r)]) pos a)
    (hlast : ∃ pre s, pairs1 = pre ++ [(s, r.end_)]) :
    RunInv addr_family (out_files.set pos file1) pos (some r) (rows ++ [(pos, r)]) := by
  refine ⟨?_, ?_, ?_⟩
  · intro e he
    rcases List.mem_append.mp he with he | he
    · exact hinv.rows_ok e he
    · simp only [List.mem_singleton] at he; subst he; exact hr
  · intro q file hq
    unfold OutFiles.set at hq
    by_cases hqp : q = pos
    · subst hqp
      simp only [if_true, Option.some.injEq] at hq
      subst hq
      obtain ⟨pre, s, hpre⟩ := hlast
      exact ⟨pairs1, hdata, hfpos, hok, hcov, fun _ _ => ⟨pre, s, r, rfl, hpre⟩⟩
    · simp only [hqp, if_false] at hq
      obtain ⟨pairs, h1, h2, h3, h4, _⟩ := hinv.files q file hq
      refine ⟨pairs, h1, h2, h3, ?_, fun _ h => absurd h hqp⟩
      intro a
      rw [h4 a, rows_cover_append_single]
      constructor
      · exact Or.inl
      · rintro (h | ⟨h, _⟩)
        · exact h
        · exact absurd h.symm hqp
  · intro _
    refine ⟨r, rfl, by simp, ?_⟩
    simp [OutFiles.set]

theorem write_range_keeps_inv (addr_family : Nat) (st : RangeFileState)
    (rows : List (Nat × AddressRange)) (pos : Nat) (r : AddressRange)
    (hf : addr_family = AF_INET ∨ addr_family = AF_INET6)
    (hinv : RunInv addr_family st.out_files st.last_country_pos st.last_range rows)
    (hr : RangeOK addr_family r)
    (hbefore : ∀ e ∈ rows, addr_val e.2.end_ < addr_val r.start)
    (hpos : pos ≠ 0) (hopen : st.out_files pos ≠ none) :
    ∃ st1, write_range st pos r = .next st1 ∧
      RunInv addr_family st1.out_files st1.last_country_pos st1.last_range
        (rows ++ [(pos, r)]) ∧
      st1.cache = st.cache ∧ st1.cols = st.cols ∧
      (∀ p, st1.out_files p = none ↔ st.out_files p = none) := by
  obtain ⟨file, hfile⟩ := Option.ne_none_iff_exists'.mp hopen
  obtain ⟨pairs, hdata, hfpos, hok, hcov, hlastp⟩ := hinv.files pos file hfile
  obtain ⟨hrf, hrw, hrs, hre, hrle⟩ := hr
  have hts : r.start.take r.addr_bytes = r.start := by
    rw [hrw, ← hrs.1]; exact List.take_length _
  have hte : r.end_.take r.addr_bytes = r.end_ := by
    rw [hrw, ← hre.1]; exact List.take_length _
  have hnone : ∀ (f1 : File) (p : Nat),
      (st.out_files.set pos f1) p = none ↔ st.out_files p = none := by
    intro f1 p
    unfold OutFiles.set
    by_cases hp : p = pos
    · subst hp; simp [hfile]
    · simp [hp]
  -- the state after an append
  have happend : ∀ st1, write_range st pos r = .next st1 →
      st1 = st.written pos r
        { data := file.data ++ r.start.take r.addr_bytes ++ r.end_.take r.addr_bytes,
          pos := (file.data ++ r.start.take r.addr_bytes ++ r.end_.take r.addr_bytes).length } →
      RunInv addr_family st1.out_files st1.last_country_pos st1.last_range
          (rows ++ [(pos, r)]) ∧
        st1.cache = st.cache ∧ st1.cols = st.cols ∧
        (∀ p, st1.out_files p = none ↔ st.out_files p = none) := by
    intro st1 _ hst1
    subst hst1
    refine ⟨?_, rfl, rfl, hnone _⟩
    apply run_inv_written addr_family st.out_files st.last_country_pos st.last_range rows pos r
      _ (pairs ++ [(r.start, r.end_)]) hinv ⟨hrf, hrw, hrs, hre, hrle⟩
    · simp only [hts, hte, hdata, pairs_bytes_append, pairs_bytes, List.append_nil,
        List.append_assoc]
    · rfl
    · exact pairs_ok_append_single _ _ _ _ hok hrs hre hrle
    · intro a
      rw [pairs_cover_append_single, rows_cover_append_single, hcov a]
      simp
    · exact ⟨pairs, r.start, rfl⟩
  by_cases hsame : pos = st.last_country_pos
  · have hl0 : st.last_country_pos ≠ 0 := hsame ▸ hpos
    obtain ⟨pre, s, lr, hlr, hpairs⟩ := hlastp hl0 hsame
    obtain ⟨lr2, hlr2, hmem, _⟩ := hinv.last hl0
    have hlreq : lr2 = lr := by rw [hlr] at hlr2; exact (Option.some.inj hlr2).symm
    subst hlreq
    have hlrok := hinv.rows_ok _ hmem
    have hlt : addr_val lr2.end_ < addr_val r.start := hbefore _ hmem
    have hcont := ranges_contiguous_after addr_family lr2 r hf hlrok
      ⟨hrf, hrw, hrs, hre, hrle⟩ hlt
    by_cases hadj : addr_val lr2.end_ + 1 = addr_val r.start
    · -- merge
      rw [decide_eq_true hadj] at hcont
      have hpre : file = { data := (pairs_bytes pre ++ s) ++ lr2.end_,
                           pos := ((pairs_bytes pre ++ s) ++ lr2.end_).length } := by
        cases file with
        | mk d p =>
          simp only at hdata hfpos
          subst hfpos
          simp [hdata, hpairs, pairs_bytes_append, pairs_bytes]
      have hsl : PairsOK (family_bytes addr_family) (pre ++ [(s, lr2.end_)]) := hpairs ▸ hok
      have hs := hsl (s, lr2.end_) (by simp)
      have hsle : addr_val s ≤ addr_val lr2.end_ := hs.2.2
      have hw := write_range_merge st pos r lr2 (pairs_bytes pre ++ s) lr2.end_
        (hpre ▸ hfile) hsame hlr hcont (by rw [hs.2.1.1, hrw]) (by rw [hte, hre.1, hrw])
      refine ⟨_, hw, ?_, rfl, rfl, hnone _⟩
      apply run_inv_written addr_family st.out_files st.last_country_pos st.last_range rows
        pos r _ (pre ++ [(s, r.end_)]) hinv ⟨hrf, hrw, hrs, hre, hrle⟩
      · simp only [hte, pairs_bytes_append, pairs_bytes, List.append_nil, List.append_assoc]
      · rfl
      · apply pairs_ok_append_single _ _ s r.end_ _ hs.1 hre
        · exact (by omega : addr_val s ≤ addr_val r.end_)
        · intro p hp; exact hsl p (List.mem_append_left _ hp)
      · intro a
        have hc := hcov a
        rw [hpairs, pairs_cover_append_single] at hc
        rw [pairs_cover_append_single, rows_cover_append_single, ← hc]
        constructor
        · rintro (h | h)
          · exact Or.inl (Or.inl h)
          · by_cases ha : a ≤ addr_val lr2.end_
            · exact Or.inl (Or.inr ⟨h.1, ha⟩)
            · exact Or.inr ⟨rfl, by omega, h.2⟩
        · rintro ((h | h) | h)
          · exact Or.inl h
          · exact Or.inr ⟨h.1, by omega⟩
          · exact Or.inr ⟨by omega, h.2.2⟩
      · exact ⟨pre, s, rfl⟩
    · rw [decide_eq_false hadj] at hcont
      have hw := write_range_not_contiguous st pos r lr2 file hfile hfpos hlr hcont
      exact ⟨_, hw, happend _ hw rfl⟩
  · have hw := write_range_other_country st pos r file hfile hfpos hsame
    exact ⟨_, hw, happend _ hw rfl⟩

/-! ## What the classification of a line tells -/

theorem classify_row_congr (addr_family num_countries arr : Nat)
    (countries : List Country) (f g : OutFiles) (cols : RangeCols) (cache : CountryCache)
    (line_data : Tokenized) (hfg : ∀ p, f p = none ↔ g p = none) :
    classify_row addr_family num_countries arr countries f cols cache line_data
      = classify_row addr_family num_countries arr countries g cols cache line_data := by
  unfold classify_row
  simp only [hfg]

theorem classify_row_compile (addr_family num_countries arr : Nat)
    (countries : List Country) (out_files : OutFiles) (cols : RangeCols)
    (cache : CountryCache) (line_data : Tokenized) (pos : Nat) (r : AddressRange)
    (cache1 : CountryCache)
    (h : classify_row addr_family num_countries arr countries out_files cols cache line_data
      = .compile pos r cache1) :
    pos ≠ 0 ∧ out_files pos ≠ none ∧ (∃ cidr, parse_cidr cidr = .ok r) ∧
      r.addr_family = addr_family ∧
      ∃ index c, row_lookup num_countries arr countries cols cache line_data
          = .found index cache1 ∧
        countries[index]? = some c ∧ c.forbidden = false ∧
        country_code_pos c.country_code = pos := by
  unfold classify_row at h
  cases hl : row_lookup num_countries arr countries cols cache line_data with
  | fault f => rw [hl] at h; cases h
  | fatal msg c1 => rw [hl] at h; cases h
  | unknown c2 => rw [hl] at h; cases h
  | found index c2 =>
    rw [hl] at h
    simp only at h
    cases hc : countries[index]? with
    | none => rw [hc] at h; cases h
    | some country =>
      rw [hc] at h
      simp only at h
      by_cases hforb : country.forbidden = true
      · rw [if_pos hforb] at h; cases h
      · rw [if_neg hforb] at h
        by_cases hp0 : country_code_pos country.country_code = 0
        · rw [if_pos hp0] at h; cases h
        · rw [if_neg hp0] at h
          by_cases hmax : country_code_pos country.country_code ≥ MAX_COUNTRIES
          · rw [if_pos hmax] at h; cases h
          · rw [if_neg hmax] at h
            by_cases hopen : out_files (country_code_pos country.country_code) = none
            · rw [if_pos hopen] at h; cases h
            · rw [if_neg hopen] at h
              cases hcidr : cols.cidr_col.bind line_data.col with
              | none => rw [hcidr] at h; cases h
              | some cidr =>
                rw [hcidr] at h
                simp only at h
                cases hparse : parse_cidr cidr with
                | error e => rw [hparse] at h; cases h
                | ok range =>
                  rw [hparse] at h
                  simp only at h
                  by_cases hfam : range.addr_family ≠ addr_family
                  · rw [if_pos hfam] at h; cases h
                  · rw [if_neg hfam] at h
                    simp only [RowClass.compile.injEq] at h
                    obtain ⟨h1, h2, h3⟩ := h
                    subst h1 h2 h3
                    exact ⟨hp0, hopen, ⟨cidr, hparse⟩, by simpa using hfam,
                      index, country, rfl, hc, by simpa using hforb, rfl⟩

/-! ## The loop of `process_range_file` keeps the invariant -/

theorem process_range_lines_inv (addr_family num_countries arr : Nat)
    (countries : List Country) (out_files0 : OutFiles)
    (hf : addr_family = AF_INET ∨ addr_family = AF_INET6) :
    ∀ (lines : List (List Char)) (line_num : Nat) (st : RangeFileState)
      (rows0 : List (Nat × AddressRange)) (res : RangeFileResult),
      RunInv addr_family st.out_files st.last_country_pos st.last_range rows0 →
      (∀ p, st.out_files p = none ↔ out_files0 p = none) →
      EndsBeforeStarts (rows0 ++ compiled_rows addr_family num_countries arr countries
        out_files0 lines line_num st.cols st.cache) →
      process_range_lines addr_family num_countries arr countries lines line_num st
        = .ok res →
      ∃ lp lr, RunInv addr_family res.out_files lp lr
        (rows0 ++ compiled_rows addr_family num_countries arr countries out_files0 lines
          line_num st.cols st.cache) ∧
        (∀ p, res.out_files p = none ↔ out_files0 p = none) := by
  intro lines
  induction lines with
  | nil =>
    intro line_num st rows0 res hinv hnone _ hres
    simp only [process_range_lines, Except.ok.injEq] at hres
    subst hres
    simp only [compiled_rows, List.append_nil]
    exact ⟨_, _, hinv, hnone⟩
  | cons line rest ih =>
    intro line_num st rows0 res hinv hnone hsorted hres
    rw [process_range_lines] at hres
    rw [compiled_rows] at hsorted ⊢
    by_cases h0 : line.length = 0
    · rw [if_pos h0] at hres hsorted ⊢
      exact ih _ _ _ _ hinv hnone hsorted hres
    · rw [if_neg h0] at hres hsorted ⊢
      by_cases h1 : line.length = MAX_LINE - 1
      · rw [if_pos h1] at hres ⊢
        simp only [Except.ok.injEq] at hres
        subst hres
        simp only [List.append_nil]
        exact ⟨_, _, hinv, hnone⟩
      · rw [if_neg h1] at hres hsorted ⊢
        cases htok : tokenize_csv line MAX_COLS with
        | error f => try rw [htok] at hres
                     cases hres
        | ok line_data =>
          try rw [htok] at hres
          try rw [htok] at hsorted
          try rw [htok]
          simp only at hres hsorted ⊢
          by_cases h2 : line_num = 1
          · rw [if_pos h2] at hres hsorted ⊢
            cases hcols : range_header_cols line_data with
            | none =>
              try rw [hcols] at hres
              try rw [hcols]
              simp only [Except.ok.injEq] at hres
              subst hres
              simp only [List.append_nil]
              exact ⟨_, _, hinv, hnone⟩
            | some cols =>
              try rw [hcols] at hres
              try rw [hcols] at hsorted
              try rw [hcols]
              exact ih (line_num + 1) { st with cols := cols } rows0 res hinv hnone hsorted hres
          · rw [if_neg h2] at hres hsorted ⊢
            have hcl := classify_row_congr addr_family num_countries arr countries
              st.out_files out_files0 st.cols st.cache line_data hnone
            unfold process_range_row at hres
            rw [hcl] at hres
            cases hclass : classify_row addr_family num_countries arr countries out_files0
                st.cols st.cache line_data with
            | skip c1 =>
              try rw [hclass] at hres
              try rw [hclass] at hsorted
              try rw [hclass]
              exact ih (line_num + 1) { st with cache := c1 } rows0 res hinv hnone hsorted hres
            | fatal msg c1 =>
              try rw [hclass] at hres
              try rw [hclass]
              simp only [Except.ok.injEq] at hres
              subst hres
              simp only [List.append_nil]
              exact ⟨_, _, hinv, hnone⟩
            | fault f =>
              try rw [hclass] at hres
              cases hres
            | compile pos r c1 =>
              try rw [hclass] at hres
              try rw [hclass] at hsorted
              try rw [hclass]
              simp only at hres hsorted ⊢
              obtain ⟨hp0, hopen, ⟨cidr, hparse⟩, hfam, _⟩ :=
                classify_row_compile _ _ _ _ _ _ _ _ _ _ _ hclass
              have hr : RangeOK addr_family r := hfam ▸ (parse_cidr_range_ok cidr r hparse).2
              have hbefore : ∀ e ∈ rows0, addr_val e.2.end_ < addr_val r.start := by
                intro e he
                have := (List.pairwise_append.mp hsorted).2.2 e he (pos, r)
                  (List.mem_cons_self _ _)
                exact this
              obtain ⟨st1, hw, hinv1, hc, hcols, hnone1⟩ :=
                write_range_keeps_inv addr_family { st with cache := c1 } rows0 pos r hf hinv hr
                  hbefore hp0 (fun h => hopen ((hnone pos).mp h))
              rw [hw] at hres
              simp only at hres
              have hc2 : st1.cache = c1 := hc
              have hcols2 : st1.cols = st.cols := hcols
              have hso : EndsBeforeStarts ((rows0 ++ [(pos, r)]) ++
                  compiled_rows addr_family num_countries arr countries out_files0 rest
                    (line_num + 1) st1.cols st1.cache) := by
                rw [hc2, hcols2, List.append_assoc]; exact hsorted
              obtain ⟨lp, lr, hfin, hn⟩ := ih (line_num + 1) st1 (rows0 ++ [(pos, r)]) res hinv1
                (fun p => (hnone1 p).trans (hnone p)) hso hres
              rw [hc2, hcols2, List.append_assoc] at hfin
              exact ⟨lp, lr, hfin, hn⟩

/-! ## From the loop to `process_range_file` -/

theorem pairs_bytes_length (w : Nat) (pairs : List (List Nat × List Nat))
    (hok : PairsOK w pairs) : (pairs_bytes pairs).length = 2 * w * pairs.length := by
  induction pairs with
  | nil => rfl
  | cons p ps ih =>
    have hp := hok p (List.mem_cons_self _ _)
    have := ih (fun q hq => hok q (List.mem_cons_of_mem _ hq))
    simp only [pairs_bytes, List.length_append, List.length_cons, hp.1.1, hp.2.1.1, this]
    ring

theorem file_pairs_pairs_bytes (w : Nat) (hw : 0 < w) (pairs : List (List Nat × List Nat)) :
    ∀ fuel, PairsOK w pairs → pairs.length ≤ fuel →
      file_pairs w fuel (pairs_bytes pairs) = pairs := by
  induction pairs with
  | nil =>
    intro fuel _ _
    cases fuel with
    | zero => rfl
    | succ f => simp [file_pairs, pairs_bytes]
  | cons p ps ih =>
    intro fuel hok hfuel
    have hp := hok p (List.mem_cons_self _ _)
    have hps : PairsOK w ps := fun q hq => hok q (List.mem_cons_of_mem _ hq)
    cases fuel with
    | zero => simp at hfuel
    | succ f =>
      have hlen : ¬ (w = 0 ∨ (pairs_bytes (p :: ps)).length < 2 * w) := by
        rw [pairs_bytes_length w _ hok]
        simp only [List.length_cons]
        intro h
        rcases h with h | h
        · omega
        · have : 2 * w * (ps.length + 1) = 2 * w * ps.length + 2 * w := by ring
          omega
      rw [file_pairs, if_neg hlen]
      have h1 : (pairs_bytes (p :: ps)).take w = p.1 := by
        simp only [pairs_bytes, List.append_assoc]
        rw [List.take_append_of_le_length (by rw [hp.1.1])]
        rw [← hp.1.1]; exact List.take_length _
      have h2 : ((pairs_bytes (p :: ps)).drop w).take w = p.2 := by
        simp only [pairs_bytes, List.append_assoc]
        rw [← hp.1.1, List.drop_left, hp.1.1]
        rw [List.take_append_of_le_length (by rw [hp.2.1.1])]
        rw [← hp.2.1.1]; exact List.take_length _
      have h3 : (pairs_bytes (p :: ps)).drop (2 * w) = pairs_bytes ps := by
        simp only [pairs_bytes]
        have : (p.1 ++ p.2).length = 2 * w := by
          rw [List.length_append, hp.1.1, hp.2.1.1]; omega
        rw [← this, List.drop_left]
      rw [h1, h2, h3, ih f hps (by simpa using hfuel)]

theorem sink_pairs_pairs_bytes (w : Nat) (hw : 0 < w) (pairs : List (List Nat × List Nat))
    (hok : PairsOK w pairs) : sink_pairs w (pairs_bytes pairs) = pairs := by
  unfold sink_pairs
  apply file_pairs_pairs_bytes w hw pairs _ hok
  rw [pairs_bytes_length w pairs hok]
  have : pairs.length ≤ w * pairs.length := Nat.le_mul_of_pos_left _ hw
  have h2 : 2 * w * pairs.length = w * pairs.length + w * pairs.length := by ring
  omega

theorem open_out_files_empty (cs : List Country) :
    ∀ (f0 f : OutFiles), open_out_files cs f0 = .ok f →
      (∀ p file, f0 p = some file → file = File.empty) →
      ∀ p file, f p = some file → file = File.empty := by
  induction cs with
  | nil =>
    intro f0 f h h0
    simp only [open_out_files, Except.ok.injEq] at h
    subst h
    exact h0
  | cons c cs ih =>
    intro f0 f h h0
    rw [open_out_files] at h
    split at h
    · exact ih f0 f h h0
    · simp only at h
      split at h
      · cases h
      · apply ih _ f h
        intro p file hp
        unfold OutFiles.set at hp
        split at hp
        · exact (Option.some.inj hp).symm
        · exact h0 p file hp

theorem compiled_rows_range_ok (addr_family num_countries arr : Nat)
    (countries : List Country) (out_files0 : OutFiles) :
    ∀ (lines : List (List Char)) (line_num : Nat) (cols : RangeCols) (cache : CountryCache),
      ∀ e ∈ compiled_rows addr_family num_countries arr countries out_files0 lines line_num
        cols cache, RangeOK addr_family e.2 := by
  intro lines
  induction lines with
  | nil => intro _ _ _ e he; simp [compiled_rows] at he
  | cons line rest ih =>
    intro line_num cols cache e he
    rw [compiled_rows] at he
    split at he
    · exact ih _ _ _ e he
    · split at he
      · simp at he
      · split at he
        · simp at he
        · split at he
          · split at he
            · simp at he
            · exact ih _ _ _ e he
          · split at he
            · exact ih _ _ _ e he
            · rename_i pos r c1 hclass
              obtain ⟨_, _, ⟨cidr, hparse⟩, hfam, _⟩ :=
                classify_row_compile _ _ _ _ _ _ _ _ _ _ _ hclass
              rcases List.mem_cons.mp he with rfl | he2
              · exact hfam ▸ (parse_cidr_range_ok cidr r hparse).2
              · exact ih _ _ _ e he2
            · simp at he
            · simp at he

theorem open_out_files_opens (cs : List Country) :
    ∀ (f0 f : OutFiles), open_out_files cs f0 = .ok f →
      (∀ p, f0 p ≠ none → f p ≠ none) ∧
      ∀ c ∈ cs, c.forbidden = false → f (country_code_pos c.country_code) ≠ none := by
  induction cs with
  | nil =>
    intro f0 f h
    simp only [open_out_files, Except.ok.injEq] at h
    subst h
    exact ⟨fun _ h => h, fun c hc => by simp at hc⟩
  | cons c cs ih =>
    intro f0 f h
    rw [open_out_files] at h
    split at h
    · rename_i hforb
      obtain ⟨h1, h2⟩ := ih f0 f h
      refine ⟨h1, ?_⟩
      intro d hd hdf
      rcases List.mem_cons.mp hd with rfl | hd2
      · rw [hforb] at hdf; cases hdf
      · exact h2 d hd2 hdf
    · simp only at h
      split at h
      · cases h
      · obtain ⟨h1, h2⟩ := ih _ f h
        have hset : ∀ p, f0 p ≠ none →
            (f0.set (country_code_pos c.country_code) File.empty) p ≠ none := by
          intro p hp
          unfold OutFiles.set
          split
          · simp
          · exact hp
        refine ⟨fun p hp => h1 p (hset p hp), ?_⟩
        intro d hd hdf
        rcases List.mem_cons.mp hd with rfl | hd2
        · apply h1
          simp [OutFiles.set]
        · exact h2 d hd2 hdf

theorem sorted_disjoint_ends (addr_family : Nat) (rows : List (Nat × AddressRange))
    (hok : ∀ e ∈ rows, RangeOK addr_family e.2)
    (hs : SortedDisjoint (rows.map Prod.snd)) : EndsBeforeStarts rows := by
  unfold SortedDisjoint at hs
  unfold EndsBeforeStarts
  rw [List.pairwise_map] at hs
  refine List.Pairwise.imp_of_mem ?_ hs
  intro e1 e2 h1 h2 h
  have hle := (hok e2 h2).2.2.2.2
  rcases h.2 with hd | hd
  · exact hd
  · omega

set_option maxRecDepth 1000000 in
/-- C1 (the code departs from the claim): a feed with the single row
`10.0.0.0/24` is sorted, its ranges are disjoint and no fatal condition
occurs in it, yet with the identifier 1, which is below the identifier 5 of
the first record, the binary search of `get_country` lets `end` wrap at index 0
and reads `countries[2147483647]`: `process_range_file` does not return, and
the row is not compiled for `O1`. -/
theorem sorted_feed_with_identifier_below_first_record_leaves_array :
    (process_range_file [sample_range_header, "10.0.0.0/24,1,1,,0,0\n".toList]
        AF_INET 5 4096 sample_countries CountryCache.initial).map
      (fun res => res.num_ranges)
      = .error (.out_of_bounds 2147483647) := by
  decide

/-- When a call of `process_range_file` returns, for a range file of family
`AF_INET` or `AF_INET6` whose compiled rows are sorted by ascending start
address with pairwise disjoint ranges, and for every country that is not
forbidden, the output file of the country exists, consists of whole
(start, end) pairs with start not above end, and the addresses these pairs
cover are exactly the addresses of the ranges of the rows compiled for the
country: merging adds no address and loses none. -/
theorem process_range_file_sorted_feed_covers (lines : List (List Char))
    (addr_family num_countries arr : Nat) (countries : List Country) (cache : CountryCache)
    (res : RangeFileResult)
    (hf : addr_family = AF_INET ∨ addr_family = AF_INET6)
    (hrun : process_range_file lines addr_family num_countries arr countries cache = .ok res)
    (hsorted : SortedDisjoint
      ((compiled_rows_of lines addr_family num_countries arr countries cache).map Prod.snd)) :
    ∀ c ∈ countries.take num_countries, c.forbidden = false →
      ∃ file, res.out_files (country_code_pos c.country_code) = some file ∧
        file.data = pairs_bytes (sink_pairs (family_bytes addr_family) file.data) ∧
        (∀ p ∈ sink_pairs (family_bytes addr_family) file.data,
          addr_val p.1 ≤ addr_val p.2) ∧
        (∀ a, PairsCover (sink_pairs (family_bytes addr_family) file.data) a ↔
          RowsCover (compiled_rows_of lines addr_family num_countries arr countries cache)
            (country_code_pos c.country_code) a) := by
  intro c hc hcf
  have hw : 0 < family_bytes addr_family := by
    rcases hf with h | h <;> subst h <;> decide
  unfold process_range_file at hrun
  by_cases hn : num_countries = 0
  · subst hn; simp at hc
  · rw [if_neg hn] at hrun
    have hf2 : ¬ (addr_family ≠ AF_INET ∧ addr_family ≠ AF_INET6) := by
      rcases hf with h | h <;> subst h <;> decide
    rw [if_neg hf2] at hrun
    unfold compiled_rows_of at hsorted ⊢
    cases hopen : open_out_files (countries.take num_countries) (fun _ => none) with
    | error f =>
      try rw [hopen] at hrun
      cases hrun
    | ok of0 =>
      try rw [hopen] at hrun
      try rw [hopen] at hsorted
      try rw [hopen]
      simp only at hrun hsorted ⊢
      have hempty := open_out_files_empty _ _ _ hopen (fun p file h => by cases h)
      have hinit : RunInv addr_family of0 0 none [] := by
        refine ⟨fun e he => (by cases he), ?_, fun h => absurd rfl h⟩
        intro pos file hfile
        have := hempty pos file hfile
        subst this
        refine ⟨[], rfl, rfl, fun p hp => (by cases hp), ?_, fun h _ => absurd rfl h⟩
        intro a
        constructor
        · rintro ⟨p, hp, _⟩; cases hp
        · rintro ⟨e, he, _⟩; cases he
      have hends := sorted_disjoint_ends addr_family _
        (compiled_rows_range_ok addr_family num_countries arr countries of0 lines 1 _ cache)
        hsorted
      obtain ⟨lp, lr, hinv, hnone⟩ := process_range_lines_inv addr_family num_countries arr
        countries of0 hf lines 1 _ [] res hinit (fun p => Iff.rfl)
        (by simpa using hends) hrun
      simp only [List.nil_append] at hinv
      have hsome : res.out_files (country_code_pos c.country_code) ≠ none := by
        rw [Ne, hnone]
        exact (open_out_files_opens _ _ _ hopen).2 c hc hcf
      obtain ⟨file, hfile⟩ := Option.ne_none_iff_exists'.mp hsome
      obtain ⟨pairs, hdata, _, hok, hcov, _⟩ := hinv.files _ file hfile
      have hsp := sink_pairs_pairs_bytes _ hw pairs hok
      rw [← hdata] at hsp
      refine ⟨file, hfile, ?_, ?_, ?_⟩
      · rw [hsp]; exact hdata
      · rw [hsp]; exact fun p hp => (hok p hp).2.2
      · rw [hsp]; exact hcov

set_option maxRecDepth 1000000 in
/-- Three rows for one country, the first two of them contiguous, followed by a
row of another country: the call returns and the files cover the rows. -/
theorem process_range_file_sorted_feed_covers_witness :
    ∃ res, process_range_file
        [sample_range_header, "10.0.0.0/24,5,5,,0,0\n".toList, "10.0.1.0/24,5,5,,0,0\n".toList,
         "10.0.8.0/24,5,5,,0,0\n".toList, "10.1.0.0/16,9,9,,0,0\n".toList]
        AF_INET 5 4096 sample_countries CountryCache.initial = .ok res ∧
      ∀ c ∈ sample_countries.take 5, c.forbidden = false →
        ∃ file, res.out_files (country_code_pos c.country_code) = some file ∧
          file.data = pairs_bytes (sink_pairs (family_bytes AF_INET) file.data) ∧
          (∀ p ∈ sink_pairs (family_bytes AF_INET) file.data, addr_val p.1 ≤ addr_val p.2) ∧
          (∀ a, PairsCover (sink_pairs (family_bytes AF_INET) file.data) a ↔
            RowsCover (compiled_rows_of
                [sample_range_header, "10.0.0.0/24,5,5,,0,0\n".toList,
                 "10.0.1.0/24,5,5,,0,0\n".toList, "10.0.8.0/24,5,5,,0,0\n".toList,
                 "10.1.0.0/16,9,9,,0,0\n".toList]
                AF_INET 5 4096 sample_countries CountryCache.initial)
              (country_code_pos c.country_code) a) := by
  cases h : process_range_file
      [sample_range_header, "10.0.0.0/24,5,5,,0,0\n".toList, "10.0.1.0/24,5,5,,0,0\n".toList,
       "10.0.8.0/24,5,5,,0,0\n".toList, "10.1.0.0/16,9,9,,0,0\n".toList]
      AF_INET 5 4096 sample_countries CountryCache.initial with
  | error f =>
    have hok : (process_range_file
        [sample_range_header, "10.0.0.0/24,5,5,,0,0\n".toList,
         "10.0.1.0/24,5,5,,0,0\n".toList, "10.0.8.0/24,5,5,,0,0\n".toList,
         "10.1.0.0/16,9,9,,0,0\n".toList]
        AF_INET 5 4096 sample_countries CountryCache.initial).toBool = true := by decide
    rw [h] at hok
    cases hok
  | ok res =>
    exact ⟨res, rfl, process_range_file_sorted_feed_covers _ AF_INET 5 4096 sample_countries
      CountryCache.initial res (Or.inl rfl) h (by decide)⟩

/-! ## Single rows: appending, merging, skipping -/

theorem process_range_row_of_compile (addr_family num_countries arr : Nat)
    (countries : List Country) (st : RangeFileState) (line_data : Tokenized) (pos : Nat)
    (r : AddressRange) (cache1 : CountryCache)
    (h : classify_row addr_family num_countries arr countries st.out_files st.cols st.cache
      line_data = .compile pos r cache1) :
    process_range_row addr_family num_countries arr countries st line_data
      = write_range { st with cache := cache1 } pos r := by
  unfold process_range_row
  rw [h]

theorem written_out_files_other (st : RangeFileState) (pos : Nat) (r : AddressRange)
    (file : File) (q : Nat) (hq : q ≠ pos) :
    (st.written pos r file).out_files q = st.out_files q := by
  simp [RangeFileState.written, OutFiles.set, hq]

theorem written_out_files_self (st : RangeFileState) (pos : Nat) (r : AddressRange)
    (file : File) : (st.written pos r file).out_files pos = some file := by
  simp [RangeFileState.written, OutFiles.set]

set_option maxRecDepth 1000000 in
/-- C3: a compiled row whose country position differs from the position of the
row written last is never merged: whatever its range, the row appends its start
and then its end to the file of its own country, leaves every other file as it
is and is counted.  For `10.0.0.0/24` and `10.0.1.0/24` of two different
countries each of the two files holds one pair of 8 bytes. -/
theorem compiled_row_of_other_country_appends (addr_family num_countries arr : Nat)
    (countries : List Country) (st : RangeFileState) (line_data : Tokenized) (pos : Nat)
    (r : AddressRange) (cache1 : CountryCache) (file : File)
    (hclass : classify_row addr_family num_countries arr countries st.out_files st.cols
      st.cache line_data = .compile pos r cache1)
    (hne : pos ≠ st.last_country_pos)
    (hfile : st.out_files pos = some file) (hend : file.pos = file.data.length) :
    (∃ st1, process_range_row addr_family num_countries arr countries st line_data
        = .next st1 ∧
      (st1.out_files pos).map File.data = some (file.data ++ r.start ++ r.end_) ∧
      (∀ q, q ≠ pos → st1.out_files q = st.out_files q) ∧
      st1.num_ranges = (st.num_ranges + 1) % 4294967296 ∧
      st1.last_country_pos = pos ∧ st1.last_range = some r) ∧
    (process_range_file
        [sample_range_header, "10.0.0.0/24,5,5,,0,0\n".toList, "10.0.1.0/24,9,9,,0,0\n".toList]
        AF_INET 5 4096 sample_countries CountryCache.initial).map
      (fun res => (res.num_ranges,
        (res.out_files (country_code_pos "PT".toList)).map File.data,
        (res.out_files (country_code_pos "ES".toList)).map File.data))
      = .ok (2, some [10, 0, 0, 0, 10, 0, 0, 255], some [10, 0, 1, 0, 10, 0, 1, 255]) := by
  refine ⟨?_, by decide⟩
  obtain ⟨_, _, ⟨cidr, hparse⟩, hfam, _⟩ := classify_row_compile _ _ _ _ _ _ _ _ _ _ _ hclass
  obtain ⟨_, hrw, hrs, hre, _⟩ := (parse_cidr_range_ok cidr r hparse).2
  have hts : r.start.take r.addr_bytes = r.start := by
    rw [hrw, ← hrs.1]; exact List.take_length _
  have hte : r.end_.take r.addr_bytes = r.end_ := by
    rw [hrw, ← hre.1]; exact List.take_length _
  have hw := write_range_other_country { st with cache := cache1 } pos r file hfile hend hne
  rw [hts, hte] at hw
  rw [process_range_row_of_compile _ _ _ _ _ _ _ _ _ hclass]
  refine ⟨_, hw, ?_, ?_, rfl, rfl, rfl⟩
  · rw [written_out_files_self]; rfl
  · intro q hq
    rw [written_out_files_other _ _ _ _ _ hq]

set_option maxRecDepth 1000000 in
/-- Witness of C3: in the state after the row `10.0.0.0/24` of `PT`, the row
`10.0.1.0/24` of `ES` is compiled for another position. -/
theorem compiled_row_of_other_country_appends_witness :
    (∃ st1, process_range_row AF_INET 5 4096 sample_countries sample_state
        (tokenized "10.0.1.0/24,9,9,,0,0\n".toList) = .next st1 ∧
      (st1.out_files 21317).map File.data
        = some (File.empty.data ++ [10, 0, 1, 0] ++ [10, 0, 1, 255]) ∧
      (∀ q, q ≠ 21317 → st1.out_files q = sample_state.out_files q) ∧
      st1.num_ranges = (sample_state.num_ranges + 1) % 4294967296 ∧
      st1.last_country_pos = 21317 ∧
      st1.last_range = some
        { addr_family := AF_INET, addr_bytes := 4, prefix_length := 24, base := [10, 0, 1, 0],
          mask := [255, 255, 255, 0], start := [10, 0, 1, 0], end_ := [10, 0, 1, 255] }) ∧
    (process_range_file
        [sample_range_header, "10.0.0.0/24,5,5,,0,0\n".toList, "10.0.1.0/24,9,9,,0,0\n".toList]
        AF_INET 5 4096 sample_countries CountryCache.initial).map
      (fun res => (res.num_ranges,
        (res.out_files (country_code_pos "PT".toList)).map File.data,
        (res.out_files (country_code_pos "ES".toList)).map File.data))
      = .ok (2, some [10, 0, 0, 0, 10, 0, 0, 255], some [10, 0, 1, 0, 10, 0, 1, 255]) :=
  compiled_row_of_other_country_appends AF_INET 5 4096 sample_countries sample_state
    (tokenized "10.0.1.0/24,9,9,,0,0\n".toList) 21317
    { addr_family := AF_INET, addr_bytes := 4, prefix_length := 24, base := [10, 0, 1, 0],
      mask := [255, 255, 255, 0], start := [10, 0, 1, 0], end_ := [10, 0, 1, 255] }
    { cached_geoname_id := 9, cached_country_arr := 4096, cached_country := some 1 }
    File.empty (by decide) (by decide) (by decide) rfl

set_option maxRecDepth 1000000 in
/-- C2 as stated fails: three consecutive rows of one country, each contiguous
with the one before.  For the second and the third row, `10.0.1.0/24` then
`10.0.2.0/24`, the claim asks for the pair `10.0.1.0`, `10.0.2.255`; the file
holds the single pair `10.0.0.0`, `10.0.2.255`, whose start is the start of the
first row. -/
theorem contiguous_rows_pair_does_not_start_at_second_row :
    (process_range_file
        [sample_range_header, "10.0.0.0/24,5,5,,0,0\n".toList, "10.0.1.0/24,5,5,,0,0\n".toList,
         "10.0.2.0/24,5,5,,0,0\n".toList]
        AF_INET 5 4096 sample_countries CountryCache.initial).map
      (fun res => (res.out_files (country_code_pos "PT".toList)).map
        (fun file => (sink_pairs 4 file.data,
          decide (([10, 0, 1, 0], [10, 0, 2, 255]) ∈ sink_pairs 4 file.data))))
      = .ok (some ([([10, 0, 0, 0], [10, 0, 2, 255])], false)) := by
  decide

set_option maxRecDepth 1000000 in
/-- C2, amended: a compiled row with range `B` of the country written last,
whose last range `A` satisfies `A.end + 1 = B.start`, appends no pair: the end
`A.end` that closes the file of the country is overwritten with `B.end`, every
byte before it stays, the length of the file does not change, and the row is
counted; so the two rows share one pair, whose start is the start written
before `A.end`.  For `10.0.0.0/24` then `10.0.1.0/24` the file holds exactly
the 8 bytes `10.0.0.0`, `10.0.1.255`. -/
theorem compiled_row_contiguous_with_last_merges (addr_family num_countries arr : Nat)
    (countries : List Country) (st : RangeFileState) (line_data : Tokenized) (pos : Nat)
    (A B : AddressRange) (cache1 : CountryCache) (pre : List Nat)
    (hf : addr_family = AF_INET ∨ addr_family = AF_INET6)
    (hclass : classify_row addr_family num_countries arr countries st.out_files st.cols
      st.cache line_data = .compile pos B cache1)
    (hsame : pos = st.last_country_pos) (hlast : st.last_range = some A)
    (hA : RangeOK addr_family A)
    (hadj : addr_val A.end_ + 1 = addr_val B.start)
    (hfile : st.out_files pos = some { data := pre ++ A.end_, pos := (pre ++ A.end_).length }) :
    (∃ st1, process_range_row addr_family num_countries arr countries st line_data
        = .next st1 ∧
      (st1.out_files pos).map File.data = some (pre ++ B.end_) ∧
      (pre ++ B.end_).length = (pre ++ A.end_).length ∧
      (∀ q, q ≠ pos → st1.out_files q = st.out_files q) ∧
      st1.num_ranges = (st.num_ranges + 1) % 4294967296 ∧
      st1.last_country_pos = pos ∧ st1.last_range = some B) ∧
    (process_range_file
        [sample_range_header, "10.0.0.0/24,5,5,,0,0\n".toList, "10.0.1.0/24,5,5,,0,0\n".toList]
        AF_INET 5 4096 sample_countries CountryCache.initial).map
      (fun res => (res.num_ranges,
        (res.out_files (country_code_pos "PT".toList)).map File.data))
      = .ok (2, some [10, 0, 0, 0, 10, 0, 1, 255]) := by
  refine ⟨?_, by decide⟩
  obtain ⟨_, _, ⟨cidr, hparse⟩, hfam, _⟩ := classify_row_compile _ _ _ _ _ _ _ _ _ _ _ hclass
  have hB : RangeOK addr_family B := hfam ▸ (parse_cidr_range_ok cidr B hparse).2
  obtain ⟨_, hbw, _, hbe, _⟩ := hB
  have hte : B.end_.take B.addr_bytes = B.end_ := by
    rw [hbw, ← hbe.1]; exact List.take_length _
  have hcont := ranges_contiguous_after addr_family A B hf hA
    (hfam ▸ (parse_cidr_range_ok cidr B hparse).2) (by omega)
  rw [decide_eq_true hadj] at hcont
  have hw := write_range_merge { st with cache := cache1 } pos B A pre A.end_ hfile hsame hlast
    hcont (by rw [hA.2.2.2.1.1, hbw]) (by rw [hte, hbe.1, hbw])
  rw [hte] at hw
  rw [process_range_row_of_compile _ _ _ _ _ _ _ _ _ hclass]
  refine ⟨_, hw, ?_, ?_, ?_, rfl, rfl, rfl⟩
  · rw [written_out_files_self]; rfl
  · rw [List.length_append, List.length_append, hbe.1, hA.2.2.2.1.1]
  · intro q hq
    rw [written_out_files_other _ _ _ _ _ hq]

set_option maxRecDepth 1000000 in
/-- Witness of C2, amended: in the state after the row `10.0.0.0/24` of `PT`,
the row `10.0.1.0/24` of `PT` is merged. -/
theorem compiled_row_contiguous_with_last_merges_witness :
    (∃ st1, process_range_row AF_INET 5 4096 sample_countries sample_state
        (tokenized "10.0.1.0/24,5,5,,0,0\n".toList) = .next st1 ∧
      (st1.out_files 21584).map File.data = some ([10, 0, 0, 0] ++ [10, 0, 1, 255]) ∧
      ([10, 0, 0, 0] ++ [10, 0, 1, 255]).length = ([10, 0, 0, 0] ++ sample_range.end_).length ∧
      (∀ q, q ≠ 21584 → st1.out_files q = sample_state.out_files q) ∧
      st1.num_ranges = (sample_state.num_ranges + 1) % 4294967296 ∧
      st1.last_country_pos = 21584 ∧
      st1.last_range = some
        { addr_family := AF_INET, addr_bytes := 4, prefix_length := 24, base := [10, 0, 1, 0],
          mask := [255, 255, 255, 0], start := [10, 0, 1, 0], end_ := [10, 0, 1, 255] }) ∧
    (process_range_file
        [sample_range_header, "10.0.0.0/24,5,5,,0,0\n".toList, "10.0.1.0/24,5,5,,0,0\n".toList]
        AF_INET 5 4096 sample_countries CountryCache.initial).map
      (fun res => (res.num_ranges,
        (res.out_files (country_code_pos "PT".toList)).map File.data))
      = .ok (2, some [10, 0, 0, 0, 10, 0, 1, 255]) :=
  compiled_row_contiguous_with_last_merges AF_INET 5 4096 sample_countries sample_state
    (tokenized "10.0.1.0/24,5,5,,0,0\n".toList) 21584 sample_range
    { addr_family := AF_INET, addr_bytes := 4, prefix_length := 24, base := [10, 0, 1, 0],
      mask := [255, 255, 255, 0], start := [10, 0, 1, 0], end_ := [10, 0, 1, 255] }
    { cached_geoname_id := 5, cached_country_arr := 4096, cached_country := some 0 }
    [10, 0, 0, 0] (Or.inl rfl) (by decide) (by decide) rfl
    ⟨rfl, rfl, ⟨rfl, by decide⟩, ⟨rfl, by decide⟩, by decide⟩ (by decide) (by decide)

/-! ## Forbidden countries -/

theorem write_range_next_none (st : RangeFileState) (pos : Nat) (r : AddressRange)
    (st1 : RangeFileState) (h : write_range st pos r = .next st1) :
    ∀ p, st1.out_files p = none ↔ st.out_files p = none := by
  unfold write_range at h
  cases hfile : st.out_files pos with
  | none => rw [hfile] at h; cases h
  | some file =>
    rw [hfile] at h
    simp only at h
    split at h
    · cases h
    · split at h
      · cases h
      · simp only [Outcome.next.injEq] at h
        subst h
        intro p
        simp only [OutFiles.set]
        by_cases hp : p = pos
        · subst hp; simp [hfile]
        · simp [hp]

theorem write_range_fatal_state (st : RangeFileState) (pos : Nat) (r : AddressRange)
    (st1 : RangeFileState) (msg : String) (h : write_range st pos r = .fatal st1 msg) :
    st1 = st := by
  unfold write_range at h
  cases hfile : st.out_files pos with
  | none => rw [hfile] at h; cases h
  | some file =>
    rw [hfile] at h
    simp only at h
    split at h
    · cases h
    · split at h
      · simp only [Outcome.fatal.injEq] at h
        exact h.1.symm
      · cases h

theorem process_range_row_none (addr_family num_countries arr : Nat)
    (countries : List Country) (st : RangeFileState) (line_data : Tokenized) :
    (∀ st1, process_range_row addr_family num_countries arr countries st line_data
        = .next st1 → ∀ p, st1.out_files p = none ↔ st.out_files p = none) ∧
    (∀ st1 msg, process_range_row addr_family num_countries arr countries st line_data
        = .fatal st1 msg → ∀ p, st1.out_files p = none ↔ st.out_files p = none) := by
  unfold process_range_row
  cases hclass : classify_row addr_family num_countries arr countries st.out_files st.cols
      st.cache line_data with
  | fault f => exact ⟨fun _ h => (by cases h), fun _ _ h => (by cases h)⟩
  | fatal msg c1 =>
    refine ⟨fun _ h => (by cases h), fun st1 msg1 h => ?_⟩
    simp only [Outcome.fatal.injEq] at h
    obtain ⟨h1, _⟩ := h
    subst h1
    exact fun p => Iff.rfl
  | skip c1 =>
    refine ⟨fun st1 h => ?_, fun _ _ h => (by cases h)⟩
    simp only [Outcome.next.injEq] at h
    subst h
    exact fun p => Iff.rfl
  | compile pos r c1 =>
    refine ⟨fun st1 h => ?_, fun st1 msg h => ?_⟩
    · exact write_range_next_none { st with cache := c1 } pos r st1 h
    · have := write_range_fatal_state { st with cache := c1 } pos r st1 msg h
      subst this
      exact fun p => Iff.rfl

theorem process_range_lines_none (addr_family num_countries arr : Nat)
    (countries : List Country) :
    ∀ (lines : List (List Char)) (line_num : Nat) (st : RangeFileState)
      (res : RangeFileResult),
      process_range_lines addr_family num_countries arr countries lines line_num st
        = .ok res →
      ∀ p, res.out_files p = none ↔ st.out_files p = none := by
  intro lines
  induction lines with
  | nil =>
    intro line_num st res hres
    simp only [process_range_lines, Except.ok.injEq] at hres
    subst hres
    exact fun p => Iff.rfl
  | cons line rest ih =>
    intro line_num st res hres
    rw [process_range_lines] at hres
    split at hres
    · exact ih _ _ _ hres
    · split at hres
      · simp only [Except.ok.injEq] at hres
        subst hres
        exact fun p => Iff.rfl
      · split at hres
        · cases hres
        · split at hres
          · split at hres
            · simp only [Except.ok.injEq] at hres
              subst hres
              exact fun p => Iff.rfl
            · exact fun p => ih _ _ _ hres p
          · split at hres
            · cases hres
            · rename_i st1 msg hrow
              simp only [Except.ok.injEq] at hres
              subst hres
              exact (process_range_row_none _ _ _ _ _ _).2 st1 msg hrow
            · rename_i st1 hrow
              intro p
              exact (ih _ _ _ hres p).trans
                ((process_range_row_none _ _ _ _ _ _).1 st1 hrow p)

theorem open_out_files_none (cs : List Country) (p : Nat) :
    ∀ (f0 f : OutFiles), open_out_files cs f0 = .ok f → f0 p = none →
      (∀ c ∈ cs, country_code_pos c.country_code = p → c.forbidden = true) → f p = none := by
  induction cs with
  | nil =>
    intro f0 f h h0 _
    simp only [open_out_files, Except.ok.injEq] at h
    subst h
    exact h0
  | cons c cs ih =>
    intro f0 f h h0 hall
    rw [open_out_files] at h
    split at h
    · exact ih f0 f h h0 (fun d hd => hall d (List.mem_cons_of_mem _ hd))
    · rename_i hforb
      simp only at h
      split at h
      · cases h
      · apply ih _ f h _ (fun d hd => hall d (List.mem_cons_of_mem _ hd))
        unfold OutFiles.set
        have hne : p ≠ country_code_pos c.country_code := by
          intro heq
          exact hforb (hall c (List.mem_cons_self _ _) heq.symm)
        simp [hne, h0]

/-- C4: a data row that resolves to a record whose forbidden flag is set is
skipped: it changes no output file, neither by appending a pair nor by
overwriting an end, it is not counted, and the country and the range written
last stay as they are.  Over a whole run, a position all of whose records are
forbidden has no output file at the end: none is opened for it and no byte is
ever written to it. -/
theorem forbidden_country_is_never_written (addr_family num_countries arr : Nat)
    (countries : List Country) (st : RangeFileState) (line_data : Tokenized) (index : Nat)
    (cache1 : CountryCache) (c : Country) (lines : List (List Char)) (cache : CountryCache)
    (res : RangeFileResult) (p : Nat)
    (hlook : row_lookup num_countries arr countries st.cols st.cache line_data
      = .found index cache1)
    (hc : countries[index]? = some c) (hforb : c.forbidden = true)
    (hrun : process_range_file lines addr_family num_countries arr countries cache = .ok res)
    (hall : ∀ d ∈ countries.take num_countries,
      country_code_pos d.country_code = p → d.forbidden = true) :
    process_range_row addr_family num_countries arr countries st line_data
        = .next { st with cache := cache1 } ∧
      res.out_files p = none := by
  constructor
  · unfold process_range_row classify_row
    rw [hlook]
    simp only [hc, hforb, if_true]
  · unfold process_range_file at hrun
    split at hrun
    · simp only [Except.ok.injEq] at hrun
      subst hrun
      rfl
    · split at hrun
      · simp only [Except.ok.injEq] at hrun
        subst hrun
        rfl
      · split at hrun
        · cases hrun
        · rename_i of0 hopen
          rw [process_range_lines_none _ _ _ _ _ _ _ _ hrun p]
          exact open_out_files_none _ p _ _ hopen rfl hall

set_option maxRecDepth 1000000 in
/-- Witness of C4: with `ES` forbidden, the row `10.0.1.0/24` of `ES` is
skipped, and the run over a row of `PT` and a row of `ES` leaves no file at the
position of `ES`. -/
theorem forbidden_country_is_never_written_witness :
    ∃ res, process_range_file
        [sample_range_header, "10.0.0.0/24,5,5,,0,0\n".toList, "10.0.1.0/24,9,9,,0,0\n".toList]
        AF_INET 5 4096 sample_countries_es_forbidden CountryCache.initial = .ok res ∧
      process_range_row AF_INET 5 4096 sample_countries_es_forbidden sample_state
          (tokenized "10.0.1.0/24,9,9,,0,0\n".toList)
        = .next { sample_state with
            cache := { cached_geoname_id := 9, cached_country_arr := 4096,
                       cached_country := some 1 } } ∧
      res.out_files 21317 = none := by
  cases h : process_range_file
      [sample_range_header, "10.0.0.0/24,5,5,,0,0\n".toList, "10.0.1.0/24,9,9,,0,0\n".toList]
      AF_INET 5 4096 sample_countries_es_forbidden CountryCache.initial with
  | error f =>
    have hok : (process_range_file
        [sample_range_header, "10.0.0.0/24,5,5,,0,0\n".toList,
         "10.0.1.0/24,9,9,,0,0\n".toList]
        AF_INET 5 4096 sample_countries_es_forbidden CountryCache.initial).toBool = true := by
      decide
    rw [h] at hok
    cases hok
  | ok res =>
    exact ⟨res, rfl, forbidden_country_is_never_written AF_INET 5 4096
      sample_countries_es_forbidden sample_state (tokenized "10.0.1.0/24,9,9,,0,0\n".toList) 1
      { cached_geoname_id := 9, cached_country_arr := 4096, cached_country := some 1 }
      ⟨9, "ES".toList, true⟩ _ CountryCache.initial res 21317 (by decide) rfl rfl h
      (by decide)⟩

/-! ## Rows of anonymous proxies -/

theorem render_digits_succ (b fuel n : Nat) (acc : List Char) :
    render_digits b (fuel + 1) n acc
      = if n < b then digit_char n :: acc
        else render_digits b fuel (n / b) (digit_char (n % b) :: acc) := rfl

theorem render_unsigned_cases (n : Nat) (h : n < 1000) :
    render_unsigned n =
      if n < 10 then [digit_char n]
      else if n < 100 then [digit_char (n / 10), digit_char (n % 10)]
      else [digit_char (n / 100), digit_char (n / 10 % 10), digit_char (n % 10)] := by
  unfold render_unsigned
  rw [render_digits_succ]
  by_cases h1 : n < 10
  · simp [h1]
  · obtain ⟨m, rfl⟩ : ∃ m, n = m + 1 := ⟨n - 1, by omega⟩
    rw [if_neg h1, if_neg h1, render_digits_succ]
    by_cases h2 : m + 1 < 100
    · have : (m + 1) / 10 < 10 := by omega
      simp [h2, this]
    · obtain ⟨k, rfl⟩ : ∃ k, m = k + 1 := ⟨m - 1, by omega⟩
      have h3 : ¬ (k + 1 + 1) / 10 < 10 := by omega
      rw [if_neg h2, if_neg h3, render_digits_succ]
      have h4 : (k + 1 + 1) / 10 / 10 < 10 := by omega
      have h5 : (k + 1 + 1) / 10 / 10 = (k + 1 + 1) / 100 := by omega
      have h6 : (k + 1 + 1) / 100 < 10 := by omega
      simp [h4, h5, h6]

theorem render_hex_cases (w : Nat) (h : w < 65536) :
    render_hex w =
      if w < 16 then [digit_char w]
      else if w < 256 then [digit_char (w / 16), digit_char (w % 16)]
      else if w < 4096 then [digit_char (w / 256), digit_char (w / 16 % 16), digit_char (w % 16)]
      else [digit_char (w / 4096), digit_char (w / 256 % 16), digit_char (w / 16 % 16),
            digit_char (w % 16)] := by
  unfold render_hex
  rw [render_digits_succ]
  by_cases h1 : w < 16
  · simp [h1]
  · obtain ⟨m, rfl⟩ : ∃ m, w = m + 1 := ⟨w - 1, by omega⟩
    rw [if_neg h1, if_neg h1, render_digits_succ]
    by_cases h2 : m + 1 < 256
    · have : (m + 1) / 16 < 16 := by omega
      simp [h2, this]
    · obtain ⟨k, rfl⟩ : ∃ k, m = k + 1 := ⟨m - 1, by omega⟩
      have h3 : ¬ (k + 1 + 1) / 16 < 16 := by omega
      rw [if_neg h2, if_neg h3, render_digits_succ]
      by_cases h4 : k + 1 + 1 < 4096
      · have h5 : (k + 1 + 1) / 16 / 16 < 16 := by omega
        have h6 : (k + 1 + 1) / 16 / 16 = (k + 1 + 1) / 256 := by omega
        have h7 : (k + 1 + 1) / 256 < 16 := by omega
        simp [h4, h5, h6, h7]
      · obtain ⟨j, rfl⟩ : ∃ j, k = j + 1 := ⟨k - 1, by omega⟩
        have h5 : ¬ (j + 1 + 1 + 1) / 16 / 16 < 16 := by omega
        rw [if_neg h4, if_neg h5, render_digits_succ]
        have h6 : (j + 1 + 1 + 1) / 16 / 16 / 16 < 16 := by omega
        have h7 : (j + 1 + 1 + 1) / 16 / 16 / 16 = (j + 1 + 1 + 1) / 4096 := by omega
        have h8 : (j + 1 + 1 + 1) / 16 / 16 % 16 = (j + 1 + 1 + 1) / 256 % 16 := by omega
        have h9 : (j + 1 + 1 + 1) / 4096 < 16 := by omega
        simp [h6, h7, h8, h9]

theorem hex_digit_value_digit_char : ∀ d, d < 16 → hex_digit_value (digit_char d) = some d := by
  decide

theorem isdigit_digit_char : ∀ d, d < 10 → isdigit (digit_char d) = true := by
  decide

theorem digit_char_toNat : ∀ d, d < 10 → (digit_char d).toNat = 48 + d := by
  decide

theorem digit_char_not_special : ∀ d, d < 16 →
    digit_char d ≠ ':' ∧ digit_char d ≠ '.' ∧ digit_char d ≠ '/' ∧ digit_char d ≠ NUL ∧
      isspace (digit_char d) = false ∧ digit_char d ≠ '-' ∧ digit_char d ≠ '+' := by
  decide

/-! ## `inet_pton4` reads back what `inet_ntop4` writes -/

theorem inet_pton4_loop_digit (d : Nat) (hd : d < 10) (src : List Char) (st : Pton4State) :
    inet_pton4_loop (digit_char d :: src) st =
      if st.saw_digit = true ∧ st.cur = 0 then none
      else if st.cur * 10 + d > 255 then none
      else if ¬ st.saw_digit = true then
        if st.octets + 1 > 4 then none
        else inet_pton4_loop src
          { st with cur := st.cur * 10 + d, octets := st.octets + 1, saw_digit := true }
      else inet_pton4_loop src { st with cur := st.cur * 10 + d } := by
  rw [inet_pton4_loop]
  simp only [isdigit_digit_char d hd, digit_char_toNat d hd, if_true]
  have : 48 + d - 48 = d := by omega
  rw [this]

theorem inet_pton4_loop_dot (src : List Char) (octets : Nat) (done : List Nat) (cur : Nat) :
    inet_pton4_loop ('.' :: src)
        { saw_digit := true, octets := octets, done := done, cur := cur } =
      if octets = 4 then none
      else inet_pton4_loop src
        { saw_digit := false, octets := octets, done := done ++ [cur], cur := 0 } := by
  rw [inet_pton4_loop]
  have h1 : isdigit '.' = false := by decide
  simp [h1]

theorem inet_pton4_loop_octet (n : Nat) (hn : n < 256) (rest : List Char)
    (octets : Nat) (done : List Nat) (ho : octets ≤ 3) :
    inet_pton4_loop (render_unsigned n ++ rest)
        { saw_digit := false, octets := octets, done := done, cur := 0 }
      = inet_pton4_loop rest
        { saw_digit := true, octets := octets + 1, done := done, cur := n } := by
  rw [render_unsigned_cases n (by omega)]
  have ho2 : ¬ octets + 1 > 4 := by omega
  by_cases h1 : n < 10
  · simp only [h1, if_true, List.singleton_append]
    rw [inet_pton4_loop_digit n h1]
    have h6 : ¬ 255 < n := by omega
    simp [ho2, h6]
  · by_cases h2 : n < 100
    · simp only [h1, h2, if_true, if_false, List.cons_append, List.nil_append]
      have h3 : ¬ n / 10 = 0 := by omega
      have h4 : n / 10 * 10 + n % 10 = n := by omega
      have h5 : ¬ 255 < n / 10 := by omega
      have h6 : ¬ 255 < n := by omega
      simp [inet_pton4_loop_digit (n / 10) (by omega), inet_pton4_loop_digit (n % 10) (by omega),
        ho2, h3, h4, h5, h6]
    · simp only [h1, h2, if_false, List.cons_append, List.nil_append]
      have h3 : ¬ n / 100 = 0 := by omega
      have h4 : ¬ n / 100 * 10 + n / 10 % 10 = 0 := by omega
      have h5 : (n / 100 * 10 + n / 10 % 10) * 10 + n % 10 = n := by omega
      have h6 : ¬ 255 < n / 100 * 10 + n / 10 % 10 := by omega
      have h7 : ¬ 255 < n / 100 := by omega
      have h8 : ¬ 255 < n := by omega
      simp [inet_pton4_loop_digit (n / 100) (by omega),
        inet_pton4_loop_digit (n / 10 % 10) (by omega),
        inet_pton4_loop_digit (n % 10) (by omega), ho2, h3, h4, h5, h6, h7, h8]

/-- `inet_pton4` applied to the text that `inet_ntop4` writes for four bytes
gives the four bytes back. -/
theorem inet_pton4_ntop4 (a b c d : Nat) (ha : a < 256) (hb : b < 256) (hc : c < 256)
    (hd : d < 256) : inet_pton4 (inet_ntop4 [a, b, c, d]) = some [a, b, c, d] := by
  unfold inet_pton4 inet_ntop4
  simp only [List.getD_cons_zero, List.getD_cons_succ, List.append_assoc, List.cons_append,
    List.nil_append]
  rw [inet_pton4_loop_octet a ha _ 0 [] (by omega)]
  simp only [inet_pton4_loop_dot, Nat.zero_add, List.nil_append]
  rw [if_neg (by decide), inet_pton4_loop_octet b hb _ 1 _ (by omega)]
  simp only [inet_pton4_loop_dot, List.cons_append, List.nil_append]
  rw [if_neg (by decide), inet_pton4_loop_octet c hc _ 2 _ (by omega)]
  simp only [inet_pton4_loop_dot, List.cons_append, List.nil_append]
  rw [if_neg (by decide)]
  have := inet_pton4_loop_octet d hd [] 3 [a, b, c] (by omega)
  rw [List.append_nil] at this
  rw [this]
  simp [inet_pton4_loop]

theorem inet_pton4_loop_inv (src : List Char) :
    ∀ (st st1 : Pton4State), Pton4Inv st → inet_pton4_loop src st = some st1 → Pton4Inv st1 := by
  induction src with
  | nil =>
    intro st st1 hinv h
    simp only [inet_pton4_loop, Option.some.injEq] at h
    exact h ▸ hinv
  | cons ch src ih =>
    intro st st1 hinv h
    obtain ⟨h1, h2, h3, h4, h5⟩ := hinv
    rw [inet_pton4_loop] at h
    split at h
    · simp only at h
      split at h
      · cases h
      · split at h
        · cases h
        · rename_i hnew
          split at h
          · rename_i hsaw
            split at h
            · cases h
            · rename_i ho
              apply ih _ _ _ h
              have hs : st.saw_digit = false := by simpa using hsaw
              refine ⟨by simpa using hnew, h2, ?_, ?_, (by show st.octets + 1 ≤ 4; omega)⟩
              · intro _; simp only; have := (h4 hs).1; omega
              · intro hc; simp at hc
          · rename_i hsaw
            apply ih _ _ _ h
            have hs : st.saw_digit = true := by simpa using hsaw
            refine ⟨by simpa using hnew, h2, ?_, ?_, h5⟩
            · intro _; exact h3 hs
            · intro hc; simp only at hc; rw [hs] at hc; cases hc
    · split at h
      · rename_i hdot
        split at h
        · cases h
        · rename_i ho
          apply ih _ _ _ h
          refine ⟨(by show 0 ≤ 255; omega), ?_, ?_, ?_, h5⟩
          · intro b hb
            rcases List.mem_append.mp hb with hb | hb
            · exact h2 b hb
            · simp only [List.mem_singleton] at hb; omega
          · intro hc; simp at hc
          · intro _
            have := h3 hdot.2
            simp only [List.length_append, List.length_singleton]
            omega
      · cases h

/-- The bytes that `inet_pton4` stores are four values below 256. -/
theorem inet_pton4_ok (src : List Char) (q : List Nat) (h : inet_pton4 src = some q) :
    AddrOK 4 q := by
  unfold inet_pton4 at h
  split at h
  · cases h
  · rename_i st hloop
    have hinv := inet_pton4_loop_inv src _ st
      ⟨by simp, by simp, by simp, by simp, by simp⟩ hloop
    obtain ⟨h1, h2, h3, h4, h5⟩ := hinv
    split at h
    · cases h
    · rename_i ho
      simp only [Option.some.injEq] at h
      subst h
      have hsaw : st.saw_digit = true := by
        by_contra hne
        have := (h4 (by simpa using hne)).2
        omega
      refine ⟨?_, ?_⟩
      · simp only [List.length_append, List.length_singleton]
        have := h3 hsaw
        omega
      · intro b hb
        rcases List.mem_append.mp hb with hb | hb
        · have := h2 b hb; omega
        · simp only [List.mem_singleton] at hb; omega

theorem inet_pton6_finish_ok (st : Pton6State) (q : List Nat) (hinv : Pton6Inv st)
    (h : inet_pton6_finish st = some q) : AddrOK 16 q := by
  obtain ⟨h1, h2, h3⟩ := hinv
  unfold inet_pton6_finish at h
  simp only at h
  have key : ∀ tmp : List Nat, (∀ b ∈ tmp, b < 256) → tmp.length ≤ 16 →
      (∀ c, st.colonp = some c → c ≤ tmp.length) →
      (match st.colonp with
        | some colonp =>
          if tmp.length = 16 then none
          else some (tmp.take colonp ++ List.replicate (16 - tmp.length) 0 ++ tmp.drop colonp)
        | none => if tmp.length ≠ 16 then none else some tmp) = some q → AddrOK 16 q := by
    intro tmp ht1 ht2 ht3 hq
    cases hc : st.colonp with
    | none =>
      rw [hc] at hq
      simp only at hq
      split at hq
      · cases hq
      · rename_i hl
        simp only [Option.some.injEq] at hq
        subst hq
        exact ⟨by simpa using hl, ht1⟩
    | some c =>
      rw [hc] at hq
      simp only at hq
      split at hq
      · cases hq
      · rename_i hl
        simp only [Option.some.injEq] at hq
        subst hq
        have hcl := ht3 c hc
        refine ⟨?_, ?_⟩
        · simp only [List.length_append, List.length_take, List.length_replicate,
            List.length_drop]
          omega
        · intro b hb
          simp only [List.mem_append, List.mem_replicate] at hb
          rcases hb with (hb | ⟨_, rfl⟩) | hb
          · exact ht1 b (List.mem_of_mem_take hb)
          · omega
          · exact ht1 b (List.mem_of_mem_drop hb)
  split at h
  · cases h
  · rename_i tmp heq
    split at heq
    · split at heq
      · cases heq
      · rename_i hlen
        simp only [Option.some.injEq] at heq
        subst heq
        apply key _ _ _ _ h
        · intro b hb
          simp only [List.mem_append, List.mem_cons, List.mem_singleton, List.not_mem_nil,
            or_false] at hb
          rcases hb with hb | rfl | rfl
          · exact h1 b hb
          · exact Nat.mod_lt _ (by omega)
          · exact Nat.mod_lt _ (by omega)
        · simp only [List.length_append, List.length_cons, List.length_nil]; omega
        · intro c hc
          have := h3 c hc
          simp only [List.length_append, List.length_cons, List.length_nil]; omega
    · simp only [Option.some.injEq] at heq
      subst heq
      exact key _ h1 h2 h3 h

theorem inet_pton6_loop_ok (src : List Char) :
    ∀ (st : Pton6State) (q : List Nat), Pton6Inv st → inet_pton6_loop src st = some q →
      AddrOK 16 q := by
  induction src with
  | nil =>
    intro st q hinv h
    rw [inet_pton6_loop] at h
    exact inet_pton6_finish_ok st q hinv h
  | cons ch src ih =>
    intro st q hinv h
    obtain ⟨h1, h2, h3⟩ := hinv
    rw [inet_pton6_loop] at h
    split at h
    · split at h
      · cases h
      · simp only at h
        split at h
        · cases h
        · refine ih _ q ?_ h
          exact ⟨h1, h2, h3⟩
    · split at h
      · split at h
        · split at h
          · cases h
          · refine ih _ q ?_ h
            refine ⟨h1, h2, fun c hc => ?_⟩
            simp only [Option.some.injEq] at hc
            subst hc
            exact Nat.le_refl _
        · split at h
          · cases h
          · split at h
            · cases h
            · rename_i hlen
              refine ih _ q ?_ h
              refine ⟨?_, ?_, ?_⟩
              · intro b hb
                simp only [List.mem_append, List.mem_cons, List.mem_singleton,
                  List.not_mem_nil, or_false] at hb
                rcases hb with hb | rfl | rfl
                · exact h1 b hb
                · exact Nat.mod_lt _ (by omega)
                · exact Nat.mod_lt _ (by omega)
              · simp only [List.length_append, List.length_cons, List.length_nil]; omega
              · intro c hc
                have := h3 c hc
                simp only [List.length_append, List.length_cons, List.length_nil]; omega
      · split at h
        · rename_i hdot
          split at h
          · rename_i quad hquad
            have hq4 := inet_pton4_ok _ _ hquad
            refine inet_pton6_finish_ok _ q ?_ h
            refine ⟨?_, ?_, ?_⟩
            · intro b hb
              rcases List.mem_append.mp hb with hb | hb
              · exact h1 b hb
              · exact hq4.2 b hb
            · simp only [List.length_append, hq4.1]; omega
            · intro c hc
              have := h3 c hc
              simp only [List.length_append]; omega
          · cases h
        · cases h

/-- The bytes that `inet_pton6` stores are sixteen values below 256. -/
theorem inet_pton6_ok (src : List Char) (q : List Nat) (h : inet_pton6 src = some q) :
    AddrOK 16 q := by
  unfold inet_pton6 at h
  split at h
  · cases h
  · simp only at h
    split at h
    · cases h
    · exact inet_pton6_loop_ok _ _ q ⟨by simp, by simp, by simp⟩ h

/-- The bytes that `inet_pton` stores are an address of the width of the
family. -/
theorem inet_pton_ok (af : Nat) (src : List Char) (q : List Nat)
    (h : inet_pton af src = some q) :
    (af = AF_INET ∨ af = AF_INET6) ∧ AddrOK (family_bytes af) q := by
  unfold inet_pton at h
  split at h
  · rename_i h4
    subst h4
    exact ⟨Or.inl rfl, inet_pton4_ok src q h⟩
  · split at h
    · rename_i h6
      subst h6
      exact ⟨Or.inr rfl, inet_pton6_ok src q h⟩
    · cases h

/-! ## `inet_pton6` reads back what `inet_ntop6` writes -/

theorem inet_pton6_loop_hex (d : Nat) (hd : d < 16) (src : List Char) (st : Pton6State) :
    inet_pton6_loop (digit_char d :: src) st =
      if st.xdigits_seen = 4 then none
      else if st.val * 16 + d > 65535 then none
      else inet_pton6_loop src
        { st with val := st.val * 16 + d, xdigits_seen := st.xdigits_seen + 1 } := by
  rw [inet_pton6_loop, hex_digit_value_digit_char d hd]

theorem render_hex_length (w : Nat) (hw : w < 65536) :
    0 < (render_hex w).length ∧ (render_hex w).length ≤ 4 := by
  rw [render_hex_cases w hw]
  split
  · simp
  · split
    · simp
    · split <;> simp

theorem inet_pton6_loop_group (w : Nat) (hw : w < 65536) (rest : List Char)
    (tmp : List Nat) (colonp : Option Nat) (curtok : List Char) :
    inet_pton6_loop (render_hex w ++ rest)
        { tmp := tmp, colonp := colonp, curtok := curtok, xdigits_seen := 0, val := 0 }
      = inet_pton6_loop rest
        { tmp := tmp, colonp := colonp, curtok := curtok,
          xdigits_seen := (render_hex w).length, val := w } := by
  rw [render_hex_cases w hw]
  by_cases h1 : w < 16
  · have h2 : ¬ 65535 < w := by omega
    simp [h1, inet_pton6_loop_hex w h1, h2]
  · by_cases h2 : w < 256
    · have h3 : ¬ 65535 < w / 16 := by omega
      have h4 : w / 16 * 16 + w % 16 = w := by omega
      have h5 : ¬ 65535 < w := by omega
      simp [h1, h2, inet_pton6_loop_hex (w / 16) (by omega),
        inet_pton6_loop_hex (w % 16) (by omega), h3, h4, h5]
    · by_cases h3 : w < 4096
      · have h4 : ¬ 65535 < w / 256 := by omega
        have h5 : ¬ 65535 < w / 256 * 16 + w / 16 % 16 := by omega
        have h6 : (w / 256 * 16 + w / 16 % 16) * 16 + w % 16 = w := by omega
        have h7 : ¬ 65535 < w := by omega
        simp [h1, h2, h3, inet_pton6_loop_hex (w / 256) (by omega),
          inet_pton6_loop_hex (w / 16 % 16) (by omega),
          inet_pton6_loop_hex (w % 16) (by omega), h4, h5, h6, h7]
      · have h4 : ¬ 65535 < w / 4096 := by omega
        have h5 : ¬ 65535 < w / 4096 * 16 + w / 256 % 16 := by omega
        have h6 : ¬ 65535 < (w / 4096 * 16 + w / 256 % 16) * 16 + w / 16 % 16 := by omega
        have h7 : ((w / 4096 * 16 + w / 256 % 16) * 16 + w / 16 % 16) * 16 + w % 16 = w := by
          omega
        have h8 : ¬ 65535 < w := by omega
        simp [h1, h2, h3, inet_pton6_loop_hex (w / 4096) (by omega),
          inet_pton6_loop_hex (w / 256 % 16) (by omega),
          inet_pton6_loop_hex (w / 16 % 16) (by omega),
          inet_pton6_loop_hex (w % 16) (by omega), h4, h5, h6, h7, h8]

theorem inet_pton6_loop_colon_after_group (rest : List Char) (tmp : List Nat)
    (colonp : Option Nat) (curtok : List Char) (seen val : Nat)
    (hseen : 0 < seen) (hrest : rest ≠ []) (hlen : tmp.length + 2 ≤ 16) :
    inet_pton6_loop (':' :: rest)
        { tmp := tmp, colonp := colonp, curtok := curtok, xdigits_seen := seen, val := val }
      = inet_pton6_loop rest
        { tmp := tmp ++ [val / 256 % 256, val % 256], colonp := colonp, curtok := rest,
          xdigits_seen := 0, val := 0 } := by
  rw [inet_pton6_loop]
  have h1 : hex_digit_value ':' = none := by decide
  have h2 : ¬ seen = 0 := by omega
  have h3 : ¬ tmp.length + 2 > 16 := by omega
  simp [h1, h2, hrest, h3]

theorem inet_pton6_loop_double_colon (rest : List Char) (tmp : List Nat)
    (curtok : List Char) :
    inet_pton6_loop (':' :: rest)
        { tmp := tmp, colonp := none, curtok := curtok, xdigits_seen := 0, val := 0 }
      = inet_pton6_loop rest
        { tmp := tmp, colonp := some tmp.length, curtok := rest, xdigits_seen := 0,
          val := 0 } := by
  rw [inet_pton6_loop]
  have h1 : hex_digit_value ':' = none := by decide
  simp [h1]

theorem inet_pton6_finish_group (tmp : List Nat) (colonp : Option Nat)
    (curtok curtok1 : List Char) (seen val : Nat) (hseen : 0 < seen)
    (hlen : tmp.length + 2 ≤ 16) :
    inet_pton6_finish
        { tmp := tmp, colonp := colonp, curtok := curtok, xdigits_seen := seen, val := val }
      = inet_pton6_finish
        { tmp := tmp ++ [val / 256 % 256, val % 256], colonp := colonp, curtok := curtok1,
          xdigits_seen := 0, val := 0 } := by
  unfold inet_pton6_finish
  have h3 : ¬ tmp.length + 2 > 16 := by omega
  simp [hseen, h3]

theorem inet_pton6_finish_irrelevant (tmp : List Nat) (colonp : Option Nat)
    (curtok : List Char) (val : Nat) :
    inet_pton6_finish
        { tmp := tmp, colonp := colonp, curtok := curtok, xdigits_seen := 0, val := val }
      = inet_pton6_finish
        { tmp := tmp, colonp := colonp, curtok := [], xdigits_seen := 0, val := 0 } := by
  unfold inet_pton6_finish
  simp

theorem render_hex_ne_nil (w : Nat) (hw : w < 65536) : render_hex w ≠ [] := by
  intro h
  have := (render_hex_length w hw).1
  rw [h] at this
  simp at this

theorem groups_text_ne_nil (w : Nat) (ws : List Nat) (hw : w < 65536) :
    groups_text (w :: ws) ≠ [] := by
  cases ws with
  | nil => simpa [groups_text] using render_hex_ne_nil w hw
  | cons v vs => simp [groups_text]

theorem render_hex_head (w : Nat) (hw : w < 65536) :
    ∃ d rest, d < 16 ∧ render_hex w = digit_char d :: rest := by
  rw [render_hex_cases w hw]
  by_cases h1 : w < 16
  · exact ⟨w, [], h1, by simp [h1]⟩
  · by_cases h2 : w < 256
    · exact ⟨w / 16, [digit_char (w % 16)], by omega, by simp [h1, h2]⟩
    · by_cases h3 : w < 4096
      · exact ⟨w / 256, [digit_char (w / 16 % 16), digit_char (w % 16)], by omega,
          by simp [h1, h2, h3]⟩
      · exact ⟨w / 4096, [digit_char (w / 256 % 16), digit_char (w / 16 % 16),
          digit_char (w % 16)], by omega, by simp [h1, h2, h3]⟩

theorem groups_text_head (w : Nat) (ws : List Nat) (hw : w < 65536) :
    ∃ d rest, d < 16 ∧ groups_text (w :: ws) = digit_char d :: rest := by
  obtain ⟨d, rest, hd, h⟩ := render_hex_head w hw
  cases ws with
  | nil => exact ⟨d, rest, hd, by simpa [groups_text] using h⟩
  | cons v vs => exact ⟨d, rest ++ ':' :: groups_text (v :: vs), hd, by simp [groups_text, h]⟩

theorem word_bytes_length (ws : List Nat) : (word_bytes ws).length = 2 * ws.length := by
  induction ws with
  | nil => rfl
  | cons w ws ih => simp [word_bytes, ih]; omega

theorem inet_pton6_loop_groups_end (post : List Nat) :
    ∀ (tmp : List Nat) (colonp : Option Nat) (curtok : List Char),
      (∀ w ∈ post, w < 65536) → tmp.length + 2 * post.length ≤ 16 →
      inet_pton6_loop (groups_text post)
          { tmp := tmp, colonp := colonp, curtok := curtok, xdigits_seen := 0, val := 0 }
        = inet_pton6_finish
          { tmp := tmp ++ word_bytes post, colonp := colonp, curtok := [],
            xdigits_seen := 0, val := 0 } := by
  induction post with
  | nil =>
    intro tmp colonp curtok _ _
    simp only [groups_text, word_bytes, List.append_nil]
    rw [inet_pton6_loop]
    exact inet_pton6_finish_irrelevant tmp colonp curtok 0
  | cons w ws ih =>
    intro tmp colonp curtok hw hlen
    have hw0 : w < 65536 := hw w (List.mem_cons_self _ _)
    have hl := render_hex_length w hw0
    simp only [List.length_cons] at hlen
    cases ws with
    | nil =>
      have h := inet_pton6_loop_group w hw0 [] tmp colonp curtok
      rw [List.append_nil] at h
      simp only [groups_text, word_bytes]
      rw [h, inet_pton6_loop]
      exact inet_pton6_finish_group tmp colonp curtok [] _ w hl.1 (by omega)
    | cons v vs =>
      have hne : groups_text (v :: vs) ≠ [] :=
        groups_text_ne_nil v vs (hw v (by simp))
      have hgt : groups_text (w :: v :: vs) = render_hex w ++ ':' :: groups_text (v :: vs) := by
        simp [groups_text]
      rw [hgt, inet_pton6_loop_group w hw0,
        inet_pton6_loop_colon_after_group _ tmp colonp curtok _ w hl.1 hne (by omega),
        ih _ colonp _ (fun x hx => hw x (List.mem_cons_of_mem _ hx))
          (by simp only [List.length_append, List.length_cons, List.length_nil] at *; omega)]
      simp [word_bytes]

theorem inet_pton6_loop_groups_colon (pre : List Nat) :
    ∀ (tmp : List Nat) (colonp : Option Nat) (curtok rest : List Char),
      pre ≠ [] → rest ≠ [] → (∀ w ∈ pre, w < 65536) → tmp.length + 2 * pre.length ≤ 16 →
      inet_pton6_loop (groups_text pre ++ ':' :: rest)
          { tmp := tmp, colonp := colonp, curtok := curtok, xdigits_seen := 0, val := 0 }
        = inet_pton6_loop rest
          { tmp := tmp ++ word_bytes pre, colonp := colonp, curtok := rest,
            xdigits_seen := 0, val := 0 } := by
  induction pre with
  | nil => intro _ _ _ _ h; exact absurd rfl h
  | cons w ws ih =>
    intro tmp colonp curtok rest _ hrest hw hlen
    have hw0 : w < 65536 := hw w (List.mem_cons_self _ _)
    have hl := render_hex_length w hw0
    simp only [List.length_cons] at hlen
    cases ws with
    | nil =>
      simp only [groups_text, word_bytes]
      rw [inet_pton6_loop_group w hw0,
        inet_pton6_loop_colon_after_group _ tmp colonp curtok _ w hl.1 hrest (by omega)]
    | cons v vs =>
      have hgt : groups_text (w :: v :: vs) ++ ':' :: rest
          = render_hex w ++ ':' :: (groups_text (v :: vs) ++ ':' :: rest) := by
        simp [groups_text]
      have hne : groups_text (v :: vs) ++ ':' :: rest ≠ [] := by simp
      rw [hgt, inet_pton6_loop_group w hw0,
        inet_pton6_loop_colon_after_group _ tmp colonp curtok _ w hl.1 hne (by omega),
        ih _ colonp _ rest (by simp) hrest (fun x hx => hw x (List.mem_cons_of_mem _ hx))
          (by simp only [List.length_append, List.length_cons, List.length_nil] at *; omega)]
      simp [word_bytes]

/-- A text with a `::` between two runs of groups is read as the words before,
zero bytes, and the words after. -/
theorem inet_pton6_compressed (pre post : List Nat) (hpre : ∀ w ∈ pre, w < 65536)
    (hpost : ∀ w ∈ post, w < 65536) (hlen : pre.length + post.length ≤ 7) :
    inet_pton6 (groups_text pre ++ ':' :: ':' :: groups_text post) =
      some (word_bytes pre ++ List.replicate (16 - 2 * (pre.length + post.length)) 0
        ++ word_bytes post) := by
  cases pre with
  | nil =>
    simp only [List.length_nil, Nat.zero_add] at hlen
    unfold inet_pton6
    simp only [groups_text, List.nil_append, List.head?_cons, List.tail_cons, if_true,
      reduceCtorEq, if_false, ne_eq, not_true_eq_false, or_self, List.cons_ne_nil]
    rw [inet_pton6_loop_double_colon,
      inet_pton6_loop_groups_end post [] _ _ hpost (by simp; omega)]
    unfold inet_pton6_finish
    have h1 : ¬ 2 * post.length = 16 := by omega
    simp [word_bytes_length, h1, word_bytes]
  | cons w ws =>
    simp only [List.length_cons] at hlen
    obtain ⟨d, rest, hd, hhead⟩ := groups_text_head w ws (hpre w (List.mem_cons_self _ _))
    have hc := (digit_char_not_special d hd).1
    unfold inet_pton6
    have h0 : groups_text (w :: ws) ++ ':' :: ':' :: groups_text post ≠ [] := by simp
    have h1 : ¬ (groups_text (w :: ws) ++ ':' :: ':' :: groups_text post).head? = some ':' := by
      rw [hhead]; simpa using hc
    rw [if_neg h0, if_neg h1]
    simp only
    rw [inet_pton6_loop_groups_colon (w :: ws) [] none _ _ (by simp) (by simp) hpre
        (by simp; omega),
      inet_pton6_loop_double_colon,
      inet_pton6_loop_groups_end post _ _ _ hpost
        (by simp [word_bytes_length]; omega)]
    unfold inet_pton6_finish
    have h2 : ¬ 2 * (ws.length + 1) + 2 * post.length = 16 := by omega
    have h3 : (word_bytes (w :: ws)).length = 2 * (ws.length + 1) := by
      rw [word_bytes_length]; rfl
    simp only [List.nil_append, gt_iff_lt, Nat.lt_irrefl, if_false, List.length_append,
      word_bytes_length, List.length_cons, h2]
    rw [← h3, List.take_left, List.drop_left]
    simp [h3]
    omega

/-- A text of eight groups is read as its eight words. -/
theorem inet_pton6_full (ws : List Nat) (hws : ∀ w ∈ ws, w < 65536) (hlen : ws.length = 8) :
    inet_pton6 (groups_text ws) = some (word_bytes ws) := by
  cases ws with
  | nil => simp at hlen
  | cons w ws =>
    obtain ⟨d, rest, hd, hhead⟩ := groups_text_head w ws (hws w (List.mem_cons_self _ _))
    have hc := (digit_char_not_special d hd).1
    unfold inet_pton6
    have h0 : groups_text (w :: ws) ≠ [] := by rw [hhead]; simp
    have h1 : ¬ (groups_text (w :: ws)).head? = some ':' := by
      rw [hhead]; simpa using hc
    rw [if_neg h0, if_neg h1]
    simp only
    rw [inet_pton6_loop_groups_end (w :: ws) [] none _ hws (by simp [hlen])]
    unfold inet_pton6_finish
    simp [word_bytes_length, hlen]

theorem inet_pton6_loop_dot (rest : List Char) (tmp : List Nat) (colonp : Option Nat)
    (curtok : List Char) (seen val : Nat) (hlen : tmp.length + 4 ≤ 16) :
    inet_pton6_loop ('.' :: rest)
        { tmp := tmp, colonp := colonp, curtok := curtok, xdigits_seen := seen, val := val }
      = match inet_pton4 curtok with
        | some quad => inet_pton6_finish
            { tmp := tmp ++ quad, colonp := colonp, curtok := [], xdigits_seen := 0, val := 0 }
        | none => none := by
  rw [inet_pton6_loop]
  have h1 : hex_digit_value '.' = none := by decide
  have h2 : ¬ ('.' = ':') := by decide
  simp only [h1, h2, if_false, hlen, and_self, if_true]
  cases inet_pton4 curtok with
  | none => rfl
  | some quad => exact inet_pton6_finish_irrelevant _ _ _ _

theorem inet_pton6_loop_octet_dot (a : Nat) (ha : a < 256) (rest : List Char)
    (tmp : List Nat) (colonp : Option Nat) (curtok : List Char) (hlen : tmp.length + 4 ≤ 16) :
    inet_pton6_loop (render_unsigned a ++ '.' :: rest)
        { tmp := tmp, colonp := colonp, curtok := curtok, xdigits_seen := 0, val := 0 }
      = match inet_pton4 curtok with
        | some quad => inet_pton6_finish
            { tmp := tmp ++ quad, colonp := colonp, curtok := [], xdigits_seen := 0, val := 0 }
        | none => none := by
  rw [render_unsigned_cases a (by omega)]
  by_cases h1 : a < 10
  · have h2 : ¬ 65535 < a := by omega
    simp only [h1, if_true, List.cons_append, List.nil_append]
    rw [inet_pton6_loop_hex a (by omega)]
    simp only [Nat.zero_mul, Nat.zero_add, gt_iff_lt, h2, if_false]
    rw [if_neg (by decide)]
    exact inet_pton6_loop_dot _ _ _ _ _ _ hlen
  · by_cases h2 : a < 100
    · simp only [h1, h2, if_true, if_false, List.cons_append, List.nil_append]
      rw [inet_pton6_loop_hex (a / 10) (by omega)]
      have h3 : ¬ 65535 < a / 10 := by omega
      simp only [Nat.zero_mul, Nat.zero_add, gt_iff_lt, h3, if_false]
      rw [if_neg (by decide), inet_pton6_loop_hex (a % 10) (by omega)]
      have h4 : ¬ 65535 < a / 10 * 16 + a % 10 := by omega
      simp only [gt_iff_lt, h4, if_false]
      rw [if_neg (by decide)]
      exact inet_pton6_loop_dot _ _ _ _ _ _ hlen
    · simp only [h1, h2, if_false, List.cons_append, List.nil_append]
      rw [inet_pton6_loop_hex (a / 100) (by omega)]
      have h3 : ¬ 65535 < a / 100 := by omega
      simp only [Nat.zero_mul, Nat.zero_add, gt_iff_lt, h3, if_false]
      rw [if_neg (by decide), inet_pton6_loop_hex (a / 10 % 10) (by omega)]
      have h4 : ¬ 65535 < a / 100 * 16 + a / 10 % 10 := by omega
      simp only [gt_iff_lt, h4, if_false]
      rw [if_neg (by decide), inet_pton6_loop_hex (a % 10) (by omega)]
      have h5 : ¬ 65535 < (a / 100 * 16 + a / 10 % 10) * 16 + a % 10 := by omega
      simp only [gt_iff_lt, h5, if_false]
      rw [if_neg (by decide)]
      exact inet_pton6_loop_dot _ _ _ _ _ _ hlen

theorem inet_ntop4_head (a b c d : Nat) :
    inet_ntop4 [a, b, c, d] = render_unsigned a ++ '.' ::
      (render_unsigned b ++ '.' :: (render_unsigned c ++ '.' :: render_unsigned d)) := by
  simp [inet_ntop4]

/-- The text `::a.b.c.d` is read as twelve zero bytes and the four octets. -/
theorem inet_pton6_v4_compatible (a b c d : Nat) (ha : a < 256) (hb : b < 256)
    (hc : c < 256) (hd : d < 256) :
    inet_pton6 (':' :: ':' :: inet_ntop4 [a, b, c, d]) =
      some (List.replicate 12 0 ++ [a, b, c, d]) := by
  unfold inet_pton6
  simp only [List.head?_cons, List.tail_cons, if_true, reduceCtorEq, if_false, ne_eq,
    not_true_eq_false, or_self, List.cons_ne_nil]
  rw [inet_pton6_loop_double_colon]
  have h := inet_pton6_loop_octet_dot a ha
    (render_unsigned b ++ '.' :: (render_unsigned c ++ '.' :: render_unsigned d))
    [] (some 0) (inet_ntop4 [a, b, c, d]) (by simp)
  rw [← inet_ntop4_head, inet_pton4_ntop4 a b c d ha hb hc hd] at h
  simp only [List.length_nil]
  rw [h]
  unfold inet_pton6_finish
  simp

/-- The text `::ffff:a.b.c.d` is read as ten zero bytes, two bytes `0xff` and
the four octets. -/
theorem inet_pton6_v4_mapped (a b c d : Nat) (ha : a < 256) (hb : b < 256)
    (hc : c < 256) (hd : d < 256) :
    inet_pton6 (':' :: ':' :: (render_hex 65535 ++ ':' :: inet_ntop4 [a, b, c, d])) =
      some (List.replicate 10 0 ++ [255, 255, a, b, c, d]) := by
  unfold inet_pton6
  simp only [List.head?_cons, List.tail_cons, if_true, reduceCtorEq, if_false, ne_eq,
    not_true_eq_false, or_self, List.cons_ne_nil]
  have hne : inet_ntop4 [a, b, c, d] ≠ [] := by rw [inet_ntop4_head]; simp
  rw [inet_pton6_loop_double_colon, inet_pton6_loop_group 65535 (by omega),
    inet_pton6_loop_colon_after_group _ _ _ _ _ _ (render_hex_length 65535 (by omega)).1 hne
      (by simp)]
  have h := inet_pton6_loop_octet_dot a ha
    (render_unsigned b ++ '.' :: (render_unsigned c ++ '.' :: render_unsigned d))
    ([] ++ [65535 / 256 % 256, 65535 % 256]) (some 0) (inet_ntop4 [a, b, c, d]) (by simp)
  rw [← inet_ntop4_head, inet_pton4_ntop4 a b c d ha hb hc hd] at h
  simp only [List.length_nil]
  rw [h]
  unfold inet_pton6_finish
  simp

/-! ## What `inet_ntop6` writes -/

theorem ntop6_scan_ok (words : List Nat) :
    ∀ (ws : List Nat) (i : Nat) (best cur : ZeroRun),
      words.drop i = ws → i ≤ words.length →
      ZeroRunOK words i best → ZeroRunCur words i cur →
      ZeroRunOK words words.length (ntop6_scan ws i best cur).1 ∧
        ZeroRunCur words words.length (ntop6_scan ws i best cur).2 := by
  intro ws
  induction ws with
  | nil =>
    intro i best cur hdrop hi hbest hcur
    have hlen : i = words.length := by
      have := List.drop_eq_nil_iff.mp hdrop
      omega
    subst hlen
    exact ⟨hbest, hcur⟩
  | cons w ws ih =>
    intro i best cur hdrop hi hbest hcur
    have hlt : i < words.length := by
      by_contra hge
      have : words.drop i = [] := List.drop_eq_nil_iff.mpr (by omega)
      rw [this] at hdrop
      cases hdrop
    have hw : words.getD i 0 = w := by
      have h1 : words.getD i 0 = (words.drop i).getD 0 0 := by
        simp [List.getD_eq_getElem?_getD, List.getElem?_drop]
      rw [h1, hdrop]; rfl
    have hdrop1 : words.drop (i + 1) = ws := by
      have : words.drop (i + 1) = (words.drop i).drop 1 := by
        rw [List.drop_drop]
      rw [this, hdrop]; rfl
    have hbest1 : ZeroRunOK words (i + 1) best := by
      intro b hb
      obtain ⟨h1, h2, h3⟩ := hbest b hb
      exact ⟨h1, by omega, h3⟩
    unfold ntop6_scan
    by_cases hz : w = 0
    · rw [if_pos hz]
      by_cases hc : cur.base = none
      · rw [if_pos hc]
        refine ih (i + 1) _ _ hdrop1 (by omega) hbest1 ?_
        intro b hb
        simp only [Option.some.injEq] at hb
        subst hb
        refine ⟨le_refl _, rfl, ?_⟩
        intro j hj1 hj2
        have : j = i := by simp only at hj2; omega
        rw [this, hw, hz]
      · rw [if_neg hc]
        refine ih (i + 1) _ _ hdrop1 (by omega) hbest1 ?_
        intro b hb
        obtain ⟨h1, h2, h3⟩ := hcur b hb
        refine ⟨by simp only; omega, by simp only; omega, ?_⟩
        intro j hj1 hj2
        simp only at hj2
        by_cases hji : j = i
        · rw [hji, hw, hz]
        · exact h3 j hj1 (by omega)
    · rw [if_neg hz]
      have hnone : ZeroRunCur words (i + 1) { cur with base := none } := by
        intro b hb
        cases hb
      by_cases hc : cur.base ≠ none
      · rw [if_pos hc]
        by_cases hb : best.base = none ∨ cur.len > best.len
        · rw [if_pos hb]
          refine ih (i + 1) _ _ hdrop1 (by omega) ?_ hnone
          intro b hb
          obtain ⟨h1, h2, h3⟩ := hcur b hb
          exact ⟨h1, by omega, h3⟩
        · rw [if_neg hb]
          exact ih (i + 1) _ _ hdrop1 (by omega) hbest1 hnone
      · rw [if_neg hc]
        refine ih (i + 1) _ _ hdrop1 (by omega) hbest1 ?_
        intro b hb
        have hc1 : cur.base = none := by simpa using hc
        rw [hc1] at hb
        cases hb

/-- The run that `inet_ntop6` replaces by `::` has at least two words, lies
within the words and covers only zero words. -/
theorem ntop6_best_ok (words : List Nat) (b : Nat) (h : (ntop6_best words).base = some b) :
    2 ≤ (ntop6_best words).len ∧ b + (ntop6_best words).len ≤ words.length ∧
      ∀ j, b ≤ j → j < b + (ntop6_best words).len → words.getD j 0 = 0 := by
  have hscan := ntop6_scan_ok words words 0 { base := none, len := 0 }
    { base := none, len := 0 } rfl (Nat.zero_le _)
    (by intro b hb; cases hb) (by intro b hb; cases hb)
  unfold ntop6_best at h ⊢
  generalize ntop6_scan words 0 { base := none, len := 0 } { base := none, len := 0 } = res
    at hscan h ⊢
  obtain ⟨best, cur⟩ := res
  obtain ⟨hbest, hcur⟩ := hscan
  simp only at hbest hcur h ⊢
  have hcur1 : ZeroRunOK words words.length cur := by
    intro b hb
    obtain ⟨h1, h2, h3⟩ := hcur b hb
    exact ⟨h1, by omega, h3⟩
  have hsel : ZeroRunOK words words.length
      (if cur.base ≠ none then
        if best.base = none ∨ cur.len > best.len then cur else best
      else best) := by
    split
    · split
      · exact hcur1
      · exact hbest
    · exact hbest
  generalize (if cur.base ≠ none then
        if best.base = none ∨ cur.len > best.len then cur else best
      else best) = best1 at hsel h ⊢
  by_cases hshort : best1.base ≠ none ∧ best1.len < 2
  · rw [if_pos hshort] at h
    cases h
  · rw [if_neg hshort] at h ⊢
    obtain ⟨h1, h2, h3⟩ := hsel b h
    refine ⟨?_, h2, h3⟩
    by_contra hlt
    exact hshort ⟨by rw [h]; simp, by omega⟩

theorem ntop6_format_no_run (src : List Nat) (w0 w1 w2 w3 w4 w5 w6 w7 len : Nat) :
    ntop6_format src [w0, w1, w2, w3, w4, w5, w6, w7] { base := none, len := len } 8 0 []
      = groups_text [w0, w1, w2, w3, w4, w5, w6, w7] := by
  simp [ntop6_format, groups_text]

set_option maxHeartbeats 4000000 in
theorem ntop6_format_run (src : List Nat) (w0 w1 w2 w3 w4 w5 w6 w7 b l : Nat)
    (hl : 2 ≤ l) (hbl : b + l ≤ 8)
    (hv4 : ¬ (b = 0 ∧ (l = 6 ∨ (l = 5 ∧ w5 = 65535)))) :
    (if b + l = 8 then
        ntop6_format src [w0, w1, w2, w3, w4, w5, w6, w7] { base := some b, len := l } 8 0 []
          ++ [':']
      else
        ntop6_format src [w0, w1, w2, w3, w4, w5, w6, w7] { base := some b, len := l } 8 0 [])
      = groups_text ([w0, w1, w2, w3, w4, w5, w6, w7].take b) ++ ':' :: ':' ::
          groups_text ([w0, w1, w2, w3, w4, w5, w6, w7].drop (b + l)) := by
  have hb : b ≤ 6 := by omega
  have hl8 : l ≤ 8 := by omega
  interval_cases b <;> interval_cases l <;>
    first
    | omega
    | (simp [ntop6_format, groups_text] at hv4 ⊢; try (intro h; exact absurd h hv4))

theorem ntop6_format_v4_compatible (src : List Nat) (w0 w1 w2 w3 w4 w5 w6 w7 : Nat) :
    ntop6_format src [w0, w1, w2, w3, w4, w5, w6, w7] { base := some 0, len := 6 } 8 0 []
      = ':' :: ':' :: inet_ntop4 (src.drop 12) := by
  simp [ntop6_format]

theorem ntop6_format_v4_mapped (src : List Nat) (w0 w1 w2 w3 w4 w5 w6 w7 : Nat)
    (h : w5 = 65535) :
    ntop6_format src [w0, w1, w2, w3, w4, w5, w6, w7] { base := some 0, len := 5 } 8 0 []
      = ':' :: ':' :: (render_hex w5 ++ ':' :: inet_ntop4 (src.drop 12)) := by
  simp [ntop6_format]
  intro h1
  exact absurd h h1

theorem word_bytes_append (xs ys : List Nat) :
    word_bytes (xs ++ ys) = word_bytes xs ++ word_bytes ys := by
  induction xs with
  | nil => rfl
  | cons x xs ih => simp [word_bytes, ih]

theorem word_bytes_replicate_zero (n : Nat) :
    word_bytes (List.replicate n 0) = List.replicate (2 * n) 0 := by
  induction n with
  | zero => rfl
  | succ n ih =>
    have : 2 * (n + 1) = 2 * n + 1 + 1 := by omega
    rw [this]
    simp [List.replicate_succ, word_bytes, ih]

/-- Taking a run of zero words out of a list of words leaves the bytes of the
words, with zero bytes in the place of the run. -/
theorem word_bytes_zero_run (words : List Nat) (b l : Nat) (hbl : b + l ≤ words.length)
    (hz : ∀ j, b ≤ j → j < b + l → words.getD j 0 = 0) :
    word_bytes (words.take b) ++ List.replicate (2 * l) 0 ++ word_bytes (words.drop (b + l))
      = word_bytes words := by
  have hsplit : words = words.take b ++ ((words.drop b).take l ++ words.drop (b + l)) := by
    have h1 : (words.drop b).take l ++ words.drop (b + l) = words.drop b := by
      have : words.drop (b + l) = (words.drop b).drop l := by
        rw [List.drop_drop]
      rw [this, List.take_append_drop]
    rw [h1, List.take_append_drop]
  have hmid : (words.drop b).take l = List.replicate l 0 := by
    rw [List.eq_replicate_iff]
    refine ⟨by simp; omega, ?_⟩
    intro x hx
    obtain ⟨k, hk, rfl⟩ := List.getElem_of_mem hx
    simp only [List.length_take, List.length_drop] at hk
    have := hz (b + k) (by omega) (by omega)
    rw [List.getD_eq_getElem?_getD, List.getElem?_eq_getElem (by omega)] at this
    simpa using this
  conv_rhs => rw [hsplit]
  rw [word_bytes_append, word_bytes_append, hmid, word_bytes_replicate_zero, List.append_assoc]

theorem word_pair (a b : Nat) (ha : a < 256) (hb : b < 256) :
    (a * 256 + b) / 256 % 256 = a ∧ (a * 256 + b) % 256 = b := by
  omega

set_option maxHeartbeats 4000000 in
set_option maxRecDepth 100000 in
/-- The four shapes of the text that `inet_ntop6` writes for sixteen bytes:
eight groups, two runs of groups around `::`, `::a.b.c.d`, and
`::ffff:a.b.c.d`; with the bytes that each shape stands for. -/
theorem inet_ntop6_shape (src : List Nat) (h : AddrOK 16 src) :
    (∃ ws, ws.length = 8 ∧ (∀ w ∈ ws, w < 65536) ∧ inet_ntop6 src = groups_text ws ∧
        word_bytes ws = src) ∨
    (∃ pre post, (∀ w ∈ pre, w < 65536) ∧ (∀ w ∈ post, w < 65536) ∧
        pre.length + post.length ≤ 6 ∧
        inet_ntop6 src = groups_text pre ++ ':' :: ':' :: groups_text post ∧
        word_bytes pre ++ List.replicate (16 - 2 * (pre.length + post.length)) 0
          ++ word_bytes post = src) ∨
    (∃ a b c d, a < 256 ∧ b < 256 ∧ c < 256 ∧ d < 256 ∧
        inet_ntop6 src = ':' :: ':' :: inet_ntop4 [a, b, c, d] ∧
        List.replicate 12 0 ++ [a, b, c, d] = src) ∨
    (∃ a b c d, a < 256 ∧ b < 256 ∧ c < 256 ∧ d < 256 ∧
        inet_ntop6 src = ':' :: ':' :: (render_hex 65535 ++ ':' :: inet_ntop4 [a, b, c, d]) ∧
        List.replicate 10 0 ++ [255, 255, a, b, c, d] = src) := by
  obtain ⟨hlen, hb⟩ := h
  rcases src with _ | ⟨s0, src⟩
  · simp at hlen
  rcases src with _ | ⟨s1, src⟩
  · simp at hlen
  rcases src with _ | ⟨s2, src⟩
  · simp at hlen
  rcases src with _ | ⟨s3, src⟩
  · simp at hlen
  rcases src with _ | ⟨s4, src⟩
  · simp at hlen
  rcases src with _ | ⟨s5, src⟩
  · simp at hlen
  rcases src with _ | ⟨s6, src⟩
  · simp at hlen
  rcases src with _ | ⟨s7, src⟩
  · simp at hlen
  rcases src with _ | ⟨s8, src⟩
  · simp at hlen
  rcases src with _ | ⟨s9, src⟩
  · simp at hlen
  rcases src with _ | ⟨s10, src⟩
  · simp at hlen
  rcases src with _ | ⟨s11, src⟩
  · simp at hlen
  rcases src with _ | ⟨s12, src⟩
  · simp at hlen
  rcases src with _ | ⟨s13, src⟩
  · simp at hlen
  rcases src with _ | ⟨s14, src⟩
  · simp at hlen
  rcases src with _ | ⟨s15, src⟩
  · simp at hlen
  rcases src with _ | ⟨x, src⟩
  swap
  · simp at hlen
  have hs0 : s0 < 256 := hb s0 (by simp)
  have hs1 : s1 < 256 := hb s1 (by simp)
  have hs2 : s2 < 256 := hb s2 (by simp)
  have hs3 : s3 < 256 := hb s3 (by simp)
  have hs4 : s4 < 256 := hb s4 (by simp)
  have hs5 : s5 < 256 := hb s5 (by simp)
  have hs6 : s6 < 256 := hb s6 (by simp)
  have hs7 : s7 < 256 := hb s7 (by simp)
  have hs8 : s8 < 256 := hb s8 (by simp)
  have hs9 : s9 < 256 := hb s9 (by simp)
  have hs10 : s10 < 256 := hb s10 (by simp)
  have hs11 : s11 < 256 := hb s11 (by simp)
  have hs12 : s12 < 256 := hb s12 (by simp)
  have hs13 : s13 < 256 := hb s13 (by simp)
  have hs14 : s14 < 256 := hb s14 (by simp)
  have hs15 : s15 < 256 := hb s15 (by simp)
  have hW : ∀ w ∈ [s0 * 256 + s1, s2 * 256 + s3, s4 * 256 + s5, s6 * 256 + s7, s8 * 256 + s9, s10 * 256 + s11, s12 * 256 + s13, s14 * 256 + s15], w < 65536 := by
    intro w hw
    simp only [List.mem_cons, List.mem_singleton, List.not_mem_nil, or_false] at hw
    omega
  have hbytes : word_bytes [s0 * 256 + s1, s2 * 256 + s3, s4 * 256 + s5, s6 * 256 + s7, s8 * 256 + s9, s10 * 256 + s11, s12 * 256 + s13, s14 * 256 + s15] = [s0, s1, s2, s3, s4, s5, s6, s7, s8, s9, s10, s11, s12, s13, s14, s15] := by
    simp only [word_bytes, (word_pair s0 s1 hs0 hs1).1, (word_pair s0 s1 hs0 hs1).2,
      (word_pair s2 s3 hs2 hs3).1, (word_pair s2 s3 hs2 hs3).2,
      (word_pair s4 s5 hs4 hs5).1, (word_pair s4 s5 hs4 hs5).2,
      (word_pair s6 s7 hs6 hs7).1, (word_pair s6 s7 hs6 hs7).2,
      (word_pair s8 s9 hs8 hs9).1, (word_pair s8 s9 hs8 hs9).2,
      (word_pair s10 s11 hs10 hs11).1, (word_pair s10 s11 hs10 hs11).2,
      (word_pair s12 s13 hs12 hs13).1, (word_pair s12 s13 hs12 hs13).2,
      (word_pair s14 s15 hs14 hs15).1, (word_pair s14 s15 hs14 hs15).2]
  have hwords : (List.range 8).map
      (fun i => [s0, s1, s2, s3, s4, s5, s6, s7, s8, s9, s10, s11, s12, s13, s14, s15].getD (2 * i) 0 * 256 + [s0, s1, s2, s3, s4, s5, s6, s7, s8, s9, s10, s11, s12, s13, s14, s15].getD (2 * i + 1) 0) = [s0 * 256 + s1, s2 * 256 + s3, s4 * 256 + s5, s6 * 256 + s7, s8 * 256 + s9, s10 * 256 + s11, s12 * 256 + s13, s14 * 256 + s15] := rfl
  unfold inet_ntop6
  simp only []
  rw [hwords]
  generalize hbest : ntop6_best [s0 * 256 + s1, s2 * 256 + s3, s4 * 256 + s5, s6 * 256 + s7, s8 * 256 + s9, s10 * 256 + s11, s12 * 256 + s13, s14 * 256 + s15] = best
  obtain ⟨base, l⟩ := best
  cases base with
  | none =>
    left
    simp only [ne_eq, not_true_eq_false, false_and, if_false]
    exact ⟨[s0 * 256 + s1, s2 * 256 + s3, s4 * 256 + s5, s6 * 256 + s7, s8 * 256 + s9, s10 * 256 + s11, s12 * 256 + s13, s14 * 256 + s15], rfl, hW,
      ntop6_format_no_run _ _ _ _ _ _ _ _ _ _, hbytes⟩
  | some b =>
    right
    have hok := ntop6_best_ok [s0 * 256 + s1, s2 * 256 + s3, s4 * 256 + s5, s6 * 256 + s7, s8 * 256 + s9, s10 * 256 + s11, s12 * 256 + s13, s14 * 256 + s15] b (by rw [hbest])
    rw [hbest] at hok
    obtain ⟨h2, hbl, hz⟩ := hok
    simp only [List.length_cons, List.length_nil] at hbl
    simp only at h2 hbl hz
    simp only [ne_eq, reduceCtorEq, not_false_eq_true, true_and, Option.getD_some]
    by_cases hv4 : b = 0 ∧ (l = 6 ∨ (l = 5 ∧ s10 * 256 + s11 = 65535))
    · right
      obtain ⟨rfl, hl⟩ := hv4
      have z0 := hz 0 (by omega) (by omega)
      have z1 := hz 1 (by omega) (by omega)
      have z2 := hz 2 (by omega) (by omega)
      have z3 := hz 3 (by omega) (by omega)
      have z4 := hz 4 (by omega) (by omega)
      simp only [List.getD_cons_zero, List.getD_cons_succ] at z0 z1 z2 z3 z4
      have e0 : s0 = 0 := by omega
      have e1 : s1 = 0 := by omega
      have e2 : s2 = 0 := by omega
      have e3 : s3 = 0 := by omega
      have e4 : s4 = 0 := by omega
      have e5 : s5 = 0 := by omega
      have e6 : s6 = 0 := by omega
      have e7 : s7 = 0 := by omega
      have e8 : s8 = 0 := by omega
      have e9 : s9 = 0 := by omega
      have hd : List.drop 12 [s0, s1, s2, s3, s4, s5, s6, s7, s8, s9, s10, s11, s12, s13, s14, s15] = [s12, s13, s14, s15] := rfl
      rcases hl with rfl | ⟨rfl, h5⟩
      · left
        have z5 := hz 5 (by omega) (by omega)
        simp only [List.getD_cons_zero, List.getD_cons_succ] at z5
        have e10 : s10 = 0 := by omega
        have e11 : s11 = 0 := by omega
        rw [if_neg (by omega), ntop6_format_v4_compatible, hd]
        refine ⟨s12, s13, s14, s15, hs12, hs13, hs14, hs15, rfl, ?_⟩
        rw [e0, e1, e2, e3, e4, e5, e6, e7, e8, e9, e10, e11]
        rfl
      · right
        have e10 : s10 = 255 := by omega
        have e11 : s11 = 255 := by omega
        rw [if_neg (by omega), ntop6_format_v4_mapped _ _ _ _ _ _ _ _ _ h5, hd, h5]
        refine ⟨s12, s13, s14, s15, hs12, hs13, hs14, hs15, rfl, ?_⟩
        rw [e0, e1, e2, e3, e4, e5, e6, e7, e8, e9, e10, e11]
        rfl
    · left
      rw [ntop6_format_run _ _ _ _ _ _ _ _ _ b l h2 hbl hv4]
      have hlen1 : ([s0 * 256 + s1, s2 * 256 + s3, s4 * 256 + s5, s6 * 256 + s7, s8 * 256 + s9, s10 * 256 + s11, s12 * 256 + s13, s14 * 256 + s15].take b).length + ([s0 * 256 + s1, s2 * 256 + s3, s4 * 256 + s5, s6 * 256 + s7, s8 * 256 + s9, s10 * 256 + s11, s12 * 256 + s13, s14 * 256 + s15].drop (b + l)).length = 8 - l := by
        simp only [List.length_take, List.length_drop, List.length_cons, List.length_nil]
        omega
      refine ⟨_, _, fun w hw => hW w (List.mem_of_mem_take hw),
        fun w hw => hW w (List.mem_of_mem_drop hw), by omega, rfl, ?_⟩
      have hlen2 : 16 - 2 * (([s0 * 256 + s1, s2 * 256 + s3, s4 * 256 + s5, s6 * 256 + s7, s8 * 256 + s9, s10 * 256 + s11, s12 * 256 + s13, s14 * 256 + s15].take b).length + ([s0 * 256 + s1, s2 * 256 + s3, s4 * 256 + s5, s6 * 256 + s7, s8 * 256 + s9, s10 * 256 + s11, s12 * 256 + s13, s14 * 256 + s15].drop (b + l)).length) = 2 * l := by
        omega
      rw [hlen2, word_bytes_zero_run _ b l (by simpa using hbl) hz, hbytes]

/-- Reading back with `inet_pton6` what `inet_ntop6` writes for sixteen bytes
gives the sixteen bytes. -/
theorem inet_pton6_ntop6 (src : List Nat) (h : AddrOK 16 src) :
    inet_pton6 (inet_ntop6 src) = some src := by
  rcases inet_ntop6_shape src h with
    ⟨ws, hlen, hws, htext, hbytes⟩ | ⟨pre, post, hpre, hpost, hlen, htext, hbytes⟩ |
    ⟨a, b, c, d, ha, hb, hc, hd, htext, hbytes⟩ | ⟨a, b, c, d, ha, hb, hc, hd, htext, hbytes⟩
  · rw [htext, inet_pton6_full ws hws hlen, hbytes]
  · rw [htext, inet_pton6_compressed pre post hpre hpost (by omega), hbytes]
  · rw [htext, inet_pton6_v4_compatible a b c d ha hb hc hd, hbytes]
  · rw [htext, inet_pton6_v4_mapped a b c d ha hb hc hd, hbytes]

/-! ## The characters and the length of what `inet_ntop` writes -/

theorem addr_char_ok (c : Char) (h : AddrChar c) : c ≠ NUL ∧ c ≠ '/' := by
  rcases h with rfl | rfl | ⟨d, hd, rfl⟩
  · decide
  · decide
  · exact ⟨(digit_char_not_special d hd).2.2.2.1, (digit_char_not_special d hd).2.2.1⟩

theorem render_hex_chars (w : Nat) (hw : w < 65536) : ∀ c ∈ render_hex w, AddrChar c := by
  intro c hc
  rw [render_hex_cases w hw] at hc
  right; right
  split at hc
  · simp only [List.mem_singleton] at hc
    exact ⟨_, by omega, hc⟩
  · split at hc
    · simp only [List.mem_cons, List.mem_singleton, List.not_mem_nil, or_false] at hc
      rcases hc with hc | hc
      · exact ⟨_, by omega, hc⟩
      · exact ⟨_, by omega, hc⟩
    · split at hc
      · simp only [List.mem_cons, List.mem_singleton, List.not_mem_nil, or_false] at hc
        rcases hc with hc | hc | hc
        · exact ⟨_, by omega, hc⟩
        · exact ⟨_, by omega, hc⟩
        · exact ⟨_, by omega, hc⟩
      · simp only [List.mem_cons, List.mem_singleton, List.not_mem_nil, or_false] at hc
        rcases hc with hc | hc | hc | hc
        · exact ⟨_, by omega, hc⟩
        · exact ⟨_, by omega, hc⟩
        · exact ⟨_, by omega, hc⟩
        · exact ⟨_, by omega, hc⟩

theorem render_unsigned_digits (n : Nat) (hn : n < 1000) :
    ∀ c ∈ render_unsigned n, ∃ d, d < 10 ∧ c = digit_char d := by
  intro c hc
  rw [render_unsigned_cases n hn] at hc
  split at hc
  · simp only [List.mem_singleton] at hc
    exact ⟨_, by omega, hc⟩
  · split at hc
    · simp only [List.mem_cons, List.mem_singleton, List.not_mem_nil, or_false] at hc
      rcases hc with hc | hc
      · exact ⟨_, by omega, hc⟩
      · exact ⟨_, by omega, hc⟩
    · simp only [List.mem_cons, List.mem_singleton, List.not_mem_nil, or_false] at hc
      rcases hc with hc | hc | hc
      · exact ⟨_, by omega, hc⟩
      · exact ⟨_, by omega, hc⟩
      · exact ⟨_, by omega, hc⟩

theorem render_unsigned_chars (n : Nat) (hn : n < 1000) :
    ∀ c ∈ render_unsigned n, AddrChar c := by
  intro c hc
  obtain ⟨d, hd, rfl⟩ := render_unsigned_digits n hn c hc
  exact Or.inr (Or.inr ⟨d, by omega, rfl⟩)

theorem render_unsigned_length (n : Nat) (hn : n < 1000) :
    1 ≤ (render_unsigned n).length ∧ (render_unsigned n).length ≤ 3 := by
  rw [render_unsigned_cases n hn]
  split
  · simp
  · split <;> simp

theorem groups_text_chars (ws : List Nat) (hws : ∀ w ∈ ws, w < 65536) :
    ∀ c ∈ groups_text ws, AddrChar c := by
  induction ws with
  | nil => intro c hc; simp [groups_text] at hc
  | cons w ws ih =>
    have hw := hws w (List.mem_cons_self _ _)
    have ih1 := ih (fun x hx => hws x (List.mem_cons_of_mem _ hx))
    cases ws with
    | nil => simpa [groups_text] using render_hex_chars w hw
    | cons v vs =>
      intro c hc
      have hgt : groups_text (w :: v :: vs) = render_hex w ++ ':' :: groups_text (v :: vs) := by
        simp [groups_text]
      rw [hgt] at hc
      simp only [List.mem_append, List.mem_cons] at hc
      rcases hc with hc | hc | hc
      · exact render_hex_chars w hw c hc
      · exact Or.inl hc
      · exact ih1 c hc

theorem groups_text_length (ws : List Nat) (hws : ∀ w ∈ ws, w < 65536) :
    (groups_text ws).length ≤ 5 * ws.length := by
  induction ws with
  | nil => simp [groups_text]
  | cons w ws ih =>
    have hw := render_hex_length w (hws w (List.mem_cons_self _ _))
    have ih1 := ih (fun x hx => hws x (List.mem_cons_of_mem _ hx))
    cases ws with
    | nil => simp only [groups_text, List.length_cons, List.length_nil]; omega
    | cons v vs =>
      have hgt : groups_text (w :: v :: vs) = render_hex w ++ ':' :: groups_text (v :: vs) := by
        simp [groups_text]
      rw [hgt]
      simp only [List.length_append, List.length_cons] at ih1 ⊢
      omega

theorem groups_text_colon (w v : Nat) (ws : List Nat) : ':' ∈ groups_text (w :: v :: ws) := by
  have hgt : groups_text (w :: v :: ws) = render_hex w ++ ':' :: groups_text (v :: ws) := by
    simp [groups_text]
  rw [hgt]
  simp

theorem inet_ntop4_text (a b c d : Nat) (ha : a < 256) (hb : b < 256) (hc : c < 256)
    (hd : d < 256) :
    (∀ x ∈ inet_ntop4 [a, b, c, d], AddrChar x) ∧
      7 ≤ (inet_ntop4 [a, b, c, d]).length ∧ (inet_ntop4 [a, b, c, d]).length ≤ 15 ∧
      ((inet_ntop4 [a, b, c, d]).getD 3 NUL = '.' ∨ (inet_ntop4 [a, b, c, d]).getD 2 NUL = '.' ∨
        (inet_ntop4 [a, b, c, d]).getD 1 NUL = '.') := by
  have la := render_unsigned_length a (by omega)
  have lb := render_unsigned_length b (by omega)
  have lc := render_unsigned_length c (by omega)
  have ld := render_unsigned_length d (by omega)
  rw [inet_ntop4_head]
  refine ⟨?_, ?_, ?_, ?_⟩
  · intro x hx
    simp only [List.mem_append, List.mem_cons] at hx
    rcases hx with hx | hx | hx | hx | hx | hx | hx
    · exact render_unsigned_chars a (by omega) x hx
    · exact Or.inr (Or.inl hx)
    · exact render_unsigned_chars b (by omega) x hx
    · exact Or.inr (Or.inl hx)
    · exact render_unsigned_chars c (by omega) x hx
    · exact Or.inr (Or.inl hx)
    · exact render_unsigned_chars d (by omega) x hx
  · simp only [List.length_append, List.length_cons]; omega
  · simp only [List.length_append, List.length_cons]; omega
  · rw [render_unsigned_cases a (by omega)]
    by_cases h1 : a < 10
    · right; right
      simp [h1]
    · by_cases h2 : a < 100
      · right; left
        simp [h1, h2]
      · left
        simp [h1, h2]

/-- The text that `inet_ntop6` writes for sixteen bytes holds only colons,
dots and hexadecimal digits, at least one colon, and between two and forty
characters. -/
theorem inet_ntop6_text (src : List Nat) (h : AddrOK 16 src) :
    (∀ x ∈ inet_ntop6 src, AddrChar x) ∧ 2 ≤ (inet_ntop6 src).length ∧
      (inet_ntop6 src).length ≤ 40 ∧ ':' ∈ inet_ntop6 src := by
  rcases inet_ntop6_shape src h with
    ⟨ws, hlen, hws, htext, _⟩ | ⟨pre, post, hpre, hpost, hlen, htext, _⟩ |
    ⟨a, b, c, d, ha, hb, hc, hd, htext, _⟩ | ⟨a, b, c, d, ha, hb, hc, hd, htext, _⟩
  · rw [htext]
    have hl := groups_text_length ws hws
    obtain ⟨w, v, rest, rfl⟩ : ∃ w v rest, ws = w :: v :: rest := by
      match ws, hlen with
      | w :: v :: rest, _ => exact ⟨w, v, rest, rfl⟩
    have hcol := groups_text_colon w v rest
    have hw0 := render_hex_length w (hws w (List.mem_cons_self _ _))
    refine ⟨groups_text_chars _ hws, ?_, by omega, hcol⟩
    have hgt : groups_text (w :: v :: rest) = render_hex w ++ ':' :: groups_text (v :: rest) := by
      simp [groups_text]
    rw [hgt]
    simp only [List.length_append, List.length_cons]
    omega
  · rw [htext]
    have h1 := groups_text_length pre hpre
    have h2 := groups_text_length post hpost
    refine ⟨?_, ?_, ?_, by simp⟩
    · intro x hx
      simp only [List.mem_append, List.mem_cons] at hx
      rcases hx with hx | hx | hx | hx
      · exact groups_text_chars pre hpre x hx
      · exact Or.inl hx
      · exact Or.inl hx
      · exact groups_text_chars post hpost x hx
    · simp only [List.length_append, List.length_cons]; omega
    · simp only [List.length_append, List.length_cons]; omega
  · rw [htext]
    obtain ⟨h1, h2, h3, _⟩ := inet_ntop4_text a b c d ha hb hc hd
    refine ⟨?_, ?_, ?_, by simp⟩
    · intro x hx
      simp only [List.mem_cons] at hx
      rcases hx with hx | hx | hx
      · exact Or.inl hx
      · exact Or.inl hx
      · exact h1 x hx
    · simp only [List.length_cons]; omega
    · simp only [List.length_cons]; omega
  · rw [htext]
    obtain ⟨h1, h2, h3, _⟩ := inet_ntop4_text a b c d ha hb hc hd
    have h4 := render_hex_length 65535 (by omega)
    refine ⟨?_, ?_, ?_, by simp⟩
    · intro x hx
      simp only [List.mem_cons, List.mem_append] at hx
      rcases hx with hx | hx | hx | hx | hx
      · exact Or.inl hx
      · exact Or.inl hx
      · exact render_hex_chars 65535 (by omega) x hx
      · exact Or.inl hx
      · exact h1 x hx
    · simp only [List.length_cons, List.length_append]; omega
    · simp only [List.length_cons, List.length_append]; omega

theorem inet_pton4_loop_colon (src : List Char) (hcol : ':' ∈ src) :
    ∀ st, inet_pton4_loop src st = none := by
  induction src with
  | nil => simp at hcol
  | cons ch src ih =>
    intro st
    rw [inet_pton4_loop]
    by_cases hch : ch = ':'
    · subst hch
      have h1 : isdigit ':' = false := by decide
      have h2 : ¬ (':' = '.') := by decide
      simp [h1, h2]
    · have hmem : ':' ∈ src := by
        simp only [List.mem_cons] at hcol
        rcases hcol with h | h
        · exact absurd h.symm hch
        · exact h
      simp only [ih hmem]
      split_ifs <;> rfl

/-- A text with a colon is no dotted quad for `inet_pton4`. -/
theorem inet_pton4_colon (src : List Char) (hcol : ':' ∈ src) : inet_pton4 src = none := by
  unfold inet_pton4
  rw [inet_pton4_loop_colon src hcol]

/-! ## `parse_cidr` on the text that `unparse_cidr` writes -/

theorem parse_cidr_base (cidr : List Char) (r : AddressRange) (h : parse_cidr cidr = .ok r) :
    ∃ src, inet_pton r.addr_family src = some r.base := by
  unfold parse_cidr parse_cidr_buf at h
  by_cases h1 : char_at cidr 0 = NUL ∨ char_at cidr 1 = NUL ∨ char_at cidr 2 = NUL ∨
      char_at cidr 3 = NUL
  · rw [if_pos h1] at h; cases h
  · rw [if_neg h1] at h
    simp only at h
    generalize hv : decide (char_at cidr 3 = '.' ∨ char_at cidr 2 = '.' ∨ char_at cidr 1 = '.')
      = v4 at h
    cases hsep : strchr_slash cidr with
    | none => rw [hsep] at h; cases h
    | some separator =>
      rw [hsep] at h
      simp only at h
      by_cases h2 : ¬ isdigit (char_at cidr (separator + 1)) = true
      · rw [if_pos h2] at h; cases h
      · rw [if_neg h2] at h
        by_cases h3 : (strtoul (List.drop (separator + 1) cidr)).2 = true ∧
            implicit_int_result (strtoul (List.drop (separator + 1) cidr)).1 = 0
        · rw [if_pos h3] at h; cases h
        · rw [if_neg h3] at h
          by_cases h4 : implicit_int_result (strtoul (List.drop (separator + 1) cidr)).1 >
              (if v4 = true then IPV4_BYTES else IPV6_BYTES) * 8
          · rw [if_pos h4] at h; cases h
          · rw [if_neg h4] at h
            cases hb : inet_pton (if v4 = true then AF_INET else AF_INET6)
                (cstr_at (cidr.set separator NUL) 0) with
            | none => rw [hb] at h; cases h
            | some base =>
              rw [hb] at h
              simp only [Except.ok.injEq] at h
              subst h
              exact ⟨_, hb⟩

theorem strchr_slash_append (t d : List Char) (ht : ∀ c ∈ t, c ≠ '/')
    (hn : ∀ c ∈ t, c ≠ NUL) :
    strchr_slash (t ++ '/' :: d) = some t.length := by
  induction t with
  | nil => simp [strchr_slash]
  | cons c t ih =>
    have hc : c ≠ '/' := ht c (List.mem_cons_self _ _)
    have hc0 : c ≠ NUL := hn c (List.mem_cons_self _ _)
    have := ih (fun x hx => ht x (List.mem_cons_of_mem _ hx))
      (fun x hx => hn x (List.mem_cons_of_mem _ hx))
    simp [strchr_slash, hc, hc0, this]

theorem char_at_append_left (t r : List Char) (k : Nat) (hk : k < t.length) :
    char_at (t ++ r) k = t.get ⟨k, hk⟩ := by
  unfold char_at
  rw [List.getD_eq_getElem?_getD, List.getElem?_append_left hk, List.getElem?_eq_getElem hk]
  rfl

theorem char_at_append_right (t r : List Char) (k : Nat) :
    char_at (t ++ r) (t.length + k) = char_at r k := by
  unfold char_at
  rw [List.getD_eq_getElem?_getD, List.getD_eq_getElem?_getD,
    List.getElem?_append_right (by omega)]
  congr 2
  omega

theorem set_separator (t d : List Char) :
    (t ++ '/' :: d).set t.length NUL = t ++ NUL :: d := by
  induction t with
  | nil => rfl
  | cons c t ih =>
    simp only [List.cons_append, List.length_cons, List.set_cons_succ]
    rw [ih]

theorem take_while_not_nul (t d : List Char) (ht : ∀ c ∈ t, c ≠ NUL) :
    (t ++ NUL :: d).takeWhile (fun c => c ≠ NUL) = t := by
  induction t with
  | nil => simp [List.takeWhile]
  | cons c t ih =>
    have hc : c ≠ NUL := ht c (List.mem_cons_self _ _)
    simp only [List.cons_append, List.takeWhile_cons, ne_eq, hc, not_false_eq_true,
      decide_True, if_true]
    rw [ih (fun x hx => ht x (List.mem_cons_of_mem _ hx))]

theorem cstr_at_set_separator (t d : List Char) (ht : ∀ c ∈ t, c ≠ NUL) :
    cstr_at ((t ++ '/' :: d).set t.length NUL) 0 = t := by
  rw [set_separator]
  unfold cstr_at
  rw [List.drop_zero]
  exact take_while_not_nul t d ht

theorem isdigit_not_sign (c : Char) (h : isdigit c = true) :
    isspace c = false ∧ c ≠ '-' ∧ c ≠ '+' := by
  unfold isdigit at h
  simp only [decide_eq_true_eq] at h
  refine ⟨?_, ?_, ?_⟩
  · unfold isspace
    simp only [decide_eq_false_iff_not]
    omega
  · intro hc
    rw [hc] at h
    revert h
    decide
  · intro hc
    rw [hc] at h
    revert h
    decide

theorem strtoul_digits (s : List Char) (hs : s ≠ []) (hall : ∀ c ∈ s, isdigit c = true)
    (hv : decimal_value 0 s ≤ ULONG_MAX) : strtoul s = (decimal_value 0 s, false) := by
  obtain ⟨c, cs, rfl⟩ : ∃ c cs, s = c :: cs := by
    cases s with
    | nil => exact absurd rfl hs
    | cons c cs => exact ⟨c, cs, rfl⟩
  obtain ⟨h1, h2, h3⟩ := isdigit_not_sign c (hall c (List.mem_cons_self _ _))
  have hdrop : (c :: cs).dropWhile isspace = c :: cs := by
    simp [List.dropWhile, h1]
  have htake : (c :: cs).takeWhile isdigit = c :: cs := by
    rw [List.takeWhile_eq_self_iff]
    exact hall
  unfold strtoul
  simp only [hdrop, List.head?_cons, Option.some.injEq, h2, h3, or_self, if_false, htake,
    reduceCtorEq, decide_False, Bool.false_eq_true]
  rw [if_neg (by omega)]

theorem decimal_value_cons (acc : Nat) (c : Char) (cs : List Char) :
    decimal_value acc (c :: cs) = decimal_value (acc * 10 + (c.toNat - 48)) cs := rfl

theorem decimal_value_nil (acc : Nat) : decimal_value acc [] = acc := rfl

theorem decimal_value_render_unsigned (p : Nat) (hp : p < 1000) :
    decimal_value 0 (render_unsigned p) = p := by
  rw [render_unsigned_cases p hp]
  by_cases h1 : p < 10
  · rw [if_pos h1, decimal_value_cons, decimal_value_nil, digit_char_toNat p h1]
    omega
  · rw [if_neg h1]
    by_cases h2 : p < 100
    · rw [if_pos h2, decimal_value_cons, decimal_value_cons, decimal_value_nil,
        digit_char_toNat (p / 10) (by omega), digit_char_toNat (p % 10) (by omega)]
      omega
    · rw [if_neg h2, decimal_value_cons, decimal_value_cons, decimal_value_cons,
        decimal_value_nil, digit_char_toNat (p / 100) (by omega),
        digit_char_toNat (p / 10 % 10) (by omega), digit_char_toNat (p % 10) (by omega)]
      omega

theorem strtoul_render_unsigned (p : Nat) (hp : p < 1000) :
    strtoul (render_unsigned p) = (p, false) ∧ isdigit (char_at (render_unsigned p) 0) = true := by
  have hall : ∀ c ∈ render_unsigned p, isdigit c = true := by
    intro c hc
    obtain ⟨d, hd, rfl⟩ := render_unsigned_digits p hp c hc
    exact isdigit_digit_char d hd
  have hne : render_unsigned p ≠ [] := by
    intro h
    have := (render_unsigned_length p hp).1
    rw [h] at this
    simp at this
  have hval := decimal_value_render_unsigned p hp
  have hU : ULONG_MAX = 18446744073709551615 := rfl
  refine ⟨?_, ?_⟩
  · rw [strtoul_digits _ hne hall (by rw [hval, hU]; omega), hval]
  · obtain ⟨c, cs, hcs⟩ : ∃ c cs, render_unsigned p = c :: cs := by
      cases h : render_unsigned p with
      | nil => exact absurd h hne
      | cons c cs => exact ⟨c, cs, rfl⟩
    have := hall c (by rw [hcs]; exact List.mem_cons_self _ _)
    rw [hcs]
    exact this

theorem char_at_mem (l : List Char) (k : Nat) (hk : k < l.length) : char_at l k ∈ l := by
  unfold char_at
  rw [List.getD_eq_getElem?_getD, List.getElem?_eq_getElem hk]
  exact List.getElem_mem _

theorem drop_after_separator (t d : List Char) :
    (t ++ '/' :: d).drop (t.length + 1) = d := by
  induction t with
  | nil => rfl
  | cons c t ih => simp

/-- What `parse_cidr` does with an address text, a slash and a prefix in
decimal: the family is chosen from the first four characters, the prefix is
compared with the width, and the address text is handed to `inet_pton`. -/
theorem parse_cidr_rendered (t : List Char) (p : Nat) (v4 : Bool) (hp : p < 256)
    (hchars : ∀ c ∈ t, AddrChar c) (hlen : 2 ≤ t.length)
    (hv4 : decide (char_at (t ++ '/' :: render_unsigned p) 3 = '.' ∨
      char_at (t ++ '/' :: render_unsigned p) 2 = '.' ∨
      char_at (t ++ '/' :: render_unsigned p) 1 = '.') = v4) :
    parse_cidr (t ++ '/' :: render_unsigned p) =
      if p > (if v4 = true then IPV4_BYTES else IPV6_BYTES) * 8 then .error 5
      else
        match inet_pton (if v4 = true then AF_INET else AF_INET6) t with
        | none => .error 6
        | some base =>
          .ok { addr_family := if v4 = true then AF_INET else AF_INET6,
                addr_bytes := if v4 = true then IPV4_BYTES else IPV6_BYTES,
                prefix_length := p % 256, base := base,
                mask := cidr_mask (if v4 = true then IPV4_BYTES else IPV6_BYTES) p,
                start := (List.range (if v4 = true then IPV4_BYTES else IPV6_BYTES)).map
                  (fun i => base.getD i 0 &&&
                    (cidr_mask (if v4 = true then IPV4_BYTES else IPV6_BYTES) p).getD i 0),
                end_ := (List.range (if v4 = true then IPV4_BYTES else IPV6_BYTES)).map
                  (fun i => (((List.range (if v4 = true then IPV4_BYTES else IPV6_BYTES)).map
                    (fun i => base.getD i 0 &&&
                      (cidr_mask (if v4 = true then IPV4_BYTES else IPV6_BYTES) p).getD i 0)).getD
                        i 0 |||
                    (255 - (cidr_mask (if v4 = true then IPV4_BYTES else IPV6_BYTES)
                      p).getD i 0)) % 256) } := by
  have hd := render_unsigned_length p (by omega)
  obtain ⟨hstr, hdig⟩ := strtoul_render_unsigned p (by omega)
  have hall : ∀ c ∈ t ++ '/' :: render_unsigned p, c ≠ NUL := by
    intro c hc
    simp only [List.mem_append, List.mem_cons] at hc
    rcases hc with hc | hc | hc
    · exact (addr_char_ok c (hchars c hc)).1
    · rw [hc]; decide
    · exact (addr_char_ok c (render_unsigned_chars p (by omega) c hc)).1
  have hlen4 : 4 ≤ (t ++ '/' :: render_unsigned p).length := by
    simp only [List.length_append, List.length_cons]; omega
  have hnn : ¬ (char_at (t ++ '/' :: render_unsigned p) 0 = NUL ∨
      char_at (t ++ '/' :: render_unsigned p) 1 = NUL ∨
      char_at (t ++ '/' :: render_unsigned p) 2 = NUL ∨
      char_at (t ++ '/' :: render_unsigned p) 3 = NUL) := by
    intro h
    rcases h with h | h | h | h
    · exact hall _ (char_at_mem _ 0 (by omega)) h
    · exact hall _ (char_at_mem _ 1 (by omega)) h
    · exact hall _ (char_at_mem _ 2 (by omega)) h
    · exact hall _ (char_at_mem _ 3 (by omega)) h
  have hsep := strchr_slash_append t (render_unsigned p)
    (fun c hc => (addr_char_ok c (hchars c hc)).2)
    (fun c hc => (addr_char_ok c (hchars c hc)).1)
  have hnext : char_at (t ++ '/' :: render_unsigned p) (t.length + 1)
      = char_at (render_unsigned p) 0 := by
    rw [char_at_append_right]
    rfl
  have hcstr := cstr_at_set_separator t (render_unsigned p)
    (fun c hc => (addr_char_ok c (hchars c hc)).1)
  unfold parse_cidr parse_cidr_buf
  rw [if_neg hnn]
  simp only []
  rw [hv4, hsep]
  have himp : implicit_int_result p = p := by
    unfold implicit_int_result
    have : p % 4294967296 = p := Nat.mod_eq_of_lt (by omega)
    simp only [this]
    rw [if_pos (by omega)]
  simp only [hnext, hdig, not_true_eq_false, if_false, drop_after_separator, hstr,
    Bool.false_eq_true, false_and, hcstr, himp]
  by_cases hgt : p > (if v4 = true then IPV4_BYTES else IPV6_BYTES) * 8
  · rw [if_pos hgt, if_pos hgt]
  · rw [if_neg hgt, if_neg hgt]
    cases inet_pton (if v4 = true then AF_INET else AF_INET6) t with
    | none => rfl
    | some base => rfl

theorem char_at_append_lt (t r : List Char) (k : Nat) (hk : k < t.length) :
    char_at (t ++ r) k = char_at t k := by
  unfold char_at
  rw [List.getD_eq_getElem?_getD, List.getD_eq_getElem?_getD, List.getElem?_append_left hk]

theorem unparse_cidr_text (r : AddressRange) (length : Nat) (t : List Char)
    (ht : inet_ntop r.addr_family r.base = some t) (hr : r.prefix_length < 1000)
    (hlen : t.length + 5 ≤ length) :
    unparse_cidr r length = .ok (t ++ '/' :: render_unsigned r.prefix_length) := by
  have hd := render_unsigned_length r.prefix_length hr
  unfold unparse_cidr
  rw [ht]
  simp only [List.append_assoc, List.singleton_append]
  rw [if_neg (by simp), List.take_of_length_le]
  simp only [List.length_append, List.length_cons]
  omega

set_option maxRecDepth 1000000 in
/-- C10 as stated fails: `parse_cidr` accepts `::102:304/128` and
`::102:304/24` as IPv6 ranges; `unparse_cidr` renders them as `::1.2.3.4/128`
and `::1.2.3.4/24`, since glibc writes an address whose first six words are
zero in the IPv4-compatible form; and `parse_cidr` rejects both rendered
texts: the `.` at offset 3 makes them IPv4 texts, for which the prefix 128 is
too long (`errno = 5`) and the address `::1.2.3.4` is no dotted quad
(`errno = 6`). -/
theorem rendered_v4_compatible_address_is_rejected :
    ((parse_cidr "::102:304/128".toList).map (fun r => r.addr_family) = .ok AF_INET6 ∧
      (parse_cidr "::102:304/128".toList).bind (fun r => unparse_cidr r 64)
        = .ok "::1.2.3.4/128".toList ∧
      parse_cidr "::1.2.3.4/128".toList = .error 5) ∧
    ((parse_cidr "::102:304/24".toList).bind (fun r => unparse_cidr r 64)
        = .ok "::1.2.3.4/24".toList ∧
      parse_cidr "::1.2.3.4/24".toList = .error 6) := by
  decide

/-- C10, amended: for every text on which `parse_cidr` succeeds and every
destination of at least 45 bytes, `unparse_cidr` succeeds on the resulting
range, and `parse_cidr` of the rendered text yields that same range (same
family, base, prefix length, mask, start and end) unless the range is IPv6 and
the rendered text has a `.` among its second to fourth characters, in which
case `parse_cidr` rejects the rendered text. -/
theorem parse_cidr_of_unparse_cidr (cidr : List Char) (r : AddressRange) (length : Nat)
    (hparse : parse_cidr cidr = .ok r) (hlen : 45 ≤ length) :
    ∃ text, unparse_cidr r length = .ok text ∧
      ((r.addr_family = AF_INET6 ∧
          (char_at text 3 = '.' ∨ char_at text 2 = '.' ∨ char_at text 1 = '.')) →
        ∃ e, parse_cidr text = .error e) ∧
      (¬ (r.addr_family = AF_INET6 ∧
          (char_at text 3 = '.' ∨ char_at text 2 = '.' ∨ char_at text 1 = '.')) →
        parse_cidr text = .ok r) := by
  obtain ⟨v4, p, hfam, hbytes, hp, hpl, hmask, hstart, hend⟩ := parse_cidr_shape cidr r hparse
  obtain ⟨src, hsrc⟩ := parse_cidr_base cidr r hparse
  have hbase := (inet_pton_ok _ _ _ hsrc).2
  obtain ⟨fam, bytes, pl, base, mask, start, end_⟩ := r
  simp only at hfam hbytes hp hpl hmask hstart hend hbase
  cases v4 with
  | false =>
    simp only [Bool.false_eq_true, if_false] at hfam hbytes
    subst hfam hbytes
    have hp128 : p ≤ 128 := by
      have : IPV6_BYTES * 8 = 128 := rfl
      omega
    have hpl1 : p = pl := by omega
    subst hpl1
    have hp256 : p % 256 = p := by omega
    have hb16 : AddrOK 16 base := hbase
    obtain ⟨hch, hl2, hl40, hcol⟩ := inet_ntop6_text base hb16
    have hrt := inet_pton6_ntop6 base hb16
    have hntop : inet_ntop AF_INET6 base = some (inet_ntop6 base) := by
      unfold inet_ntop
      rw [if_neg (by decide), if_pos rfl]
    refine ⟨_, unparse_cidr_text _ length _ hntop (by simp only; omega) (by omega), ?_, ?_⟩
    · rintro ⟨_, hdot⟩
      have hv : decide (char_at (inet_ntop6 base ++ '/' :: render_unsigned p) 3 = '.' ∨
          char_at (inet_ntop6 base ++ '/' :: render_unsigned p) 2 = '.' ∨
          char_at (inet_ntop6 base ++ '/' :: render_unsigned p) 1 = '.') = true :=
        decide_eq_true hdot
      rw [parse_cidr_rendered _ p true (by omega) hch hl2 hv]
      simp only [if_true]
      by_cases hgt : p > IPV4_BYTES * 8
      · rw [if_pos hgt]
        exact ⟨5, rfl⟩
      · rw [if_neg hgt]
        have hnone : inet_pton AF_INET (inet_ntop6 base) = none := by
          unfold inet_pton
          rw [if_pos rfl]
          exact inet_pton4_colon _ hcol
        rw [hnone]
        exact ⟨6, rfl⟩
    · intro hnd
      have hnd1 : ¬ (char_at (inet_ntop6 base ++ '/' :: render_unsigned p) 3 = '.' ∨
          char_at (inet_ntop6 base ++ '/' :: render_unsigned p) 2 = '.' ∨
          char_at (inet_ntop6 base ++ '/' :: render_unsigned p) 1 = '.') :=
        fun h => hnd ⟨rfl, h⟩
      have hv : decide (char_at (inet_ntop6 base ++ '/' :: render_unsigned p) 3 = '.' ∨
          char_at (inet_ntop6 base ++ '/' :: render_unsigned p) 2 = '.' ∨
          char_at (inet_ntop6 base ++ '/' :: render_unsigned p) 1 = '.') = false :=
        decide_eq_false hnd1
      rw [parse_cidr_rendered _ p false (by omega) hch hl2 hv]
      simp only [Bool.false_eq_true, if_false]
      have hsome : inet_pton AF_INET6 (inet_ntop6 base) = some base := by
        unfold inet_pton
        rw [if_neg (by decide), if_pos rfl]
        exact hrt
      rw [if_neg (by omega), hsome]
      simp only [hp256]
      rw [← hmask, ← hstart, ← hend]
  | true =>
    simp only [if_true] at hfam hbytes
    subst hfam hbytes
    have hp32 : p ≤ 32 := by
      have : IPV4_BYTES * 8 = 32 := rfl
      omega
    have hpl1 : p = pl := by omega
    subst hpl1
    have hp256 : p % 256 = p := by omega
    have hb4 : AddrOK 4 base := hbase
    obtain ⟨hlen4, hlt⟩ := hb4
    obtain ⟨a, b, c, d, rfl⟩ : ∃ a b c d, base = [a, b, c, d] := by
      match base, hlen4 with
      | [a, b, c, d], _ => exact ⟨a, b, c, d, rfl⟩
    have ha : a < 256 := hlt a (by simp)
    have hb : b < 256 := hlt b (by simp)
    have hc : c < 256 := hlt c (by simp)
    have hd : d < 256 := hlt d (by simp)
    obtain ⟨hch, hl7, hl15, hdot⟩ := inet_ntop4_text a b c d ha hb hc hd
    have hrt := inet_pton4_ntop4 a b c d ha hb hc hd
    have hntop : inet_ntop AF_INET [a, b, c, d] = some (inet_ntop4 [a, b, c, d]) := by
      unfold inet_ntop
      rw [if_pos rfl]
    refine ⟨_, unparse_cidr_text _ length _ hntop (by simp only; omega) (by omega), ?_, ?_⟩
    · rintro ⟨h6, _⟩
      simp only at h6
      exact absurd h6 (by decide)
    · intro _
      have hdot1 : char_at (inet_ntop4 [a, b, c, d] ++ '/' :: render_unsigned p) 3 = '.' ∨
          char_at (inet_ntop4 [a, b, c, d] ++ '/' :: render_unsigned p) 2 = '.' ∨
          char_at (inet_ntop4 [a, b, c, d] ++ '/' :: render_unsigned p) 1 = '.' := by
        rw [char_at_append_lt _ _ 3 (by omega), char_at_append_lt _ _ 2 (by omega),
          char_at_append_lt _ _ 1 (by omega)]
        exact hdot
      have hv : decide (char_at (inet_ntop4 [a, b, c, d] ++ '/' :: render_unsigned p) 3 = '.' ∨
          char_at (inet_ntop4 [a, b, c, d] ++ '/' :: render_unsigned p) 2 = '.' ∨
          char_at (inet_ntop4 [a, b, c, d] ++ '/' :: render_unsigned p) 1 = '.') = true :=
        decide_eq_true hdot1
      rw [parse_cidr_rendered _ p true (by omega) hch (by omega) hv]
      simp only [if_true]
      have hsome : inet_pton AF_INET (inet_ntop4 [a, b, c, d]) = some [a, b, c, d] := by
        unfold inet_pton
        rw [if_pos rfl]
        exact hrt
      rw [if_neg (by omega), hsome]
      simp only [hp256]
      rw [← hmask, ← hstart, ← hend]

set_option maxRecDepth 1000000 in
/-- The text `2001:db8::1/64` is parsed as an IPv6 range, rendered into 64
bytes, and the rendered text is parsed as the same range. -/
theorem parse_cidr_of_unparse_cidr_witness :
    parse_cidr "2001:db8::1/64".toList = .ok sample_v6_range ∧ 45 ≤ 64 ∧
      ∃ text, unparse_cidr sample_v6_range 64 = .ok text ∧
        ((sample_v6_range.addr_family = AF_INET6 ∧
            (char_at text 3 = '.' ∨ char_at text 2 = '.' ∨ char_at text 1 = '.')) →
          ∃ e, parse_cidr text = .error e) ∧
        (¬ (sample_v6_range.addr_family = AF_INET6 ∧
            (char_at text 3 = '.' ∨ char_at text 2 = '.' ∨ char_at text 1 = '.')) →
          parse_cidr text = .ok sample_v6_range) :=
  ⟨by decide, by decide,
    parse_cidr_of_unparse_cidr "2001:db8::1/64".toList sample_v6_range 64 (by decide)
      (by decide)⟩

/-! ## The mask, the start and the end that `parse_cidr` computes -/

theorem cidr_mask_length (w p : Nat) : (cidr_mask w p).length = w := by
  unfold cidr_mask
  simp only
  split <;> simp

theorem cidr_mask_getD (w p i : Nat) (hi : i < w) :
    (cidr_mask w p).getD i 0 =
      if i < p / 8 then 255
      else if i = p / 8 ∧ p % 8 ≠ 0 then 255 * 2 ^ (8 - p % 8) % 256
      else 0 := by
  have hbase : (List.map (fun i => if i < p / 8 then 255
      else (List.replicate w 0).getD i 0) (List.range w)).getD i 0
        = if i < p / 8 then 255 else 0 := by
    rw [getD_map_range _ _ _ _ hi]
    split
    · rfl
    · simp [List.getD, List.getElem?_replicate, hi]
  unfold cidr_mask
  simp only
  by_cases hr : p % 8 ≠ 0
  · rw [if_pos hr]
    by_cases hip : p / 8 = i
    · subst hip
      rw [List.getD_eq_getElem?_getD, List.getElem?_set_self (by simpa using hi)]
      simp [hr]
    · rw [List.getD_eq_getElem?_getD, List.getElem?_set_ne hip, ← List.getD_eq_getElem?_getD,
        hbase]
      have : ¬ (i = p / 8 ∧ p % 8 ≠ 0) := fun h => hip h.1.symm
      simp [this]
  · rw [if_neg hr, hbase]
    have : ¬ (i = p / 8 ∧ p % 8 ≠ 0) := fun h => hr h.2
    simp [this]

theorem partial_mask_bits : ∀ r, r < 8 → ∀ k, k < 8 → r ≠ 0 →
    (255 * 2 ^ (8 - r) % 256).testBit (7 - k) = decide (k < r) := by
  decide

theorem full_byte_bits : ∀ k, k < 8 → Nat.testBit 255 (7 - k) = true := by
  decide

/-- The mask that `parse_cidr` builds for a prefix within the width has exactly
its `p` high-order bits set. -/
theorem cidr_mask_high_bits (w p : Nat) : MaskHasHighBits (cidr_mask w p) w p := by
  refine ⟨cidr_mask_length w p, fun i _ => cidr_mask_getD_lt w p i, ?_⟩
  intro j hj
  have hi : j / 8 < w := by omega
  have hk : j % 8 < 8 := Nat.mod_lt _ (by omega)
  rw [cidr_mask_getD w p _ hi]
  by_cases h1 : j / 8 < p / 8
  · rw [if_pos h1, full_byte_bits _ hk]
    symm
    rw [decide_eq_true_eq]
    omega
  · rw [if_neg h1]
    by_cases h2 : j / 8 = p / 8 ∧ p % 8 ≠ 0
    · rw [if_pos h2, partial_mask_bits _ (Nat.mod_lt _ (by omega)) _ hk h2.2]
      congr 1
      apply propext
      constructor <;> intro h <;> omega
    · rw [if_neg h2, Nat.zero_testBit]
      symm
      rw [decide_eq_false_iff_not]
      intro hlt
      apply h2
      constructor <;> omega

theorem or_not_mask_lt (s m : Nat) (hs : s < 256) : (s ||| (255 - m)) % 256 = s ||| (255 - m) := by
  have h1 : s ||| (255 - m) < 2 ^ 8 :=
    Nat.or_lt_two_pow (by simpa using hs) (by have : 255 - m < 256 := by omega
                                              simpa using this)
  exact Nat.mod_eq_of_lt (by simpa using h1)

/-- C11: on every success of `parse_cidr`, with `p` the stored prefix length
and `w` the byte width of the family, `p` is at most `8 * w`, the mask has
exactly its `p` high-order bits set over the `w` bytes, and for every `i < w`
`start[i] = base[i] AND mask[i]` and `end[i] = start[i] OR NOT mask[i]` (the
complement taken on eight bits). -/
theorem parse_cidr_mask_start_end (cidr : List Char) (r : AddressRange)
    (h : parse_cidr cidr = .ok r) :
    r.addr_bytes = family_bytes r.addr_family ∧
    r.prefix_length ≤ 8 * r.addr_bytes ∧
    MaskHasHighBits r.mask r.addr_bytes r.prefix_length ∧
    ∀ i, i < r.addr_bytes →
      r.start.getD i 0 = r.base.getD i 0 &&& r.mask.getD i 0 ∧
      r.end_.getD i 0 = r.start.getD i 0 ||| (255 - r.mask.getD i 0) := by
  obtain ⟨v4, p, hfam, hbytes, hp, hpl, hmask, hstart, hend⟩ := parse_cidr_shape cidr r h
  have hw : r.addr_bytes ≤ 16 := by
    rw [hbytes]; cases v4 <;> decide
  have hpp : r.prefix_length = p := by
    rw [hpl]; exact Nat.mod_eq_of_lt (by omega)
  refine ⟨?_, by omega, ?_, ?_⟩
  · rw [hfam, hbytes]; cases v4 <;> rfl
  · rw [hmask, hpp]
    exact cidr_mask_high_bits _ _
  · intro i hi
    have hs : r.start.getD i 0 = r.base.getD i 0 &&& r.mask.getD i 0 := by
      conv_lhs => rw [hstart]
      rw [getD_map_range _ _ _ _ hi]
    refine ⟨hs, ?_⟩
    conv_lhs => rw [hend]
    rw [getD_map_range _ _ _ _ hi]
    have hm : r.mask.getD i 0 < 256 := by
      rw [hmask]; exact cidr_mask_getD_lt _ _ _
    have hs256 : r.start.getD i 0 < 256 := by
      rw [hs]; exact Nat.lt_of_le_of_lt Nat.and_le_right hm
    exact or_not_mask_lt _ _ hs256

set_option maxRecDepth 1000000 in
/-- The text `10.1.2.3/32`, whose prefix is the whole width, gives a mask of
thirty-two set bits and a range of one address. -/
theorem parse_cidr_mask_start_end_witness :
    parse_cidr "10.1.2.3/32".toList = .ok sample_host_range ∧
    sample_host_range.addr_bytes = family_bytes sample_host_range.addr_family ∧
    sample_host_range.prefix_length ≤ 8 * sample_host_range.addr_bytes ∧
    MaskHasHighBits sample_host_range.mask sample_host_range.addr_bytes
      sample_host_range.prefix_length ∧
    ∀ i, i < sample_host_range.addr_bytes →
      sample_host_range.start.getD i 0
        = sample_host_range.base.getD i 0 &&& sample_host_range.mask.getD i 0 ∧
      sample_host_range.end_.getD i 0
        = sample_host_range.start.getD i 0 ||| (255 - sample_host_range.mask.getD i 0) :=
  ⟨by decide, parse_cidr_mask_start_end "10.1.2.3/32".toList sample_host_range (by decide)⟩

/-! ## What `parse_cidr` accepts after the slash, and what it leaves in the buffer -/

set_option maxRecDepth 1000000 in
/-- C12 does not hold of the code: `parse_cidr` accepts `10.0.0.0/24abc` and
`10.0.0.0/24/5`, both as the range of `10.0.0.0/24`.  It looks for the first
`/` only, checks that one digit follows it, and lets `strtoul` stop at the
first character that is no digit. -/
theorem parse_cidr_accepts_text_after_prefix :
    parse_cidr "10.0.0.0/24abc".toList = .ok sample_range ∧
    parse_cidr "10.0.0.0/24/5".toList = .ok sample_range ∧
    parse_cidr "10.0.0.0/24".toList = .ok sample_range := by
  decide

set_option maxRecDepth 1000000 in
/-- C13 does not hold of the code: `parse_cidr` accepts `10.0.0.0/4294967320`,
whose prefix is far above 32, and stores the prefix length 24; it accepts
`::/4294967424` with the prefix length 128.  `strtoul` returns `4294967320`
(`2 ^ 32 + 24`), but `cidr.c` calls it without a declaration, as a function
that returns `int`, and so keeps the low 32 bits only; the comparison with
the width sees `24`. -/
theorem parse_cidr_accepts_prefix_above_width :
    strtoul "4294967320".toList = (4294967320, false) ∧
    parse_cidr "10.0.0.0/4294967320".toList = .ok sample_range ∧
    (parse_cidr "::/4294967424".toList).map (fun r => (r.addr_family, r.prefix_length))
      = .ok (AF_INET6, 128) ∧
    parse_cidr "10.0.0.0/33".toList = .error 5 := by
  decide

theorem strchr_slash_some (l : List Char) :
    ∀ k, strchr_slash l = some k → l[k]? = some '/' := by
  induction l with
  | nil => intro k h; simp [strchr_slash] at h
  | cons c cs ih =>
    intro k h
    unfold strchr_slash at h
    by_cases hc : c = '/'
    · rw [if_pos hc] at h
      simp only [Option.some.injEq] at h
      subst h
      simp [hc]
    · rw [if_neg hc] at h
      by_cases hn : c = NUL
      · rw [if_pos hn] at h
        cases h
      rw [if_neg hn] at h
      cases hs : strchr_slash cs with
      | none => rw [hs] at h; simp at h
      | some j =>
        rw [hs] at h
        simp only [Option.map_some', Option.some.injEq] at h
        subst h
        simpa using ih j hs

theorem set_nul_set_slash (l : List Char) (k : Nat) (h : l[k]? = some '/') :
    (l.set k NUL).set k '/' = l := by
  rw [List.set_set]
  apply List.ext_getElem?
  intro i
  by_cases hik : k = i
  · subst hik
    have hlt : k < l.length := by
      by_contra hge
      rw [List.getElem?_eq_none (by omega)] at h
      cases h
    rw [List.getElem?_set_self hlt, h]
  · rw [List.getElem?_set_ne hik]

/-- C14: whatever the text, the buffer that `parse_cidr` leaves equals the
buffer it was given, on success and on each of the six ways to fail: the NUL
written over the first `/` is replaced by a `/` before the function looks at
the result of `inet_pton`. -/
theorem parse_cidr_leaves_buffer (cidr : List Char) : (parse_cidr_buf cidr).2 = cidr := by
  unfold parse_cidr_buf
  by_cases h1 : char_at cidr 0 = NUL ∨ char_at cidr 1 = NUL ∨ char_at cidr 2 = NUL ∨
      char_at cidr 3 = NUL
  · rw [if_pos h1]
  · rw [if_neg h1]
    simp only
    generalize decide (char_at cidr 3 = '.' ∨ char_at cidr 2 = '.' ∨ char_at cidr 1 = '.')
      = v4
    cases hsep : strchr_slash cidr with
    | none => rfl
    | some separator =>
      have hback := set_nul_set_slash cidr separator (strchr_slash_some cidr separator hsep)
      simp only
      by_cases h2 : ¬ isdigit (char_at cidr (separator + 1)) = true
      · rw [if_pos h2]
      · rw [if_neg h2]
        by_cases h3 : (strtoul (List.drop (separator + 1) cidr)).2 = true ∧
            implicit_int_result (strtoul (List.drop (separator + 1) cidr)).1 = 0
        · rw [if_pos h3]
        · rw [if_neg h3]
          by_cases h4 : implicit_int_result (strtoul (List.drop (separator + 1) cidr)).1 >
              (if v4 = true then IPV4_BYTES else IPV6_BYTES) * 8
          · rw [if_pos h4]
          · rw [if_neg h4]
            cases inet_pton (if v4 = true then AF_INET else AF_INET6)
                (cstr_at (cidr.set separator NUL) 0) with
            | none => exact hback
            | some base => exact hback

/-! ## `inc_addr` in both directions -/

theorem inc_addr_loop_run (find replace : Nat) (inc_dec : Int) (m : Nat) :
    ∀ (front : List Nat) (b : Nat) (tail : List Nat) (fuel : Nat),
      b ≠ find → m < fuel → front.length + m < 4294967296 →
      inc_addr_loop find replace inc_dec fuel (front ++ b :: (List.replicate m find ++ tail))
          (front.length + m)
        = .ok (front ++ (((b : Int) + inc_dec) % 256).toNat ::
            (List.replicate m replace ++ tail)) := by
  induction m with
  | zero =>
    intro front b tail fuel hb hf _
    obtain ⟨f, rfl⟩ : ∃ f, fuel = f + 1 := ⟨fuel - 1, by omega⟩
    have hget : (front ++ b :: ([] ++ tail))[front.length]? = some b := by
      rw [List.getElem?_append_right (Nat.le_refl _)]
      simp
    simp only [inc_addr_loop, List.replicate_zero, Nat.add_zero, hget, hb, if_false]
    simp
  | succ m ih =>
    intro front b tail fuel hb hf hlen
    obtain ⟨f, rfl⟩ : ∃ f, fuel = f + 1 := ⟨fuel - 1, by omega⟩
    have hget : (front ++ b :: (List.replicate (m + 1) find ++ tail))[front.length + (m + 1)]?
        = some find := by
      rw [List.getElem?_append_right (by omega)]
      simp only [Nat.add_sub_cancel_left, List.getElem?_cons_succ]
      rw [List.getElem?_append_left (by simp)]
      simp
    have hset : (front ++ b :: (List.replicate (m + 1) find ++ tail)).set
          (front.length + (m + 1)) replace
        = front ++ b :: (List.replicate m find ++ replace :: tail) := by
      rw [List.set_append_right _ _ (by omega)]
      simp only [Nat.add_sub_cancel_left, List.set_cons_succ]
      congr 2
      rw [List.set_append_left _ _ (by simp)]
      have : (List.replicate (m + 1) find).set m replace = List.replicate m find ++ [replace] := by
        rw [List.replicate_succ']
        rw [List.set_append_right _ _ (by simp)]
        simp
      rw [this]; simp
    have hmod : (front.length + (m + 1) + 4294967296 - 1) % 4294967296 = front.length + m := by
      have : front.length + (m + 1) + 4294967296 - 1 = (front.length + m) + 4294967296 := by omega
      rw [this, Nat.add_mod_right]; exact Nat.mod_eq_of_lt (by omega)
    simp only [inc_addr_loop, hget, if_true]
    rw [hset]
    rw [hmod]
    have hih := ih front b (replace :: tail) f hb (by omega) (by omega)
    rw [hih]
    have hrep : List.replicate m replace ++ replace :: tail
        = List.replicate (m + 1) replace ++ tail := by
      rw [List.replicate_succ' m replace]
      simp
    rw [hrep]

theorem exists_run_decomposition (v : Nat) (a : List Nat) (h : ∃ x ∈ a, x ≠ v) :
    ∃ front b m, a = front ++ b :: List.replicate m v ∧ b ≠ v := by
  induction a with
  | nil => obtain ⟨x, hx, _⟩ := h; simp at hx
  | cons x xs ih =>
    by_cases hxs : ∃ y ∈ xs, y ≠ v
    · obtain ⟨front, b, m, heq, hb⟩ := ih hxs
      exact ⟨x :: front, b, m, by rw [heq]; rfl, hb⟩
    · have hall : ∀ y ∈ xs, y = v := by
        intro y hy
        by_contra hne
        exact hxs ⟨y, hy, hne⟩
      have hx : x ≠ v := by
        obtain ⟨y, hy, hne⟩ := h
        rcases List.mem_cons.mp hy with rfl | hy2
        · exact hne
        · exact absurd (hall y hy2) hne
      exact ⟨[], x, xs.length, by rw [List.eq_replicate_of_mem hall]; simp, hx⟩

/-- `inc_addr` with a positive direction on an address whose last byte below
`0xFF` is `b`: that byte becomes `b + 1` and the bytes after it become zero. -/
theorem inc_addr_up (addr_family : Nat) (front : List Nat) (b m : Nat) (up : Int)
    (hf : addr_family = AF_INET ∨ addr_family = AF_INET6)
    (hlen : front.length + 1 + m = family_bytes addr_family)
    (hb : b ≠ 255) (hb2 : b < 256) (hup : 0 < up) :
    inc_addr (front ++ b :: List.replicate m 255) addr_family up
      = .ok (some (front ++ (b + 1) :: List.replicate m 0)) := by
  have hw : family_bytes addr_family ≤ 16 := by
    rcases hf with h | h <;> subst h <;> decide
  have hw2 : (if addr_family = AF_INET then IPV4_BYTES else IPV6_BYTES)
      = family_bytes addr_family := rfl
  have hfam : ¬ (addr_family ≠ AF_INET ∧ addr_family ≠ AF_INET6) := by
    rcases hf with h | h <;> subst h <;> decide
  have hloop := inc_addr_loop_run 255 0 1 m front b [] (family_bytes addr_family + 1) hb
    (by omega) (by omega)
  have hidx : family_bytes addr_family - 1 = front.length + m := by omega
  have hbyte : (((b : Int) + 1) % 256).toNat = b + 1 := by omega
  unfold inc_addr
  simp only [hfam, if_false, hw2, hidx]
  simp only [List.append_nil, hbyte] at hloop
  have h1 : ¬ up = 0 := by omega
  have h2 : up > 0 := hup
  simp only [h1, h2, if_true, if_false, hloop]

/-- `inc_addr` with a negative direction on an address whose last byte above
zero is `b`: that byte becomes `b - 1` and the bytes after it become `0xFF`. -/
theorem inc_addr_down (addr_family : Nat) (front : List Nat) (b m : Nat) (down : Int)
    (hf : addr_family = AF_INET ∨ addr_family = AF_INET6)
    (hlen : front.length + 1 + m = family_bytes addr_family)
    (hb : b ≠ 0) (hb2 : b < 256) (hdown : down < 0) :
    inc_addr (front ++ b :: List.replicate m 0) addr_family down
      = .ok (some (front ++ (b - 1) :: List.replicate m 255)) := by
  have hw : family_bytes addr_family ≤ 16 := by
    rcases hf with h | h <;> subst h <;> decide
  have hw2 : (if addr_family = AF_INET then IPV4_BYTES else IPV6_BYTES)
      = family_bytes addr_family := rfl
  have hfam : ¬ (addr_family ≠ AF_INET ∧ addr_family ≠ AF_INET6) := by
    rcases hf with h | h <;> subst h <;> decide
  have hloop := inc_addr_loop_run 0 255 (-1) m front b [] (family_bytes addr_family + 1) hb
    (by omega) (by omega)
  have hidx : family_bytes addr_family - 1 = front.length + m := by omega
  have hbyte : (((b : Int) + -1) % 256).toNat = b - 1 := by omega
  unfold inc_addr
  simp only [hfam, if_false, hw2, hidx]
  simp only [List.append_nil, hbyte] at hloop
  have h1 : ¬ down = 0 := by omega
  have h2 : ¬ down > 0 := by omega
  simp only [h1, h2, if_false, hloop]

/-- C15: for an address of the width of its family (4 bytes for `AF_INET`, 16
for `AF_INET6`) that is not all-ones, `inc_addr` with a positive direction
succeeds and `inc_addr` with a negative direction on the result succeeds and
gives the address back; for an address that is not all-zeros, a negative
direction followed by a positive one gives the address back. -/
theorem inc_addr_round_trip (addr_family : Nat) (a : List Nat) (up down : Int)
    (hf : addr_family = AF_INET ∨ addr_family = AF_INET6)
    (ha : AddrOK (family_bytes addr_family) a) (hup : 0 < up) (hdown : down < 0) :
    ((∃ x ∈ a, x ≠ 255) →
      ∃ a1, inc_addr a addr_family up = .ok (some a1) ∧
        inc_addr a1 addr_family down = .ok (some a)) ∧
    ((∃ x ∈ a, x ≠ 0) →
      ∃ a1, inc_addr a addr_family down = .ok (some a1) ∧
        inc_addr a1 addr_family up = .ok (some a)) := by
  constructor
  · intro hex
    obtain ⟨front, b, m, heq, hb⟩ := exists_run_decomposition 255 a hex
    have hb2 : b < 256 := ha.2 b (by rw [heq]; simp)
    have hlen : front.length + 1 + m = family_bytes addr_family := by
      have := ha.1
      rw [heq] at this
      simp only [List.length_append, List.length_cons, List.length_replicate] at this
      omega
    refine ⟨front ++ (b + 1) :: List.replicate m 0, ?_, ?_⟩
    · rw [heq]
      exact inc_addr_up addr_family front b m up hf hlen hb hb2 hup
    · rw [heq, inc_addr_down addr_family front (b + 1) m down hf hlen (by omega) (by omega)
        hdown]
      rfl
  · intro hex
    obtain ⟨front, b, m, heq, hb⟩ := exists_run_decomposition 0 a hex
    have hb2 : b < 256 := ha.2 b (by rw [heq]; simp)
    have hlen : front.length + 1 + m = family_bytes addr_family := by
      have := ha.1
      rw [heq] at this
      simp only [List.length_append, List.length_cons, List.length_replicate] at this
      omega
    refine ⟨front ++ (b - 1) :: List.replicate m 255, ?_, ?_⟩
    · rw [heq]
      exact inc_addr_down addr_family front b m down hf hlen hb hb2 hdown
    · rw [heq, inc_addr_up addr_family front (b - 1) m up hf hlen (by omega) (by omega) hup]
      have : b - 1 + 1 = b := by omega
      rw [this]

/-- The address `10.0.0.255` goes to `10.0.1.0` and back, and to `10.0.0.254`
and back. -/
theorem inc_addr_round_trip_witness :
    (∃ a1, inc_addr [10, 0, 0, 255] AF_INET 1 = .ok (some a1) ∧
        inc_addr a1 AF_INET (-1) = .ok (some [10, 0, 0, 255])) ∧
    (∃ a1, inc_addr [10, 0, 0, 255] AF_INET (-1) = .ok (some a1) ∧
        inc_addr a1 AF_INET 1 = .ok (some [10, 0, 0, 255])) :=
  ⟨(inc_addr_round_trip AF_INET [10, 0, 0, 255] 1 (-1) (Or.inl rfl)
      ⟨rfl, by decide⟩ (by decide) (by decide)).1 ⟨10, by decide, by decide⟩,
   (inc_addr_round_trip AF_INET [10, 0, 0, 255] 1 (-1) (Or.inl rfl)
      ⟨rfl, by decide⟩ (by decide) (by decide)).2 ⟨10, by decide, by decide⟩⟩

/-- C16 does not hold of the code at the two boundaries: on the all-ones
address with a positive direction, and on the all-zeros address with a
negative direction, `inc_addr` does not return.  The loop variable `i` is
`unsigned`, so `i >= 0` always holds; after byte `0` it becomes `4294967295`
and the loop reads `addr[4294967295]`, outside the address. -/
theorem inc_addr_boundary_out_of_bounds :
    inc_addr [255, 255, 255, 255] AF_INET 1 = .error (.out_of_bounds 4294967295) ∧
    inc_addr [0, 0, 0, 0] AF_INET (-1) = .error (.out_of_bounds 4294967295) ∧
    inc_addr (List.replicate 16 255) AF_INET6 1 = .error (.out_of_bounds 4294967295) ∧
    inc_addr (List.replicate 16 0) AF_INET6 (-1) = .error (.out_of_bounds 4294967295) ∧
    inc_addr [255, 255, 255, 254] AF_INET 1 = .ok (some [255, 255, 255, 255]) := by
  decide

/-! ## `ranges_contiguous` -/

theorem memcmp_swap (a : List Nat) :
    ∀ (b : List Nat) (n : Nat), memcmp b a n = - memcmp a b n := by
  induction a with
  | nil =>
    intro b n
    cases b <;> cases n <;> simp [memcmp]
  | cons x xs ih =>
    intro b n
    cases b with
    | nil => cases n <;> simp [memcmp]
    | cons y ys =>
      cases n with
      | zero => simp [memcmp]
      | succ n =>
        simp only [memcmp]
        by_cases hxy : x = y
        · subst hxy
          simp only [if_true]
          exact ih ys n
        · have hyx : ¬ y = x := fun h => hxy h.symm
          rw [if_neg hxy, if_neg hyx]
          omega

theorem compare_addrs_swap (a b : List Nat) (addr_family : Nat) :
    compare_addrs b a addr_family = - compare_addrs a b addr_family := by
  unfold compare_addrs
  exact memcmp_swap a b _

/-- C17: `ranges_contiguous` gives the same result for the two orders of its
arguments, for any two ranges (of the same family or not; a run that leaves
the address in one order leaves it in the other order as well). -/
theorem ranges_contiguous_symmetric (range1 range2 : AddressRange) :
    ranges_contiguous range1 range2 = ranges_contiguous range2 range1 := by
  unfold ranges_contiguous
  by_cases hfam : range1.addr_family = range2.addr_family
  · have hfam2 : ¬ range2.addr_family ≠ range1.addr_family := fun h => h hfam.symm
    have hfam1 : ¬ range1.addr_family ≠ range2.addr_family := fun h => h hfam
    rw [if_neg hfam1, if_neg hfam2]
    simp only
    rw [← hfam, compare_addrs_swap range1.start range2.start range1.addr_family]
    generalize compare_addrs range1.start range2.start range1.addr_family = c
    by_cases h0 : c = 0
    · have : -c = 0 := by omega
      rw [if_pos h0, if_pos this]
    · have h0n : ¬ -c = 0 := by omega
      rw [if_neg h0, if_neg h0n]
      by_cases hneg : c < 0
      · have hpos : ¬ -c < 0 := by omega
        simp only [hneg, hpos, if_true, if_false]
      · have hpos : -c < 0 := by omega
        simp only [hneg, hpos, if_true, if_false]
  · have hfam2 : range2.addr_family ≠ range1.addr_family := fun h => hfam h.symm
    rw [if_pos hfam, if_pos hfam2]

set_option maxRecDepth 1000000 in
/-- C18 does not hold of the code when the range with the smaller start ends
at the all-ones address: for `0.0.0.0/0` and `10.0.0.0/24`, two ranges of the
same family with different starts, `ranges_contiguous` does not return
`false`; the call of `inc_addr` on the end `255.255.255.255` reads
`end1[4294967295]`, in either order of the arguments. -/
theorem ranges_contiguous_end_all_ones_out_of_bounds :
    parse_cidr "0.0.0.0/0".toList = .ok sample_whole_range ∧
    parse_cidr "10.0.0.0/24".toList = .ok sample_range ∧
    ranges_contiguous sample_whole_range sample_range = .error (.out_of_bounds 4294967295) ∧
    ranges_contiguous sample_range sample_whole_range = .error (.out_of_bounds 4294967295) := by
  decide

/-! ## `set_filtered_countries` -/

theorem forbid_all_spec (n : Nat) :
    ∀ (i : Nat) (countries : List Country), i + n = countries.length →
      ∃ cs, forbid_all n i countries = .ok cs ∧ cs.length = countries.length ∧
        ∀ k, cs[k]? = (countries[k]?).map
          (fun c => if i ≤ k then { c with forbidden := true } else c) := by
  induction n with
  | zero =>
    intro i countries h
    refine ⟨countries, rfl, rfl, ?_⟩
    intro k
    cases hk : countries[k]? with
    | none => rfl
    | some c =>
      have hlt : k < countries.length := (List.getElem?_eq_some.mp hk).1
      have : ¬ i ≤ k := by omega
      simp [this]
  | succ n ih =>
    intro i countries h
    have hi : i < countries.length := by omega
    obtain ⟨cs, hcs, hlen, hget⟩ :=
      ih (i + 1) (countries.set i { countries[i] with forbidden := true })
        (by rw [List.length_set]; omega)
    refine ⟨cs, ?_, by rw [hlen, List.length_set], ?_⟩
    · rw [forbid_all, List.getElem?_eq_getElem hi]
      exact hcs
    · intro k
      rw [hget k]
      by_cases hik : i = k
      · subst hik
        rw [List.getElem?_set_self hi, List.getElem?_eq_getElem hi]
        have : ¬ i + 1 ≤ i := by omega
        simp [this]
      · rw [List.getElem?_set_ne hik]
        cases hk : countries[k]? with
        | none => rfl
        | some c =>
          have hiff : (i + 1 ≤ k) = (i ≤ k) := propext ⟨fun h => by omega, fun h => by omega⟩
          simp only [Option.map_some', hiff]

theorem count_changed_self (cs : List Country) : count_changed cs cs = 0 := by
  induction cs with
  | nil => rfl
  | cons c cs ih => simp [count_changed, ih]

theorem count_changed_set (cs : List Country) :
    ∀ (cs1 : List Country) (k : Nat) (c0 c1 c2 : Country),
      cs[k]? = some c0 → cs1[k]? = some c2 → c0.forbidden ≠ c2.forbidden →
      c1.forbidden = c2.forbidden →
      count_changed cs cs1 = count_changed (cs.set k c1) cs1 + 1 := by
  induction cs with
  | nil => intro cs1 k c0 c1 c2 h; simp at h
  | cons b bs ih =>
    intro cs1 k c0 c1 c2 h h1 hne heq
    cases cs1 with
    | nil => simp at h1
    | cons a as =>
      cases k with
      | zero =>
        simp only [List.getElem?_cons_zero, Option.some.injEq] at h h1
        subst h h1
        simp only [List.set_cons_zero, count_changed]
        have h2 : ¬ c1.forbidden ≠ a.forbidden := fun hh => hh heq
        rw [if_pos hne, if_neg h2]
        omega
      | succ k =>
        simp only [List.getElem?_cons_succ] at h h1
        simp only [List.set_cons_succ, count_changed]
        rw [ih as k c0 c1 c2 h h1 hne heq]
        omega

/-- The loop of `set_filtered_countries` over the listed positions `todo`,
which a `0` ends: a record gets the flag `forbid` when one of the positions is
its entry of the index and keeps its flag otherwise, nothing else changes, and
`processed` grows by the number of flags that changed. -/
theorem filter_loop_spec (lookup : CodeLookup) (forbid : Bool) (rest : List Nat)
    (todo : List Nat) :
    ∀ (done : List Nat) (cs : List Country) (processed fuel : Nat),
      (∀ p ∈ todo, p ≠ 0 ∧ p < MAX_COUNTRIES) →
      (∀ p k, lookup p = some k → k < cs.length) →
      todo.length < fuel →
      ∃ cs1, filter_loop lookup (done ++ todo ++ 0 :: rest) forbid fuel done.length cs processed
          = .ok (cs1, processed + count_changed cs cs1) ∧
        cs1.length = cs.length ∧
        ∀ k c, cs[k]? = some c →
          ∃ c1, cs1[k]? = some c1 ∧ c1.geoname_id = c.geoname_id ∧
            c1.country_code = c.country_code ∧
            ((∃ p ∈ todo, lookup p = some k) → c1.forbidden = forbid) ∧
            ((∀ p ∈ todo, lookup p ≠ some k) → c1.forbidden = c.forbidden) := by
  induction todo with
  | nil =>
    intro done cs processed fuel _ _ hfuel
    obtain ⟨f, rfl⟩ : ∃ f, fuel = f + 1 := ⟨fuel - 1, by omega⟩
    have hget : (done ++ [] ++ 0 :: rest)[done.length]? = some 0 := by
      rw [List.append_nil, List.getElem?_append_right (Nat.le_refl _)]
      simp
    refine ⟨cs, ?_, rfl, ?_⟩
    · rw [filter_loop, hget]
      simp [count_changed_self]
    · intro k c hk
      exact ⟨c, hk, rfl, rfl, fun ⟨p, hp, _⟩ => by simp at hp, fun _ => rfl⟩
  | cons p todo ih =>
    intro done cs processed fuel hlisted hidx hfuel
    obtain ⟨f, rfl⟩ : ∃ f, fuel = f + 1 := ⟨fuel - 1, by simp at hfuel; omega⟩
    simp only [List.length_cons] at hfuel
    obtain ⟨hp0, hpmax⟩ := hlisted p (List.mem_cons_self _ _)
    have hlisted1 : ∀ q ∈ todo, q ≠ 0 ∧ q < MAX_COUNTRIES :=
      fun q hq => hlisted q (List.mem_cons_of_mem _ hq)
    have hget : (done ++ p :: todo ++ 0 :: rest)[done.length]? = some p := by
      rw [List.append_assoc, List.getElem?_append_right (Nat.le_refl _)]
      simp
    have hpos : done ++ p :: todo ++ 0 :: rest = (done ++ [p]) ++ todo ++ 0 :: rest := by
      simp
    have hlen1 : done.length + 1 = (done ++ [p]).length := by simp
    have hmax : ¬ p ≥ MAX_COUNTRIES := by omega
    rw [filter_loop, hget]
    simp only [hp0, if_false, hmax]
    rw [hpos, hlen1]
    cases hl : lookup p with
    | none =>
      simp only
      obtain ⟨cs1, hrun, hlen, hrec⟩ := ih (done ++ [p]) cs processed f hlisted1 hidx (by omega)
      refine ⟨cs1, hrun, hlen, ?_⟩
      intro k c hk
      obtain ⟨c1, h1, h2, h3, h4, h5⟩ := hrec k c hk
      refine ⟨c1, h1, h2, h3, ?_, ?_⟩
      · rintro ⟨q, hq, hqk⟩
        rcases List.mem_cons.mp hq with rfl | hq1
        · rw [hl] at hqk; cases hqk
        · exact h4 ⟨q, hq1, hqk⟩
      · intro hall
        exact h5 (fun q hq => hall q (List.mem_cons_of_mem _ hq))
    | some k0 =>
      have hk0 : k0 < cs.length := hidx p k0 hl
      simp only [List.getElem?_eq_getElem hk0]
      by_cases hflag : cs[k0].forbidden ≠ forbid
      · rw [if_pos hflag]
        obtain ⟨cs1, hrun, hlen, hrec⟩ :=
          ih (done ++ [p]) (cs.set k0 { cs[k0] with forbidden := forbid }) (processed + 1) f
            hlisted1 (fun q k hq => by rw [List.length_set]; exact hidx q k hq) (by omega)
        obtain ⟨c2, hc2, _, _, hc2a, hc2b⟩ :=
          hrec k0 { cs[k0] with forbidden := forbid } (List.getElem?_set_self hk0)
        have hc2f : c2.forbidden = forbid := by
          by_cases hex : ∃ q ∈ todo, lookup q = some k0
          · exact hc2a hex
          · exact hc2b (fun q hq hqk => hex ⟨q, hq, hqk⟩)
        have hcount := count_changed_set cs cs1 k0 cs[k0] { cs[k0] with forbidden := forbid } c2
          (List.getElem?_eq_getElem hk0) hc2 (by rw [hc2f]; exact hflag) (by rw [hc2f])
        refine ⟨cs1, ?_, by rw [hlen, List.length_set], ?_⟩
        · rw [hrun, hcount]
          congr 2
          omega
        · intro k c hk
          by_cases hkk : k0 = k
          · subst hkk
            rw [List.getElem?_eq_getElem hk0] at hk
            simp only [Option.some.injEq] at hk
            subst hk
            obtain ⟨c1, h1, h2, h3, h4, h5⟩ :=
              hrec k0 { cs[k0] with forbidden := forbid } (List.getElem?_set_self hk0)
            refine ⟨c1, h1, h2, h3, ?_, ?_⟩
            · intro _
              rw [h1] at hc2
              simp only [Option.some.injEq] at hc2
              rw [hc2]; exact hc2f
            · intro hall
              exact absurd hl (hall p (List.mem_cons_self _ _))
          · have hk1 : (cs.set k0 { cs[k0] with forbidden := forbid })[k]? = some c := by
              rw [List.getElem?_set_ne hkk]; exact hk
            obtain ⟨c1, h1, h2, h3, h4, h5⟩ := hrec k c hk1
            refine ⟨c1, h1, h2, h3, ?_, ?_⟩
            · rintro ⟨q, hq, hqk⟩
              rcases List.mem_cons.mp hq with rfl | hq1
              · rw [hl] at hqk
                simp only [Option.some.injEq] at hqk
                exact absurd hqk hkk
              · exact h4 ⟨q, hq1, hqk⟩
            · intro hall
              exact h5 (fun q hq => hall q (List.mem_cons_of_mem _ hq))
      · rw [if_neg hflag]
        have hflag1 : cs[k0].forbidden = forbid := by
          by_contra h; exact hflag h
        obtain ⟨cs1, hrun, hlen, hrec⟩ := ih (done ++ [p]) cs processed f hlisted1 hidx (by omega)
        refine ⟨cs1, hrun, hlen, ?_⟩
        intro k c hk
        obtain ⟨c1, h1, h2, h3, h4, h5⟩ := hrec k c hk
        refine ⟨c1, h1, h2, h3, ?_, ?_⟩
        · rintro ⟨q, hq, hqk⟩
          rcases List.mem_cons.mp hq with rfl | hq1
          · rw [hl] at hqk
            simp only [Option.some.injEq] at hqk
            subst hqk
            rw [List.getElem?_eq_getElem hk0] at hk
            simp only [Option.some.injEq] at hk
            subst hk
            by_cases hex : ∃ q ∈ todo, lookup q = some k0
            · exact h4 hex
            · rw [h5 (fun q hq hqk => hex ⟨q, hq, hqk⟩)]
              exact hflag1
          · exact h4 ⟨q, hq1, hqk⟩
        · intro hall
          exact h5 (fun q hq => hall q (List.mem_cons_of_mem _ hq))

theorem sample_pair_consistent : LookupConsistent sample_pair_lookup sample_pair := by
  constructor
  · intro k c hk
    match k, hk with
    | 0, hk =>
      simp only [sample_pair, List.getElem?_cons_zero, Option.some.injEq] at hk
      subst hk
      decide
    | 1, hk =>
      simp only [sample_pair, List.getElem?_cons_succ, List.getElem?_cons_zero,
        Option.some.injEq] at hk
      subst hk
      decide
    | k + 2, hk => simp [sample_pair] at hk
  · intro pos k h
    unfold sample_pair_lookup at h
    split at h
    · rename_i hp
      simp only [Option.some.injEq] at h
      subst h hp
      exact ⟨_, rfl, by decide⟩
    · split at h
      · rename_i hp
        simp only [Option.some.injEq] at h
        subst h hp
        exact ⟨_, rfl, by decide⟩
      · cases h

/-- C19: with an index that is consistent with the array and a list of
positions within the index that a `0` ends, `set_filtered_countries` returns
and changes no identifier and no code.  With `forbid` false a record is left
forbidden exactly when the position of its code is not listed; with `forbid`
true a record whose position is listed is left forbidden and every other
record keeps its flag.  Listed positions without a record change nothing. -/
theorem set_filtered_countries_flags (num_countries : Nat) (countries : List Country)
    (lookup : CodeLookup) (listed rest : List Nat) (forbid : Bool)
    (hn : num_countries = countries.length) (hcons : LookupConsistent lookup countries)
    (hlisted : ∀ p ∈ listed, p ≠ 0 ∧ p < MAX_COUNTRIES) :
    ∃ (ret : Option Nat) (cs : List Country),
      set_filtered_countries num_countries countries lookup (listed ++ 0 :: rest) forbid
        = .ok (ret, cs) ∧
      cs.length = countries.length ∧
      ∀ (k : Nat) (c : Country), countries[k]? = some c →
        ∃ c1 : Country, cs[k]? = some c1 ∧ c1.geoname_id = c.geoname_id ∧
          c1.country_code = c.country_code ∧
          (forbid = false →
            (c1.forbidden = true ↔ country_code_pos c.country_code ∉ listed)) ∧
          (forbid = true →
            (country_code_pos c.country_code ∈ listed → c1.forbidden = true) ∧
            (country_code_pos c.country_code ∉ listed → c1.forbidden = c.forbidden)) := by
  have hidx : ∀ p k, lookup p = some k → k < countries.length := by
    intro p k h
    obtain ⟨c, hc, _⟩ := hcons.2 p k h
    exact (List.getElem?_eq_some.mp hc).1
  have hlist : ∀ k c, countries[k]? = some c →
      ((∃ p ∈ listed, lookup p = some k) ↔ country_code_pos c.country_code ∈ listed) := by
    intro k c hk
    constructor
    · rintro ⟨p, hp, hpk⟩
      obtain ⟨c2, hc2, hpos⟩ := hcons.2 p k hpk
      rw [hk] at hc2
      simp only [Option.some.injEq] at hc2
      subst hc2
      rw [hpos]; exact hp
    · intro hmem
      exact ⟨_, hmem, hcons.1 k c hk⟩
  unfold set_filtered_countries
  by_cases h0 : num_countries = 0
  · rw [if_pos h0]
    have hnil : countries = [] := List.length_eq_zero.mp (by omega)
    subst hnil
    exact ⟨none, [], rfl, rfl, fun k c hk => by simp at hk⟩
  · rw [if_neg h0]
    have hfuel : listed.length < (listed ++ 0 :: rest).length + 1 := by
      simp only [List.length_append, List.length_cons]; omega
    cases forbid with
    | false =>
      obtain ⟨cs0, hcs0, hlen0, hget0⟩ := forbid_all_spec num_countries 0 countries (by omega)
      obtain ⟨cs1, hrun, hlen1, hrec⟩ := filter_loop_spec lookup false rest listed [] cs0 0
        ((listed ++ 0 :: rest).length + 1) hlisted
        (fun p k h => by rw [hlen0]; exact hidx p k h) hfuel
      simp only [List.nil_append, List.length_nil] at hrun
      refine ⟨some (0 + count_changed cs0 cs1), cs1, ?_, by rw [hlen1, hlen0], ?_⟩
      · simp only [Bool.false_eq_true, not_false_eq_true, if_true, hcs0, hrun]
      · intro k c hk
        have hk0 : cs0[k]? = some { c with forbidden := true } := by
          rw [hget0 k, hk]; simp
        obtain ⟨c1, h1, h2, h3, h4, h5⟩ := hrec k _ hk0
        refine ⟨c1, h1, h2, h3, ?_, (fun h => by cases h)⟩
        intro _
        constructor
        · intro ht hmem
          have := h4 ((hlist k c hk).mpr hmem)
          rw [ht] at this
          cases this
        · intro hnot
          rw [h5 (fun p hp hpk => hnot ((hlist k c hk).mp ⟨p, hp, hpk⟩))]
    | true =>
      obtain ⟨cs1, hrun, hlen1, hrec⟩ := filter_loop_spec lookup true rest listed [] countries 0
        ((listed ++ 0 :: rest).length + 1) hlisted hidx hfuel
      simp only [List.nil_append, List.length_nil] at hrun
      refine ⟨some (0 + count_changed countries cs1), cs1, ?_, hlen1, ?_⟩
      · simp only [not_true_eq_false, if_false, hrun]
      · intro k c hk
        obtain ⟨c1, h1, h2, h3, h4, h5⟩ := hrec k c hk
        refine ⟨c1, h1, h2, h3, (fun h => by cases h), fun _ => ⟨?_, ?_⟩⟩
        · intro hmem
          exact h4 ((hlist k c hk).mpr hmem)
        · intro hnot
          exact h5 (fun p hp hpk => hnot ((hlist k c hk).mp ⟨p, hp, hpk⟩))

/-- With `PT` listed and `forbid` false, `PT` is left allowed and `ES`
forbidden. -/
theorem set_filtered_countries_flags_witness :
    ∃ (ret : Option Nat) (cs : List Country),
      set_filtered_countries 2 sample_pair sample_pair_lookup ([21584] ++ 0 :: []) false
        = .ok (ret, cs) ∧
      cs.length = sample_pair.length ∧
      ∀ (k : Nat) (c : Country), sample_pair[k]? = some c →
        ∃ c1 : Country, cs[k]? = some c1 ∧ c1.geoname_id = c.geoname_id ∧
          c1.country_code = c.country_code ∧
          (false = false →
            (c1.forbidden = true ↔ country_code_pos c.country_code ∉ [21584])) ∧
          (false = true →
            (country_code_pos c.country_code ∈ [21584] → c1.forbidden = true) ∧
            (country_code_pos c.country_code ∉ [21584] → c1.forbidden = c.forbidden)) :=
  set_filtered_countries_flags 2 sample_pair sample_pair_lookup [21584] [] false rfl
    sample_pair_consistent (by decide)

theorem count_changed_all_forbidden (cs0 : List Country) :
    ∀ (cs : List Country), cs0.length = cs.length →
      (∀ c ∈ cs0, c.forbidden = true) → count_changed cs0 cs = count_allowed cs := by
  induction cs0 with
  | nil =>
    intro cs hlen _
    have : cs = [] := List.length_eq_zero.mp (by simpa using hlen.symm)
    subst this
    rfl
  | cons b bs ih =>
    intro cs hlen hall
    cases cs with
    | nil => simp at hlen
    | cons a as =>
      have hb : b.forbidden = true := hall b (List.mem_cons_self _ _)
      have hrec := ih as (by simpa using hlen) (fun c hc => hall c (List.mem_cons_of_mem _ hc))
      unfold count_allowed at hrec ⊢
      simp only [count_changed, hrec, hb, List.countP_cons]
      cases a.forbidden
      · simp; omega
      · simp

set_option maxRecDepth 1000000 in
/-- C20 as stated fails with `forbid` false: on two allowed records and an
empty list the function returns `0` while both flags change; with both
records listed it returns `2` while no flag differs from before the call.  On
an empty registry the function returns without a value. -/
theorem set_filtered_countries_count_is_not_changed_flags :
    (set_filtered_countries 2 sample_pair sample_pair_lookup [0] false).map
        (fun r => (r.1, count_changed sample_pair r.2)) = .ok (some 0, 2) ∧
    (set_filtered_countries 2 sample_pair sample_pair_lookup [21584, 21317, 0] false).map
        (fun r => (r.1, count_changed sample_pair r.2)) = .ok (some 2, 0) ∧
    set_filtered_countries 0 [] init_country_code_lookup [0] true = .ok (none, []) := by
  decide

/-- C20, amended: on a registry that is not empty, with an index whose
entries are records of the array and a list of positions within the index
that a `0` ends, `set_filtered_countries` returns a value: with `forbid` true
the number of records whose flag differs from its value before the call, and
with `forbid` false the number of records that the call leaves allowed,
whatever their flags were before. -/
theorem set_filtered_countries_returns (num_countries : Nat) (countries : List Country)
    (lookup : CodeLookup) (listed rest : List Nat) (forbid : Bool)
    (hn : num_countries = countries.length) (hpos : num_countries ≠ 0)
    (hidx : ∀ p k, lookup p = some k → k < countries.length)
    (hlisted : ∀ p ∈ listed, p ≠ 0 ∧ p < MAX_COUNTRIES) :
    ∃ (ret : Nat) (cs : List Country),
      set_filtered_countries num_countries countries lookup (listed ++ 0 :: rest) forbid
        = .ok (some ret, cs) ∧
      (forbid = true → ret = count_changed countries cs) ∧
      (forbid = false → ret = count_allowed cs) := by
  unfold set_filtered_countries
  rw [if_neg hpos]
  have hfuel : listed.length < (listed ++ 0 :: rest).length + 1 := by
    simp only [List.length_append, List.length_cons]; omega
  cases forbid with
  | false =>
    obtain ⟨cs0, hcs0, hlen0, hget0⟩ := forbid_all_spec num_countries 0 countries (by omega)
    obtain ⟨cs1, hrun, hlen1, _⟩ := filter_loop_spec lookup false rest listed [] cs0 0
      ((listed ++ 0 :: rest).length + 1) hlisted
      (fun p k h => by rw [hlen0]; exact hidx p k h) hfuel
    simp only [List.nil_append, List.length_nil] at hrun
    have hall : ∀ c ∈ cs0, c.forbidden = true := by
      intro c hc
      obtain ⟨k, hk, rfl⟩ := List.getElem_of_mem hc
      have h1 := hget0 k
      rw [List.getElem?_eq_getElem hk] at h1
      cases hck : countries[k]? with
      | none => rw [hck] at h1; cases h1
      | some c0 =>
        rw [hck] at h1
        simp only [Nat.zero_le, if_true, Option.map_some', Option.some.injEq] at h1
        rw [h1]
    refine ⟨0 + count_changed cs0 cs1, cs1, ?_, (fun h => by cases h), fun _ => ?_⟩
    · simp only [Bool.false_eq_true, not_false_eq_true, if_true, hcs0, hrun]
    · rw [Nat.zero_add]
      exact count_changed_all_forbidden cs0 cs1 hlen1.symm hall
  | true =>
    obtain ⟨cs1, hrun, hlen1, _⟩ := filter_loop_spec lookup true rest listed [] countries 0
      ((listed ++ 0 :: rest).length + 1) hlisted hidx hfuel
    simp only [List.nil_append, List.length_nil] at hrun
    refine ⟨0 + count_changed countries cs1, cs1, ?_, (fun _ => by rw [Nat.zero_add]),
      (fun h => by cases h)⟩
    simp only [not_true_eq_false, if_false, hrun]

/-- With `ES` listed and `forbid` true, one flag changes and `1` is returned. -/
theorem set_filtered_countries_returns_witness :
    ∃ (ret : Nat) (cs : List Country),
      set_filtered_countries 2 sample_pair sample_pair_lookup ([21317] ++ 0 :: []) true
        = .ok (some ret, cs) ∧
      (true = true → ret = count_changed sample_pair cs) ∧
      (true = false → ret = count_allowed cs) :=
  set_filtered_countries_returns 2 sample_pair sample_pair_lookup [21317] [] true rfl
    (by decide)
    (fun p k h => by
      obtain ⟨c, hc, _⟩ := sample_pair_consistent.2 p k h
      exact (List.getElem?_eq_some.mp hc).1)
    (by decide)

/-! ## `country_code_pos` -/

theorem toupper_letter (c : Char) (h : is_letter c) :
    65 ≤ toupper c.toNat ∧ toupper c.toNat ≤ 90 := by
  unfold toupper
  rcases h with h | h
  · rw [if_neg (by omega)]; exact h
  · rw [if_pos h]; omega

/-- C21: for any two codes of exactly two ASCII letters, the keys that
`country_code_pos` gives are equal exactly when the uppercased codes are
equal, and the key of such a code is not zero. -/
theorem country_code_pos_injective_on_letters (c0 c1 d0 d1 : Char)
    (hc0 : is_letter c0) (hc1 : is_letter c1) (hd0 : is_letter d0) (hd1 : is_letter d1) :
    (country_code_pos [c0, c1] = country_code_pos [d0, d1] ↔
      upper_code [c0, c1] = upper_code [d0, d1]) ∧
    country_code_pos [c0, c1] ≠ 0 := by
  have h0 := toupper_letter c0 hc0
  have h1 := toupper_letter c1 hc1
  have h2 := toupper_letter d0 hd0
  have h3 := toupper_letter d1 hd1
  simp only [country_code_pos, upper_code, List.map_cons, List.map_nil, List.cons.injEq,
    and_true]
  constructor
  · constructor
    · intro h; constructor <;> omega
    · rintro ⟨ha, hb⟩; omega
  · omega

/-- The codes `pt` and `PT` have the same key, which is not zero. -/
theorem country_code_pos_injective_on_letters_witness :
    (country_code_pos ['p', 't'] = country_code_pos ['P', 'T'] ↔
      upper_code ['p', 't'] = upper_code ['P', 'T']) ∧
    country_code_pos ['p', 't'] ≠ 0 :=
  country_code_pos_injective_on_letters 'p' 't' 'P' 'T' (by decide) (by decide) (by decide)
    (by decide)

/-- C22 as stated fails: `AB` precedes `BA`, but the key of `AB` (16961) is
larger than the key of `BA` (16706): the first character is the low byte of
the key. -/
theorem country_code_pos_not_order_preserving :
    code_precedes ['A', 'B'] ['B', 'A'] ∧
    country_code_pos ['A', 'B'] = 16961 ∧ country_code_pos ['B', 'A'] = 16706 ∧
    ¬ country_code_pos ['A', 'B'] < country_code_pos ['B', 'A'] := by
  decide

/-- C22, amended: for any two codes of two characters, the key of the first
is smaller than the key of the second exactly when the first precedes the
second with the two characters taken in reverse order: the uppercased second
characters are compared first, the first characters break the tie. -/
theorem country_code_pos_orders_by_second_character (c0 c1 d0 d1 : Char) :
    country_code_pos [c0, c1] < country_code_pos [d0, d1] ↔
      code_precedes [c1, c0] [d1, d0] := by
  have h0 : toupper c0.toNat % 256 < 256 := Nat.mod_lt _ (by omega)
  have h2 : toupper d0.toNat % 256 < 256 := Nat.mod_lt _ (by omega)
  simp only [country_code_pos, code_precedes, upper_code, List.map_cons, List.map_nil]
  generalize toupper c0.toNat % 256 = a0 at *
  generalize toupper c1.toNat % 256 = a1 at *
  generalize toupper d0.toNat % 256 = b0 at *
  generalize toupper d1.toNat % 256 = b1 at *
  constructor
  · intro h
    by_cases h1 : a1 = b1
    · rw [h1]
      exact List.Lex.cons (List.Lex.rel (by omega))
    · exact List.Lex.rel (by omega)
  · intro h
    cases h with
    | rel h => omega
    | cons h =>
      cases h with
      | rel h => omega
      | cons h => cases h

/-! ## `compare_addrs` over the width of the family -/

theorem memcmp_take (a : List Nat) :
    ∀ (b : List Nat) (n : Nat), memcmp a b n = memcmp (a.take n) (b.take n) n := by
  induction a with
  | nil =>
    intro b n
    cases n <;> simp [memcmp]
  | cons x xs ih =>
    intro b n
    cases b with
    | nil => cases n <;> simp [memcmp]
    | cons y ys =>
      cases n with
      | zero => simp [memcmp]
      | succ n =>
        simp only [List.take_succ_cons, memcmp]
        rw [ih ys n]

theorem take_addr_ok (a : List Nat) (w : Nat) (hlen : w ≤ a.length)
    (hb : ∀ x ∈ a.take w, x < 256) : AddrOK w (a.take w) :=
  ⟨by rw [List.length_take]; omega, hb⟩

/-- C26: with `w` the width that `compare_addrs` uses (16 for `AF_INET6`, 4 for
every other family) and two arrays that hold at least `w` bytes, the result is
negative, zero or positive exactly as the big-endian integer of the first `w`
bytes of the first array is smaller than, equal to or greater than that of the
second; bytes beyond the first `w` do not change the result. -/
theorem compare_addrs_sign (a b : List Nat) (addr_family w : Nat)
    (hw : w = if addr_family = AF_INET6 then 16 else 4)
    (ha : w ≤ a.length) (hb : w ≤ b.length)
    (hba : ∀ x ∈ a.take w, x < 256) (hbb : ∀ x ∈ b.take w, x < 256) :
    (compare_addrs a b addr_family < 0 ↔ addr_val (a.take w) < addr_val (b.take w)) ∧
    (compare_addrs a b addr_family = 0 ↔ addr_val (a.take w) = addr_val (b.take w)) ∧
    (compare_addrs a b addr_family > 0 ↔ addr_val (a.take w) > addr_val (b.take w)) ∧
    (∀ x y : List Nat, compare_addrs (a.take w ++ x) (b.take w ++ y) addr_family
      = compare_addrs a b addr_family) := by
  have hA := take_addr_ok a w ha hba
  have hB := take_addr_ok b w hb hbb
  have hwidth : (if addr_family = AF_INET6 then IPV6_BYTES else IPV4_BYTES) = w := by
    rw [hw]; rfl
  have hcmp : compare_addrs a b addr_family = memcmp (a.take w) (b.take w) w := by
    unfold compare_addrs
    simp only [hwidth]
    exact memcmp_take a b w
  have hneg := memcmp_neg_iff (a.take w) (b.take w) w hA hB
  have hzero := memcmp_eq_zero_iff (a.take w) (b.take w) w hA.1 hB.1
  have hpos : memcmp (a.take w) (b.take w) w > 0 ↔ addr_val (b.take w) < addr_val (a.take w) := by
    rw [← memcmp_neg_iff (b.take w) (a.take w) w hB hA, memcmp_swap (a.take w) (b.take w) w]
    constructor <;> intro h <;> omega
  refine ⟨by rw [hcmp]; exact hneg, ?_, by rw [hcmp]; exact hpos, ?_⟩
  · rw [hcmp, hzero]
    exact ⟨fun h => by rw [h], addr_val_inj w _ _ hA hB⟩
  · intro x y
    rw [hcmp]
    unfold compare_addrs
    simp only [hwidth]
    rw [memcmp_take (a.take w ++ x) (b.take w ++ y) w,
      List.take_append_of_le_length (by rw [List.length_take]; omega),
      List.take_append_of_le_length (by rw [List.length_take]; omega),
      List.take_take, List.take_take, Nat.min_self]

/-- The addresses `10.0.0.255` and `10.0.1.0`, each followed by bytes that do
not belong to it, compare as 167772415 and 167772416. -/
theorem compare_addrs_sign_witness :
    (compare_addrs [10, 0, 0, 255, 7] [10, 0, 1, 0, 3] AF_INET < 0 ↔
      addr_val ([10, 0, 0, 255, 7].take 4) < addr_val ([10, 0, 1, 0, 3].take 4)) ∧
    (compare_addrs [10, 0, 0, 255, 7] [10, 0, 1, 0, 3] AF_INET = 0 ↔
      addr_val ([10, 0, 0, 255, 7].take 4) = addr_val ([10, 0, 1, 0, 3].take 4)) ∧
    (compare_addrs [10, 0, 0, 255, 7] [10, 0, 1, 0, 3] AF_INET > 0 ↔
      addr_val ([10, 0, 0, 255, 7].take 4) > addr_val ([10, 0, 1, 0, 3].take 4)) ∧
    (∀ x y : List Nat,
      compare_addrs ([10, 0, 0, 255, 7].take 4 ++ x) ([10, 0, 1, 0, 3].take 4 ++ y) AF_INET
        = compare_addrs [10, 0, 0, 255, 7] [10, 0, 1, 0, 3] AF_INET) :=
  compare_addrs_sign [10, 0, 0, 255, 7] [10, 0, 1, 0, 3] AF_INET 4 (by decide) (by decide)
    (by decide) (by decide) (by decide)

/-! ## The size of a range that `parse_cidr` computes -/

theorem partial_mask_value : ∀ r, r < 8 → r ≠ 0 → 255 * 2 ^ (8 - r) % 256 = 256 - 2 ^ (8 - r) := by
  decide

/-- Byte `i` of the mask has its `min 8 (p - 8 * i)` high bits set. -/
theorem cidr_mask_byte (w p i : Nat) (hi : i < w) :
    (cidr_mask w p).getD i 0 = 256 - 2 ^ (8 - min 8 (p - 8 * i)) := by
  rw [cidr_mask_getD w p i hi]
  by_cases h1 : i < p / 8
  · rw [if_pos h1]
    have : min 8 (p - 8 * i) = 8 := by omega
    rw [this]
    rfl
  · rw [if_neg h1]
    by_cases h2 : i = p / 8 ∧ p % 8 ≠ 0
    · rw [if_pos h2, partial_mask_value _ (Nat.mod_lt _ (by omega)) h2.2]
      have : min 8 (p - 8 * i) = p % 8 := by omega
      rw [this]
    · rw [if_neg h2]
      have : min 8 (p - 8 * i) = 0 := by omega
      rw [this]
      rfl

set_option maxRecDepth 100000 in
theorem masked_byte : ∀ k, k ≤ 8 → ∀ x, x < 256 →
    x ≤ ((x &&& (256 - 2 ^ (8 - k))) ||| (255 - (256 - 2 ^ (8 - k)))) % 256 ∧
    ((x &&& (256 - 2 ^ (8 - k))) ||| (255 - (256 - 2 ^ (8 - k)))) % 256
      = (x &&& (256 - 2 ^ (8 - k))) + (2 ^ (8 - k) - 1) := by
  decide

theorem addr_val_map_add (l : List Nat) (f g : Nat → Nat) :
    addr_val (l.map (fun i => f i + g i)) = addr_val (l.map f) + addr_val (l.map g) := by
  induction l with
  | nil => rfl
  | cons x xs ih =>
    simp only [List.map_cons, addr_val, List.length_map, ih]
    ring

theorem pow_256 (w : Nat) : 256 ^ w = 2 ^ (8 * w) := by
  rw [pow_mul]
  norm_num

/-- The complement of a mask of `p` set high bits over `w` bytes is the
number `2 ^ (8 * w - p) - 1`. -/
theorem addr_val_complement (w : Nat) :
    ∀ p, p ≤ 8 * w →
      addr_val ((List.range w).map (fun i => 2 ^ (8 - min 8 (p - 8 * i)) - 1)) + 1
        = 2 ^ (8 * w - p) := by
  induction w with
  | zero =>
    intro p hp
    have : p = 0 := by omega
    subst this
    rfl
  | succ w ih =>
    intro p hp
    rw [List.range_succ_eq_map]
    simp only [List.map_cons, List.map_map, addr_val, List.length_map, List.length_range]
    have hfun : ((fun i => 2 ^ (8 - min 8 (p - 8 * i)) - 1) ∘ Nat.succ)
        = fun i => 2 ^ (8 - min 8 ((p - 8) - 8 * i)) - 1 := by
      funext i
      simp only [Function.comp, Nat.succ_eq_add_one]
      have : p - 8 * (i + 1) = p - 8 - 8 * i := by omega
      rw [this]
    rw [hfun]
    have hrec := ih (p - 8) (by omega)
    have h256 := pow_256 w
    by_cases h8 : 8 ≤ p
    · have hk : min 8 (p - 8 * 0) = 8 := by omega
      have he : 8 * (w + 1) - p = 8 * w - (p - 8) := by omega
      rw [hk, he, ← hrec]
      simp
    · have hk : min 8 (p - 8 * 0) = p := by omega
      have hp0 : p - 8 = 0 := by omega
      rw [hp0] at hrec
      simp only [Nat.sub_zero] at hrec
      have he : 8 * (w + 1) - p = (8 - p) + 8 * w := by omega
      rw [hk, he, pow_add, h256]
      have hpos : 0 < 2 ^ (8 - p) := Nat.pow_pos (by omega)
      have hpos2 : 0 < 2 ^ (8 * w) := Nat.pow_pos (by omega)
      rw [hp0]
      have hmul : (2 ^ (8 - p) - 1) * 2 ^ (8 * w) + 2 ^ (8 * w) = 2 ^ (8 - p) * 2 ^ (8 * w) := by
        obtain ⟨t, ht⟩ : ∃ t, 2 ^ (8 - p) = t + 1 := ⟨2 ^ (8 - p) - 1, by omega⟩
        rw [ht]
        simp only [Nat.add_sub_cancel]
        ring
      omega

theorem map_getD_range (l : List Nat) (w : Nat) (h : l.length = w) :
    (List.range w).map (fun i => l.getD i 0) = l := by
  apply List.ext_getElem
  · simp [h]
  · intro i h1 h2
    simp only [List.getElem_map, List.getElem_range]
    rw [List.getD_eq_getElem?_getD, List.getElem?_eq_getElem (by omega)]
    rfl

theorem compare_addrs_le_iff (addr_family : Nat) (a b : List Nat)
    (ha : AddrOK (family_bytes addr_family) a) (hb : AddrOK (family_bytes addr_family) b)
    (hf : addr_family = AF_INET ∨ addr_family = AF_INET6) :
    compare_addrs a b addr_family ≤ 0 ↔ addr_val a ≤ addr_val b := by
  have h1 := compare_addrs_neg_iff addr_family a b ha hb hf
  have h2 := compare_addrs_eq_zero_iff addr_family a b ha hb hf
  constructor
  · intro h
    by_cases h0 : compare_addrs a b addr_family = 0
    · exact Nat.le_of_eq (h2.mp h0)
    · exact Nat.le_of_lt (h1.mp (by omega))
  · intro h
    rcases Nat.lt_or_eq_of_le h with h | h
    · exact Int.le_of_lt (h1.mpr h)
    · exact Int.le_of_eq (h2.mpr h)

/-- C27: a range that `parse_cidr` returns has, under `compare_addrs`, its
start not after its base and its base not after its end; its mask has its
`prefix_length` high bits set and every other bit clear; and as big-endian
integers `end - start + 1 = 2 ^ (8 * width - prefix_length)`. -/
theorem parse_cidr_range_invariant (cidr : List Char) (r : AddressRange)
    (h : parse_cidr cidr = .ok r) :
    compare_addrs r.start r.base r.addr_family ≤ 0 ∧
    compare_addrs r.base r.end_ r.addr_family ≤ 0 ∧
    MaskHasHighBits r.mask r.addr_bytes r.prefix_length ∧
    addr_val r.end_ - addr_val r.start + 1 = 2 ^ (8 * r.addr_bytes - r.prefix_length) := by
  obtain ⟨v4, p, hfam, hbytes, hp, hpl, hmask, hstart, hend⟩ := parse_cidr_shape cidr r h
  obtain ⟨hf, _, hwf, hS, hE, _⟩ := parse_cidr_range_ok cidr r h
  obtain ⟨src, hsrc⟩ := parse_cidr_base cidr r h
  have hB := (inet_pton_ok _ _ _ hsrc).2
  have hw : r.addr_bytes ≤ 16 := by
    rw [hbytes]; cases v4 <;> decide
  have hpp : r.prefix_length = p := by
    rw [hpl]; exact Nat.mod_eq_of_lt (by omega)
  have hmbyte : ∀ i, i < r.addr_bytes →
      r.mask.getD i 0 = 256 - 2 ^ (8 - min 8 (p - 8 * i)) := by
    intro i hi
    rw [hmask]
    exact cidr_mask_byte _ _ _ hi
  have hbbyte : ∀ i, r.base.getD i 0 < 256 := by
    intro i
    rw [List.getD_eq_getElem?_getD]
    cases hg : r.base[i]? with
    | none => simp
    | some x =>
      simp only [Option.getD_some]
      exact hB.2 x (List.getElem?_mem hg)
  have hbase : r.base = (List.range r.addr_bytes).map (fun i => r.base.getD i 0) :=
    (map_getD_range r.base r.addr_bytes (by rw [hB.1, hwf])).symm
  have hstart1 : r.start = (List.range r.addr_bytes).map
      (fun i => r.base.getD i 0 &&& (256 - 2 ^ (8 - min 8 (p - 8 * i)))) := by
    rw [hstart]
    apply List.map_congr_left
    intro i hi
    rw [hmbyte i (List.mem_range.mp hi)]
  have hsbyte : ∀ i, i < r.addr_bytes →
      r.start.getD i 0 = r.base.getD i 0 &&& (256 - 2 ^ (8 - min 8 (p - 8 * i))) := by
    intro i hi
    conv_lhs => rw [hstart1]
    rw [getD_map_range _ _ _ _ hi]
  have hend1 : r.end_ = (List.range r.addr_bytes).map
      (fun i => (r.base.getD i 0 &&& (256 - 2 ^ (8 - min 8 (p - 8 * i)))) +
        (2 ^ (8 - min 8 (p - 8 * i)) - 1)) := by
    rw [hend]
    apply List.map_congr_left
    intro i hi
    have hi1 := List.mem_range.mp hi
    rw [hsbyte i hi1, hmbyte i hi1]
    exact (masked_byte _ (Nat.min_le_left _ _) _ (hbbyte i)).2
  have hle1 : addr_val r.start ≤ addr_val r.base := by
    rw [hstart1]
    conv_rhs => rw [hbase]
    exact addr_val_map_le _ _ _ (fun i _ => Nat.and_le_left)
  have hle2 : addr_val r.base ≤ addr_val r.end_ := by
    rw [hend1]
    conv_lhs => rw [hbase]
    apply addr_val_map_le
    intro i _
    have hm := masked_byte _ (Nat.min_le_left 8 (p - 8 * i)) _ (hbbyte i)
    rw [hm.2] at hm
    exact hm.1
  have hsize : addr_val r.end_ + 1 = addr_val r.start + 2 ^ (8 * r.addr_bytes - p) := by
    rw [hend1, addr_val_map_add, ← hstart1, ← addr_val_complement r.addr_bytes p (by omega)]
    omega
  refine ⟨?_, ?_, ?_, ?_⟩
  · exact (compare_addrs_le_iff _ _ _ hS hB hf).mpr hle1
  · exact (compare_addrs_le_iff _ _ _ hB hE hf).mpr hle2
  · rw [hmask, hpp]
    exact cidr_mask_high_bits _ _
  · rw [hpp]
    omega

set_option maxRecDepth 1000000 in
/-- The range of `10.0.0.0/24` holds `2 ^ 8` addresses. -/
theorem parse_cidr_range_invariant_witness :
    parse_cidr "10.0.0.0/24".toList = .ok sample_range ∧
    compare_addrs sample_range.start sample_range.base sample_range.addr_family ≤ 0 ∧
    compare_addrs sample_range.base sample_range.end_ sample_range.addr_family ≤ 0 ∧
    MaskHasHighBits sample_range.mask sample_range.addr_bytes sample_range.prefix_length ∧
    addr_val sample_range.end_ - addr_val sample_range.start + 1
      = 2 ^ (8 * sample_range.addr_bytes - sample_range.prefix_length) :=
  ⟨by decide, parse_cidr_range_invariant "10.0.0.0/24".toList sample_range (by decide)⟩

/-! ## Identifiers above the sentinels, and a quoted last field -/

set_option maxRecDepth 1000000 in
/-- C28 does not hold of the code: `read_country_file` stores the identifier
`18446744073709551615` (`ULONG_MAX`), which is above the three sentinels; it
is what `strtoul` returns for a number that is too large as well.  The load
succeeds, and after `add_virtual_countries` the identifiers of the array are
`ULONG_MAX`, `ULONG_MAX - 3`, `ULONG_MAX - 2`, `ULONG_MAX - 1`: not
ascending. -/
theorem read_country_file_stores_identifier_above_sentinels :
    (read_country_file
        ["geoname_id,continent_code,country_iso_code\n".toList,
         "18446744073709551615,EU,PT\n".toList]
        init_country_code_lookup).map
      (fun r => (r.num_countries, r.err_msg, r.countries.map Country.geoname_id))
      = .ok (1, none, [18446744073709551615]) ∧
    (read_country_file
        ["geoname_id,continent_code,country_iso_code\n".toList,
         "99999999999999999999999,EU,PT\n".toList]
        init_country_code_lookup).map
      (fun r => (r.num_countries, r.err_msg, r.countries.map Country.geoname_id))
      = .ok (1, none, [18446744073709551615]) ∧
    OTHER_GEONAME_ID < 18446744073709551615 ∧
    ((read_country_file
        ["geoname_id,continent_code,country_iso_code\n".toList,
         "18446744073709551615,EU,PT\n".toList]
        init_country_code_lookup).bind
      (fun r => add_virtual_countries r.num_countries r.countries r.country_code_lookup)).map
      (fun x => (x.2.1.map Country.geoname_id, decide (StrictlyAscending x.2.1)))
      = .ok ([18446744073709551615, 18446744073709551612, 18446744073709551613,
              18446744073709551614], false) := by
  decide

set_option maxRecDepth 1000000 in
/-- C30 does not hold of the code: for the line `a,"b"` followed by a line
feed, the last field that `tokenize_csv` returns is `b"`, with the closing
quote; without the line feed it is `b`.  The closing quote is removed only
when a separator or the end of the string follows it, and the line feed is
stripped afterwards. -/
theorem tokenize_csv_keeps_closing_quote_before_eol :
    (tokenize_csv ['a', ',', CSV_QUOTE, 'b', CSV_QUOTE, CSV_EOL] MAX_COLS).map Tokenized.cols
      = .ok [['a'], ['b', CSV_QUOTE]] ∧
    (tokenize_csv ['a', ',', CSV_QUOTE, 'b', CSV_QUOTE] MAX_COLS).map Tokenized.cols
      = .ok [['a'], ['b']] := by
  decide

/-! ## The cache of `get_country` -/

theorem cache_transparent_initial (arr num_countries : Nat) (countries : List Country)
    (harr : arr ≠ 0) : CacheTransparent CountryCache.initial arr num_countries countries := by
  intro h
  exact absurd h.symm harr

/-- One call of `get_country` with a transparent cache returns what the
lookup without a cache returns and leaves a transparent cache. -/
theorem get_country_step (geoname_id : Nat) (proxy sat : Bool) (num_countries arr : Nat)
    (countries : List Country) (cache : CountryCache)
    (hcache : CacheTransparent cache arr num_countries countries) :
    (∃ f, get_country geoname_id proxy sat num_countries arr countries cache = .error f ∧
        get_country_plain geoname_id proxy sat num_countries countries = .error f) ∨
    (∃ r cache1, get_country geoname_id proxy sat num_countries arr countries cache
          = .ok (r, cache1) ∧
        get_country_plain geoname_id proxy sat num_countries countries = .ok r ∧
        CacheTransparent cache1 arr num_countries countries) := by
  unfold CacheTransparent at hcache ⊢
  unfold get_country get_country_plain
  generalize (num_countries + 4294967296 - 1) % 4294967296 = e at hcache ⊢
  rw [show (if proxy = true then PROXY_GEONAME_ID else if sat = true then SAT_GEONAME_ID
      else if geoname_id = 0 then OTHER_GEONAME_ID else geoname_id)
      = effective_geoname_id geoname_id proxy sat from rfl]
  generalize effective_geoname_id geoname_id proxy sat = id at hcache ⊢
  conv => zeta
  by_cases h0 : num_countries = 0
  · rw [if_pos h0, if_pos h0]
    exact Or.inr ⟨none, cache, rfl, rfl, hcache⟩
  · rw [if_neg h0, if_neg h0]
    by_cases hc : cache.cached_country_arr = arr ∧ id = cache.cached_geoname_id
    · rw [if_pos hc]
      refine Or.inr ⟨cache.cached_country, cache, rfl, ?_, hcache⟩
      rw [hc.2]
      exact hcache hc.1
    · rw [if_neg hc]
      generalize hsearch : get_country_search id countries (num_countries + 1) 0 e = res
      cases res with
      | error f => exact Or.inl ⟨f, rfl, rfl⟩
      | ok r =>
        cases r with
        | none =>
          exact Or.inr ⟨none, ⟨id, arr, none⟩, rfl, rfl, fun _ => hsearch⟩
        | some mid =>
          exact Or.inr ⟨some mid, ⟨id, arr, some mid⟩, rfl, rfl, fun _ => hsearch⟩

/-- C29: for every sequence of calls of `get_country` on the same array and
count, started with a cache that is transparent for that array (as the cache
of a program that has made no call yet is, the array not being at `NULL`), the
records returned are those of the same lookups without a cache, call by call;
where a lookup leaves the array, both do.  A repeated lookup of an identifier
that was not found returns `NULL` again. -/
theorem get_country_cache_transparent (num_countries arr : Nat) (countries : List Country)
    (queries : List CountryQuery) (cache : CountryCache)
    (hcache : CacheTransparent cache arr num_countries countries) :
    (get_country_calls num_countries arr countries queries cache).map Prod.fst
      = get_country_plain_calls num_countries countries queries := by
  induction queries generalizing cache with
  | nil => rfl
  | cons q qs ih =>
    unfold get_country_calls get_country_plain_calls
    rcases get_country_step q.geoname_id q.proxy q.sat num_countries arr countries cache hcache
      with ⟨f, h1, h2⟩ | ⟨r, cache1, h1, h2, h3⟩
    · rw [h1, h2]
      rfl
    · rw [h1, h2]
      have hrec := ih cache1 h3
      simp only
      cases hc : get_country_calls num_countries arr countries qs cache1 with
      | error f =>
        rw [hc] at hrec
        rw [← hrec]
        rfl
      | ok res =>
        rw [hc] at hrec
        rw [← hrec]
        rfl

set_option maxRecDepth 1000000 in
/-- On the two real records of `sample_pair`, the lookups of 9, 9, 7, 7 and 5
from a fresh cache return the records 1, 1, none, none and 0, as the lookups
without a cache do. -/
theorem get_country_cache_transparent_witness :
    (get_country_calls 2 4096 sample_pair
        [⟨9, false, false⟩, ⟨9, false, false⟩, ⟨7, false, false⟩, ⟨7, false, false⟩,
         ⟨5, false, false⟩] CountryCache.initial).map Prod.fst
      = get_country_plain_calls 2 sample_pair
        [⟨9, false, false⟩, ⟨9, false, false⟩, ⟨7, false, false⟩, ⟨7, false, false⟩,
         ⟨5, false, false⟩] ∧
    get_country_plain_calls 2 sample_pair
        [⟨9, false, false⟩, ⟨9, false, false⟩, ⟨7, false, false⟩, ⟨7, false, false⟩,
         ⟨5, false, false⟩] = .ok [some 1, some 1, none, none, some 0] :=
  ⟨get_country_cache_transparent 2 4096 sample_pair _ CountryCache.initial
      (fun h => absurd h (by decide)),
   by decide⟩

/-! ## Rows that stop the run -/

theorem process_range_lines_upto (addr_family num_countries arr : Nat)
    (countries : List Country) (pre rest : List (List Char)) :
    ∀ (line_num : Nat) (st st1 : RangeFileState),
      process_range_upto addr_family num_countries arr countries pre line_num st = some st1 →
      process_range_lines addr_family num_countries arr countries (pre ++ rest) line_num st
        = process_range_lines addr_family num_countries arr countries rest
            (line_num + pre.length) st1 := by
  induction pre with
  | nil =>
    intro line_num st st1 h
    unfold process_range_upto at h
    cases h
    rfl
  | cons line pre ih =>
    intro line_num st st1 h
    have hlen : line_num + (line :: pre).length = line_num + 1 + pre.length := by
      simp only [List.length_cons]; omega
    rw [hlen]
    unfold process_range_upto at h
    rw [List.cons_append]
    conv => lhs; unfold process_range_lines
    by_cases h0 : line.length = 0
    · rw [if_pos h0] at h ⊢
      exact ih _ _ _ h
    · rw [if_neg h0] at h ⊢
      by_cases h255 : line.length = MAX_LINE - 1
      · rw [if_pos h255] at h
        cases h
      · rw [if_neg h255] at h ⊢
        cases htok : tokenize_csv line MAX_COLS with
        | error f =>
          rw [htok] at h
          cases h
        | ok line_data =>
          rw [htok] at h
          simp only at h ⊢
          by_cases h1 : line_num = 1
          · rw [if_pos h1] at h ⊢
            cases hcols : range_header_cols line_data with
            | none =>
              rw [hcols] at h
              cases h
            | some cols =>
              rw [hcols] at h
              exact ih _ _ _ h
          · rw [if_neg h1] at h ⊢
            cases hrow : process_range_row addr_family num_countries arr countries st
                line_data with
            | next st2 =>
              rw [hrow] at h
              exact ih _ _ _ h
            | fatal st2 msg =>
              rw [hrow] at h
              cases h
            | fault f =>
              rw [hrow] at h
              cases h

theorem toupper_byte (n : Nat) (h0 : 0 < n) (h : n < 256) :
    toupper n % 256 ≠ 0 := by
  unfold toupper
  split <;> omega

theorem country_code_pos_ne_zero_iff (code : List Char)
    (hbytes : ∀ c ∈ code, 0 < c.toNat ∧ c.toNat < 256) :
    country_code_pos code ≠ 0 ↔ code.length = 2 := by
  match code, hbytes with
  | [], _ => simp [country_code_pos]
  | [a], _ => simp [country_code_pos]
  | [a, b], hb =>
    have ha := toupper_byte a.toNat (hb a (by simp)).1 (hb a (by simp)).2
    simp only [country_code_pos, List.length_cons, List.length_nil, iff_true]
    omega
  | a :: b :: c :: rest, _ => simp [country_code_pos]

theorem country_row_some (highest g ct cc : Nat) (line : List Char) (r : CountryRow)
    (h : country_row highest g ct cc line = some r) :
    line.length ≠ 0 ∧ line.length ≠ MAX_LINE - 1 ∧
    ∃ line_data, tokenize_csv line MAX_COLS = .ok line_data ∧
      ¬ line_data.tokens.length < highest + 1 ∧
      ∃ gs, line_data.col g = some gs ∧ (strtoul gs).1 = r.geoname_id ∧
        line_data.col ct = some r.continent_code ∧
        line_data.col cc = some r.country_code := by
  unfold country_row at h
  by_cases hl : line.length = 0 ∨ line.length = MAX_LINE - 1
  · rw [if_pos hl] at h
    cases h
  · rw [if_neg hl] at h
    refine ⟨fun h0 => hl (Or.inl h0), fun h0 => hl (Or.inr h0), ?_⟩
    cases htok : tokenize_csv line MAX_COLS with
    | error f =>
      rw [htok] at h
      cases h
    | ok line_data =>
      rw [htok] at h
      simp only at h
      by_cases hn : line_data.tokens.length < highest + 1
      · rw [if_pos hn] at h
        cases h
      · rw [if_neg hn] at h
        refine ⟨line_data, rfl, hn, ?_⟩
        cases hg : line_data.col g with
        | none => rw [hg] at h; cases h
        | some gs =>
          cases hct : line_data.col ct with
          | none => rw [hg, hct] at h; cases h
          | some cts =>
            cases hcc : line_data.col cc with
            | none => rw [hg, hct, hcc] at h; cases h
            | some ccs =>
              rw [hg, hct, hcc] at h
              simp only [Option.some.injEq] at h
              subst h
              exact ⟨gs, rfl, rfl, rfl, rfl⟩

/-- The loop of `read_country_file` over data lines that hold loadable rows
returns, and the records it adds are those of `stored_records`. -/
theorem read_country_lines_rows (highest g ct cc : Nat) :
    ∀ (data_lines : List (List Char)) (rows : List CountryRow) (line_num : Nat)
      (st : CountryFileState) (populated : List Nat),
      data_lines.map (country_row highest g ct cc) = rows.map some →
      2 ≤ line_num → line_num + data_lines.length ≤ MAX_COUNTRIES →
      st.highest_col = some highest → st.geoname_id_col = some g →
      st.continent_code_col = some ct → st.country_code_col = some cc →
      st.last_geoname_id = 0 → st.num_countries = st.countries.length →
      (∀ p, st.country_code_lookup p ≠ none ↔ p ∈ populated) →
      (∀ r ∈ rows, r.loadable) →
      ∃ res, read_country_lines data_lines line_num st = .ok res ∧
        res.countries = st.countries ++ stored_records rows populated ∧
        res.num_countries = res.countries.length ∧
        (res.num_countries ≠ 0 → res.err_msg = none) := by
  intro data_lines
  induction data_lines with
  | nil =>
    intro rows line_num st populated hrows _ _ _ _ _ _ _ hcount _ _
    cases rows with
    | cons r rs => cases hrows
    | nil =>
      refine ⟨read_country_end st false "No usable data in file." line_num, rfl, ?_, ?_, ?_⟩
      · simp [read_country_end, stored_records]
      · simp [read_country_end, hcount]
      · intro h
        simp only [read_country_end] at h ⊢
        simp only [Bool.false_eq_true, if_false] at h ⊢
        rw [if_pos h]
  | cons line rest ih =>
    intro rows line_num st populated hrows hnum hlong hhigh hgcol hctcol hcccol hlast hcount
      hpop hload
    cases rows with
    | nil => cases hrows
    | cons r rs =>
      simp only [List.map_cons, List.cons.injEq] at hrows
      obtain ⟨hrow, hrest⟩ := hrows
      obtain ⟨h0, h255, line_data, htok, hn, gs, hg, hid, hct, hcc⟩ :=
        country_row_some highest g ct cc line r hrow
      obtain ⟨hid0, hres, hmax, hbytes⟩ := hload r (List.mem_cons_self _ _)
      have hload1 : ∀ r1 ∈ rs, r1.loadable := fun r1 h1 => hload r1 (List.mem_cons_of_mem _ h1)
      have hlen : (line :: rest).length = rest.length + 1 := rfl
      rw [hlen] at hlong
      have hlong1 : line_num + 1 + rest.length ≤ MAX_COUNTRIES := by omega
      have hnum1 : 2 ≤ line_num + 1 := by omega
      have hnmax : line_num ≠ MAX_COUNTRIES := by omega
      have hvalid := country_code_pos_ne_zero_iff r.effective_code hbytes
      have hcode : (if r.country_code ≠ [] then some r.country_code
          else (some ct).bind line_data.col) = some r.effective_code := by
        unfold CountryRow.effective_code
        by_cases he : r.country_code = []
        · simp [he, hct]
        · simp [he]
      unfold read_country_lines
      rw [if_neg hnmax, if_neg h0, if_neg h255, htok]
      simp only
      rw [if_neg (by omega), hhigh]
      simp only
      rw [if_neg hn, hgcol, Option.some_bind, hg]
      simp only
      rw [hid, hlast, if_neg (by omega), hres, hcccol, Option.some_bind, hcc, hctcol]
      simp only [Bool.false_eq_true, if_false]
      rw [hcode]
      simp only
      by_cases hp0 : country_code_pos r.effective_code = 0
      · rw [if_pos hp0]
        have hskip : stored_records (r :: rs) populated = stored_records rs populated := by
          conv => lhs; unfold stored_records
          rw [if_neg]
          intro h
          exact (hvalid.mpr h.1) hp0
        rw [hskip]
        exact ih rs (line_num + 1) st populated hrest hnum1 hlong1 hhigh hgcol hctcol hcccol
          hlast hcount hpop hload1
      · rw [if_neg hp0, if_neg (Nat.not_le.mpr hmax)]
        by_cases hfull : st.country_code_lookup (country_code_pos r.effective_code) ≠ none
        · rw [if_pos hfull]
          have hskip : stored_records (r :: rs) populated = stored_records rs populated := by
            conv => lhs; unfold stored_records
            rw [if_neg]
            intro h
            exact h.2 ((hpop _).mp hfull)
          rw [hskip]
          exact ih rs (line_num + 1) st populated hrest hnum1 hlong1 hhigh hgcol hctcol hcccol
            hlast hcount hpop hload1
        · rw [if_neg hfull]
          have hstore : stored_records (r :: rs) populated
              = { geoname_id := r.geoname_id, country_code := r.effective_code,
                  forbidden := false } ::
                stored_records rs (country_code_pos r.effective_code :: populated) := by
            conv => lhs; unfold stored_records
            rw [if_pos ⟨hvalid.mp hp0, fun h => hfull ((hpop _).mpr h)⟩]
          rw [hstore]
          obtain ⟨res, hrun, hcs, hnc, hmsg⟩ := ih rs (line_num + 1)
            { countries := st.countries ++
                [{ geoname_id := r.geoname_id, country_code := r.effective_code,
                   forbidden := false }],
              country_code_lookup :=
                st.country_code_lookup.set (country_code_pos r.effective_code) st.num_countries,
              num_countries := st.num_countries + 1, highest_col := some highest,
              geoname_id_col := some g, continent_code_col := some ct,
              country_code_col := some cc, last_geoname_id := 0 }
            (country_code_pos r.effective_code :: populated) hrest hnum1 hlong1 rfl rfl rfl rfl
            rfl (by simp [hcount])
            (by
              intro p
              unfold CodeLookup.set
              by_cases hp : p = country_code_pos r.effective_code
              · simp [hp]
              · simp only [if_neg hp, List.mem_cons, hp, false_or]
                exact hpop p)
            hload1
          refine ⟨res, hrun, ?_, hnc, hmsg⟩
          rw [hcs]
          simp

/-- C23: in a load that no fatal condition stops (the header gives the three
columns, every data line holds a row with enough columns, no identifier is
zero or reserved, the file has fewer lines than `MAX_COUNTRIES`) and that
starts from an empty index, `read_country_file` returns, the records it leaves
in the array are those of `stored_records`: one record, in row order, for each
data row whose effective code has exactly two characters and whose position
is not yet populated, every other row being skipped, and the value returned is
the number of these records. -/
theorem read_country_file_stores_valid_new_codes (header : List Char)
    (data_lines : List (List Char)) (rows : List CountryRow) (hd : Tokenized)
    (highest g ct cc : Nat)
    (hh0 : header.length ≠ 0) (hh255 : header.length ≠ MAX_LINE - 1)
    (hhtok : tokenize_csv header MAX_COLS = .ok hd)
    (hcols : detect_columns hd.cols COUNTRY_REQUIRED_COLS
      = (3, [some g, some ct, some cc], some highest))
    (hrows : data_lines.map (country_row highest g ct cc) = rows.map some)
    (hlong : data_lines.length + 2 ≤ MAX_COUNTRIES)
    (hload : ∀ r ∈ rows, r.loadable) :
    ∃ res, read_country_file (header :: data_lines) init_country_code_lookup = .ok res ∧
      res.countries = stored_records rows [] ∧
      res.num_countries = (stored_records rows []).length ∧
      (res.num_countries ≠ 0 → res.err_msg = none) := by
  obtain ⟨res, hrun, hcs, hnc, hmsg⟩ := read_country_lines_rows highest g ct cc data_lines rows 2
    { countries := [], country_code_lookup := init_country_code_lookup, num_countries := 0,
      highest_col := some highest, geoname_id_col := some g, continent_code_col := some ct,
      country_code_col := some cc, last_geoname_id := 0 }
    [] hrows (Nat.le_refl 2) (by omega) rfl rfl rfl rfl rfl rfl
    (by
      intro p
      simp [init_country_code_lookup])
    hload
  refine ⟨res, ?_, ?_, ?_, hmsg⟩
  · unfold read_country_file read_country_lines
    rw [if_neg (by decide), if_neg hh0, if_neg hh255, hhtok]
    simp only
    rw [if_pos trivial, hcols]
    simp only
    rw [if_neg (by simp)]
    exact hrun
  · rw [hcs]
    rfl
  · rw [hnc, hcs]
    rfl

set_option maxRecDepth 1000000 in
/-- On `sample_country_lines` the load stores `PT`, `EU` and `ES` and returns 3:
the rows of `pt`, of `XYZ` and of the second `EU` are skipped. -/
theorem read_country_file_stores_valid_new_codes_witness :
    ∃ res, read_country_file (sample_country_header :: sample_country_lines)
        init_country_code_lookup = .ok res ∧
      res.countries = [⟨5, "PT".toList, false⟩, ⟨6, "EU".toList, false⟩,
        ⟨9, "ES".toList, false⟩] ∧
      res.num_countries = 3 ∧ (res.num_countries ≠ 0 → res.err_msg = none) :=
  read_country_file_stores_valid_new_codes sample_country_header sample_country_lines
    [⟨5, "EU".toList, "PT".toList⟩, ⟨6, "EU".toList, []⟩, ⟨9, "EU".toList, "ES".toList⟩,
     ⟨10, "EU".toList, "pt".toList⟩, ⟨11, "EU".toList, "XYZ".toList⟩, ⟨12, "EU".toList, []⟩]
    (tokenized sample_country_header) 4 0 2 4
    (by decide) (by decide) (by decide) (by decide) (by decide) (by decide) (by decide)

/-! ## Appends, merges and the count of `process_range_file` -/

theorem sum_range_congr (f g : Nat → Nat) :
    ∀ n, (∀ q, q < n → g q = f q) →
      ((List.range n).map g).sum = ((List.range n).map f).sum := by
  intro n
  induction n with
  | zero => intro _; rfl
  | succ n ih =>
    intro h
    rw [List.range_succ, List.map_append, List.map_append, List.sum_append, List.sum_append,
      ih (fun q hq => h q (Nat.lt_succ_of_lt hq))]
    simp only [List.map_cons, List.map_nil, List.sum_cons, List.sum_nil, Nat.add_zero]
    rw [h n (Nat.lt_succ_self n)]

theorem sum_range_update (f g : Nat → Nat) (pos : Nat) (h : ∀ q, q ≠ pos → g q = f q) :
    ∀ n, pos < n →
      ((List.range n).map g).sum + f pos = ((List.range n).map f).sum + g pos := by
  intro n
  induction n with
  | zero => intro hp; omega
  | succ n ih =>
    intro hp
    rw [List.range_succ, List.map_append, List.map_append, List.sum_append, List.sum_append]
    simp only [List.map_cons, List.map_nil, List.sum_cons, List.sum_nil, Nat.add_zero]
    by_cases hpn : pos = n
    · subst hpn
      rw [sum_range_congr f g pos (fun q hq => h q (by omega))]
      omega
    · have := ih (by omega)
      rw [h n (fun hh => hpn hh.symm)]
      omega

theorem sink_pair_count_set (w : Nat) (out_files : OutFiles) (pos : Nat) (file file1 : File)
    (hpos : pos < MAX_COUNTRIES) (hfile : out_files pos = some file) :
    sink_pair_count w (out_files.set pos file1) + file.data.length / (2 * w)
      = sink_pair_count w out_files + file1.data.length / (2 * w) := by
  unfold sink_pair_count
  have h := sum_range_update
    (fun p => match out_files p with
      | none => 0
      | some file => file.data.length / (2 * w))
    (fun p => match (out_files.set pos file1) p with
      | none => 0
      | some file => file.data.length / (2 * w))
    pos
    (by
      intro q hq
      simp only [OutFiles.set, if_neg hq])
    MAX_COUNTRIES hpos
  simp only [hfile, OutFiles.set, if_true] at h
  exact h

theorem sink_pair_count_congr (w : Nat) (f g : OutFiles) (h : ∀ p, g p = f p) :
    sink_pair_count w g = sink_pair_count w f := by
  unfold sink_pair_count
  apply sum_range_congr
  intro q _
  simp only [h q]

theorem sink_pair_count_empty (w : Nat) (out_files : OutFiles)
    (h : ∀ p file, out_files p = some file → file = File.empty) :
    sink_pair_count w out_files = 0 := by
  unfold sink_pair_count
  rw [sum_range_congr (fun _ => 0) _ MAX_COUNTRIES]
  · generalize MAX_COUNTRIES = n
    induction n with
    | zero => rfl
    | succ n ih =>
      rw [List.range_succ, List.map_append, List.sum_append, ih]
      rfl
  · intro q _
    cases hq : out_files q with
    | none => rfl
    | some file =>
      rw [h q file hq]
      simp [File.empty]

/-- What a write does to the file of its country: the pair is appended, or,
when the row is of the country written last and contiguous with the range
written last, the end of the last pair is replaced. -/
theorem write_range_step (w : Nat) (st st1 : RangeFileState) (pos : Nat) (r : AddressRange)
    (hinv : SinksWhole w st) (hpos : pos ≠ 0)
    (hrw : r.addr_bytes = w) (hrs : r.start.length = w) (hre : r.end_.length = w)
    (h : write_range st pos r = .next st1) :
    ∃ file file1, st.out_files pos = some file ∧ st1 = st.written pos r file1 ∧
      file1.pos = file1.data.length ∧
      ((¬ (pos = st.last_country_pos ∧
            st.last_range.map (ranges_contiguous r) = some (.ok true)) ∧
          file1.data = file.data ++ r.start ++ r.end_) ∨
       ((pos = st.last_country_pos ∧
            st.last_range.map (ranges_contiguous r) = some (.ok true)) ∧
          ∃ pre e0, file.data = pre ++ e0 ∧ e0.length = w ∧ file1.data = pre ++ r.end_)) := by
  have hts : r.start.take r.addr_bytes = r.start := by
    rw [hrw, ← hrs]; exact List.take_length _
  have hte : r.end_.take r.addr_bytes = r.end_ := by
    rw [hrw, ← hre]; exact List.take_length _
  cases hfile : st.out_files pos with
  | none =>
    unfold write_range at h
    rw [hfile] at h
    cases h
  | some file =>
    obtain ⟨hfpos, hmod⟩ := hinv.1 pos file hfile
    by_cases hsame : pos = st.last_country_pos
    · cases hlast : st.last_range with
      | none =>
        unfold write_range at h
        rw [hfile] at h
        simp only [← hsame, if_true, hlast] at h
        cases h
      | some lr =>
        cases hc : ranges_contiguous r lr with
        | error f =>
          unfold write_range at h
          rw [hfile] at h
          simp only [← hsame, if_true, hlast, hc] at h
          cases h
        | ok b =>
          cases b with
          | false =>
            have hw2 := write_range_not_contiguous st pos r lr file hfile hfpos hlast hc
            rw [hw2, hts, hte] at h
            simp only [Outcome.next.injEq] at h
            refine ⟨file, _, rfl, h.symm, rfl, Or.inl ⟨?_, rfl⟩⟩
            intro hh
            have h2 := hh.2
            simp only [Option.map_some', hc, Option.some.injEq, Except.ok.injEq] at h2
            cases h2
          | true =>
            have hl0 : st.last_country_pos ≠ 0 := hsame ▸ hpos
            have hbig := hinv.2 hl0 file (hsame ▸ hfile)
            have hsplit : file.data = file.data.take (file.data.length - w)
                ++ file.data.drop (file.data.length - w) := (List.take_append_drop _ _).symm
            have he0 : (file.data.drop (file.data.length - w)).length = w := by
              rw [List.length_drop]; omega
            have hfile2 : st.out_files pos = some
                { data := file.data.take (file.data.length - w)
                    ++ file.data.drop (file.data.length - w),
                  pos := (file.data.take (file.data.length - w)
                    ++ file.data.drop (file.data.length - w)).length } := by
              rw [hfile, ← hsplit]
              cases file with
              | mk d p =>
                simp only at hfpos
                rw [hfpos]
            have hw2 := write_range_merge st pos r lr _ _ hfile2 hsame hlast hc
              (by rw [he0, hrw]) (by rw [hte, hre, hrw])
            rw [hw2, hte] at h
            simp only [Outcome.next.injEq] at h
            refine ⟨file, _, rfl, h.symm, rfl, Or.inr ⟨⟨hsame, ?_⟩, _, _, hsplit, he0, rfl⟩⟩
            simp only [Option.map_some', hc]
    · have hw2 := write_range_other_country st pos r file hfile hfpos hsame
      rw [hw2, hts, hte] at h
      simp only [Outcome.next.injEq] at h
      exact ⟨file, _, rfl, h.symm, rfl, Or.inl ⟨fun hh => hsame hh.1, rfl⟩⟩

theorem classify_row_compile_lt (addr_family num_countries arr : Nat)
    (countries : List Country) (out_files : OutFiles) (cols : RangeCols)
    (cache : CountryCache) (line_data : Tokenized) (pos : Nat) (r : AddressRange)
    (cache1 : CountryCache)
    (h : classify_row addr_family num_countries arr countries out_files cols cache line_data
      = .compile pos r cache1) :
    pos < MAX_COUNTRIES := by
  unfold classify_row at h
  cases hl : row_lookup num_countries arr countries cols cache line_data with
  | fault f => rw [hl] at h; cases h
  | fatal msg c1 => rw [hl] at h; cases h
  | unknown c2 => rw [hl] at h; cases h
  | found index c2 =>
    rw [hl] at h
    simp only at h
    cases hc : countries[index]? with
    | none => rw [hc] at h; cases h
    | some country =>
      rw [hc] at h
      simp only at h
      by_cases hforb : country.forbidden = true
      · rw [if_pos hforb] at h; cases h
      · rw [if_neg hforb] at h
        by_cases hp0 : country_code_pos country.country_code = 0
        · rw [if_pos hp0] at h; cases h
        · rw [if_neg hp0] at h
          by_cases hmax : country_code_pos country.country_code ≥ MAX_COUNTRIES
          · rw [if_pos hmax] at h; cases h
          · rw [if_neg hmax] at h
            by_cases hopen : out_files (country_code_pos country.country_code) = none
            · rw [if_pos hopen] at h; cases h
            · rw [if_neg hopen] at h
              cases hcidr : cols.cidr_col.bind line_data.col with
              | none => rw [hcidr] at h; cases h
              | some cidr =>
                rw [hcidr] at h
                simp only at h
                cases hparse : parse_cidr cidr with
                | error e => rw [hparse] at h; cases h
                | ok range =>
                  rw [hparse] at h
                  simp only at h
                  by_cases hfam : range.addr_family ≠ addr_family
                  · rw [if_pos hfam] at h; cases h
                  · rw [if_neg hfam] at h
                    simp only [RowClass.compile.injEq] at h
                    rw [← h.1]
                    exact Nat.not_le.mp hmax

/-- A write keeps the files whole, adds one to the count, and adds one pair to
the files unless it is a merge. -/
theorem write_range_counts (w : Nat) (st st1 : RangeFileState) (pos : Nat) (r : AddressRange)
    (hw : 0 < w) (hinv : SinksWhole w st) (hpos : pos ≠ 0) (hmax : pos < MAX_COUNTRIES)
    (hrw : r.addr_bytes = w) (hrs : r.start.length = w) (hre : r.end_.length = w)
    (h : write_range st pos r = .next st1) :
    SinksWhole w st1 ∧ st1.cache = st.cache ∧ st1.cols = st.cols ∧
      st1.last_country_pos = pos ∧ st1.last_range = some r ∧
      st1.num_ranges = (st.num_ranges + 1) % 4294967296 ∧
      sink_pair_count w st1.out_files +
          (if pos = st.last_country_pos ∧
              st.last_range.map (ranges_contiguous r) = some (.ok true) then 1 else 0)
        = sink_pair_count w st.out_files + 1 := by
  obtain ⟨file, file1, hfile, hst1, hfpos1, hcase⟩ :=
    write_range_step w st st1 pos r hinv hpos hrw hrs hre h
  obtain ⟨hfpos, hmod⟩ := hinv.1 pos file hfile
  subst hst1
  have hcount := sink_pair_count_set w st.out_files pos file file1 hmax hfile
  have hlen1 : file1.data.length % (2 * w) = 0 ∧ 2 * w ≤ file1.data.length ∧
      file1.data.length / (2 * w) +
          (if pos = st.last_country_pos ∧
              st.last_range.map (ranges_contiguous r) = some (.ok true) then 1 else 0)
        = file.data.length / (2 * w) + 1 := by
    rcases hcase with ⟨hno, hdata⟩ | ⟨hyes, pre, e0, hd, he0, hdata⟩
    · rw [if_neg hno, hdata]
      simp only [List.length_append, hrs, hre]
      have h2 : file.data.length + w + w = file.data.length + 2 * w := by omega
      rw [h2]
      refine ⟨?_, by omega, ?_⟩
      · rw [Nat.add_mod_right]; exact hmod
      · rw [Nat.add_div_right _ (by omega : 0 < 2 * w)]
    · rw [if_pos hyes, hdata]
      have hbig := hinv.2 (hyes.1 ▸ hpos) file (hyes.1 ▸ hfile)
      have hl : (pre ++ r.end_).length = file.data.length := by
        rw [hd]
        simp only [List.length_append, hre, he0]
      rw [hl]
      exact ⟨hmod, hbig, rfl⟩
  refine ⟨⟨?_, ?_⟩, rfl, rfl, rfl, rfl, rfl, ?_⟩
  · intro p f hp
    by_cases hpp : p = pos
    · subst hpp
      rw [written_out_files_self] at hp
      cases hp
      exact ⟨hfpos1, hlen1.1⟩
    · rw [written_out_files_other _ _ _ _ _ hpp] at hp
      exact hinv.1 p f hp
  · intro _ f hp
    have hp2 : (st.written pos r file1).out_files pos = some f := hp
    rw [written_out_files_self] at hp2
    cases hp2
    exact hlen1.2.1
  · have hout : (st.written pos r file1).out_files = st.out_files.set pos file1 := rfl
    rw [hout]
    have := hlen1.2.2
    omega

theorem family_bytes_pos (addr_family : Nat) : 0 < family_bytes addr_family := by
  unfold family_bytes
  split <;> decide

/-- The lines that leave the loop of `process_range_file` running keep the
files whole; the pairs they add to the files and the merges they make are as
many as the rows they compile, and the count grows by that number. -/
theorem process_range_upto_counts (addr_family num_countries arr : Nat)
    (countries : List Country) (out_files0 : OutFiles) :
    ∀ (lines : List (List Char)) (line_num : Nat) (st st2 : RangeFileState),
      SinksWhole (family_bytes addr_family) st →
      (∀ p, st.out_files p = none ↔ out_files0 p = none) →
      st.num_ranges < 4294967296 →
      process_range_upto addr_family num_countries arr countries lines line_num st
        = some st2 →
      SinksWhole (family_bytes addr_family) st2 ∧
        (∀ p, st2.out_files p = none ↔ out_files0 p = none) ∧
        sink_pair_count (family_bytes addr_family) st2.out_files +
            merged_rows st.last_country_pos st.last_range
              (compiled_rows addr_family num_countries arr countries out_files0 lines
                line_num st.cols st.cache)
          = sink_pair_count (family_bytes addr_family) st.out_files +
            (compiled_rows addr_family num_countries arr countries out_files0 lines
              line_num st.cols st.cache).length ∧
        st2.num_ranges = (st.num_ranges +
            (compiled_rows addr_family num_countries arr countries out_files0 lines
              line_num st.cols st.cache).length) % 4294967296 ∧
        (compiled_rows addr_family num_countries arr countries out_files0 lines
          line_num st.cols st.cache).length ≤ lines.length := by
  intro lines
  induction lines with
  | nil =>
    intro line_num st st2 hinv hnone hnum h
    simp only [process_range_upto, Option.some.injEq] at h
    subst h
    rw [compiled_rows, merged_rows, List.length_nil, Nat.add_zero, Nat.add_zero,
      Nat.mod_eq_of_lt hnum]
    exact ⟨hinv, hnone, rfl, rfl, Nat.le_refl _⟩
  | cons line rest ih =>
    intro line_num st st2 hinv hnone hnum h
    rw [process_range_upto] at h
    rw [compiled_rows]
    by_cases h0 : line.length = 0
    · rw [if_pos h0] at h ⊢
      obtain ⟨a, b, c, d, e⟩ := ih _ _ _ hinv hnone hnum h
      exact ⟨a, b, c, d, Nat.le_succ_of_le e⟩
    · rw [if_neg h0] at h ⊢
      by_cases h1 : line.length = MAX_LINE - 1
      · rw [if_pos h1] at h
        cases h
      · rw [if_neg h1] at h ⊢
        cases htok : tokenize_csv line MAX_COLS with
        | error f =>
          rw [htok] at h
          cases h
        | ok line_data =>
          rw [htok] at h
          simp only at h ⊢
          by_cases h2 : line_num = 1
          · rw [if_pos h2] at h ⊢
            cases hcols : range_header_cols line_data with
            | none =>
              rw [hcols] at h
              cases h
            | some cols =>
              rw [hcols] at h
              simp only at h ⊢
              obtain ⟨a, b, c, d, e⟩ := ih (line_num + 1) { st with cols := cols } st2 hinv hnone
                hnum h
              exact ⟨a, b, c, d, Nat.le_succ_of_le e⟩
          · rw [if_neg h2] at h ⊢
            have hcl := classify_row_congr addr_family num_countries arr countries
              st.out_files out_files0 st.cols st.cache line_data hnone
            unfold process_range_row at h
            rw [hcl] at h
            cases hclass : classify_row addr_family num_countries arr countries out_files0
                st.cols st.cache line_data with
            | skip c1 =>
              rw [hclass] at h
              simp only at h ⊢
              obtain ⟨a, b, c, d, e⟩ := ih (line_num + 1) { st with cache := c1 } st2 hinv hnone
                hnum h
              exact ⟨a, b, c, d, Nat.le_succ_of_le e⟩
            | fatal msg c1 =>
              rw [hclass] at h
              cases h
            | fault f =>
              rw [hclass] at h
              cases h
            | compile pos r c1 =>
              rw [hclass] at h
              simp only at h ⊢
              obtain ⟨hp0, _, ⟨cidr, hparse⟩, hfam, _⟩ :=
                classify_row_compile _ _ _ _ _ _ _ _ _ _ _ hclass
              have hlt := classify_row_compile_lt _ _ _ _ _ _ _ _ _ _ _ hclass
              have hr : RangeOK addr_family r := hfam ▸ (parse_cidr_range_ok cidr r hparse).2
              obtain ⟨_, hrw, hrs, hre, _⟩ := hr
              cases hwr : write_range { st with cache := c1 } pos r with
              | fault f => rw [hwr] at h; cases h
              | fatal s m => rw [hwr] at h; cases h
              | next st1 =>
                rw [hwr] at h
                simp only at h
                obtain ⟨hinv1, hc1, hcols1, hlp, hlr, hn1, hcount1⟩ :=
                  write_range_counts (family_bytes addr_family) { st with cache := c1 } st1 pos r
                    (family_bytes_pos addr_family) hinv hp0 hlt hrw hrs.1 hre.1 hwr
                have hnone1 := write_range_next_none _ _ _ _ hwr
                have hc2 : st1.cache = c1 := hc1
                have hcols2 : st1.cols = st.cols := hcols1
                obtain ⟨a, b, c, d, e⟩ := ih (line_num + 1) st1 st2 hinv1
                  (fun p => (hnone1 p).trans (hnone p))
                  (by rw [hn1]; omega) h
                rw [hc2, hcols2, hlp, hlr] at c
                rw [hc2, hcols2] at d e
                refine ⟨a, b, ?_, ?_, ?_⟩
                · simp only [merged_rows, List.length_cons]
                  have hcount2 : sink_pair_count (family_bytes addr_family) st1.out_files +
                      (if pos = st.last_country_pos ∧
                          st.last_range.map (ranges_contiguous r) = some (.ok true)
                        then 1 else 0)
                      = sink_pair_count (family_bytes addr_family) st.out_files + 1 := hcount1
                  omega
                · simp only [List.length_cons]
                  rw [d, hn1]
                  have hn2 : ({ st with cache := c1 } : RangeFileState).num_ranges
                      = st.num_ranges := rfl
                  rw [hn2]
                  omega
                · simp only [List.length_cons]
                  omega

theorem process_range_upto_append (addr_family num_countries arr : Nat)
    (countries : List Country) (pre rest : List (List Char)) :
    ∀ (line_num : Nat) (st st1 : RangeFileState),
      process_range_upto addr_family num_countries arr countries pre line_num st = some st1 →
      process_range_upto addr_family num_countries arr countries (pre ++ rest) line_num st
        = process_range_upto addr_family num_countries arr countries rest
            (line_num + pre.length) st1 := by
  induction pre with
  | nil =>
    intro line_num st st1 h
    unfold process_range_upto at h
    cases h
    rfl
  | cons line pre ih =>
    intro line_num st st1 h
    have hlen : line_num + (line :: pre).length = line_num + 1 + pre.length := by
      simp only [List.length_cons]; omega
    rw [hlen]
    unfold process_range_upto at h
    rw [List.cons_append]
    conv => lhs; unfold process_range_upto
    by_cases h0 : line.length = 0
    · rw [if_pos h0] at h ⊢
      exact ih _ _ _ h
    · rw [if_neg h0] at h ⊢
      by_cases h255 : line.length = MAX_LINE - 1
      · rw [if_pos h255] at h
        cases h
      · rw [if_neg h255] at h ⊢
        cases htok : tokenize_csv line MAX_COLS with
        | error f =>
          rw [htok] at h
          cases h
        | ok line_data =>
          rw [htok] at h
          simp only at h ⊢
          by_cases h1 : line_num = 1
          · rw [if_pos h1] at h ⊢
            cases hcols : range_header_cols line_data with
            | none =>
              rw [hcols] at h
              cases h
            | some cols =>
              rw [hcols] at h
              exact ih _ _ _ h
          · rw [if_neg h1] at h ⊢
            cases hrow : process_range_row addr_family num_countries arr countries st
                line_data with
            | next st2 =>
              rw [hrow] at h
              exact ih _ _ _ h
            | fatal st2 msg =>
              rw [hrow] at h
              cases h
            | fault f =>
              rw [hrow] at h
              cases h

/-- What one more line does to the files and the count: nothing, an append of
one pair to one file, or the replacement of the last address of one file. -/
theorem process_range_upto_single (addr_family num_countries arr : Nat)
    (countries : List Country) (row : List Char) (line_num : Nat) (st st1 : RangeFileState)
    (hinv : SinksWhole (family_bytes addr_family) st)
    (h : process_range_upto addr_family num_countries arr countries [row] line_num st
      = some st1) :
    (st1.out_files = st.out_files ∧ st1.num_ranges = st.num_ranges) ∨
    ∃ pos file file1, st.out_files pos = some file ∧ st1.out_files pos = some file1 ∧
      (∀ q, q ≠ pos → st1.out_files q = st.out_files q) ∧
      st1.num_ranges = (st.num_ranges + 1) % 4294967296 ∧
      ((∃ s e, s.length = family_bytes addr_family ∧ e.length = family_bytes addr_family ∧
          file1.data = file.data ++ s ++ e) ∨
       (∃ pre e0 e, e0.length = family_bytes addr_family ∧
          e.length = family_bytes addr_family ∧
          file.data = pre ++ e0 ∧ file1.data = pre ++ e)) := by
  unfold process_range_upto at h
  by_cases h0 : row.length = 0
  · rw [if_pos h0] at h
    unfold process_range_upto at h
    cases h
    exact Or.inl ⟨rfl, rfl⟩
  · rw [if_neg h0] at h
    by_cases h255 : row.length = MAX_LINE - 1
    · rw [if_pos h255] at h
      cases h
    · rw [if_neg h255] at h
      cases htok : tokenize_csv row MAX_COLS with
      | error f =>
        rw [htok] at h
        cases h
      | ok line_data =>
        rw [htok] at h
        simp only at h
        by_cases h1 : line_num = 1
        · rw [if_pos h1] at h
          cases hcols : range_header_cols line_data with
          | none =>
            rw [hcols] at h
            cases h
          | some cols =>
            rw [hcols] at h
            unfold process_range_upto at h
            cases h
            exact Or.inl ⟨rfl, rfl⟩
        · rw [if_neg h1] at h
          unfold process_range_row at h
          cases hclass : classify_row addr_family num_countries arr countries st.out_files
              st.cols st.cache line_data with
          | skip c1 =>
            rw [hclass] at h
            unfold process_range_upto at h
            cases h
            exact Or.inl ⟨rfl, rfl⟩
          | fatal msg c1 =>
            rw [hclass] at h
            cases h
          | fault f =>
            rw [hclass] at h
            cases h
          | compile pos r c1 =>
            rw [hclass] at h
            simp only at h
            obtain ⟨hp0, _, ⟨cidr, hparse⟩, hfam, _⟩ :=
              classify_row_compile _ _ _ _ _ _ _ _ _ _ _ hclass
            have hr : RangeOK addr_family r := hfam ▸ (parse_cidr_range_ok cidr r hparse).2
            obtain ⟨_, hrw, hrs, hre, _⟩ := hr
            cases hwr : write_range { st with cache := c1 } pos r with
            | fault f => rw [hwr] at h; cases h
            | fatal s m => rw [hwr] at h; cases h
            | next st2 =>
              rw [hwr] at h
              unfold process_range_upto at h
              cases h
              obtain ⟨file, file1, hfile, hst1, _, hcase⟩ :=
                write_range_step (family_bytes addr_family) { st with cache := c1 } st1 pos r
                  hinv hp0 hrw hrs.1 hre.1 hwr
              subst hst1
              refine Or.inr ⟨pos, file, file1, hfile, written_out_files_self _ _ _ _,
                fun q hq => written_out_files_other _ _ _ _ q hq, rfl, ?_⟩
              rcases hcase with ⟨_, hdata⟩ | ⟨_, pre, e0, hd, he0, hdata⟩
              · exact Or.inl ⟨r.start, r.end_, hrs.1, hre.1, hdata⟩
              · exact Or.inr ⟨pre, e0, r.end_, he0, hre.1, hd, hdata⟩

set_option maxRecDepth 1000000 in
/-- C25 (the claim does not hold as stated): a run that a fatal condition stops
returns 0 although pairs were appended.  After the header and the row
`10.0.0.0/24` of `PT`, the row `10.0.0.300/24` stops the run: the value
returned is 0 and the file of `PT` (position 21584) holds the one pair of 8
bytes that was appended, no merge having been made. -/
theorem process_range_file_stopped_run_returns_zero_after_append :
    (process_range_file
        [sample_range_header, "10.0.0.0/24,5,5,,0,0\n".toList,
         "10.0.0.300/24,9,9,,0,0\n".toList]
        AF_INET 5 4096 sample_countries CountryCache.initial).map
      (fun res => (res.num_ranges, (res.out_files 21584).map File.data))
      = .ok (0, some [10, 0, 0, 0, 10, 0, 0, 255]) := by
  decide

/-- C25, amended: while no fatal condition stops the run (the lines read so far
leave the loop of `process_range_file` running), the length of every output
file is a multiple of twice the width of an address (8 for v4, 32 for v6); one
more line changes nothing in the files and the count, or appends exactly
that many bytes to one file, or replaces the last address of one file and
leaves its length unchanged, the count growing by one in both cases; and a run
that ends after these lines, fewer than 4294967296, returns the number of
pairs held by all the files together plus the number of merges. -/
theorem process_range_file_count_is_appends_plus_merges (lines : List (List Char))
    (addr_family num_countries arr : Nat) (countries : List Country) (cache : CountryCache)
    (out_files : OutFiles) (st : RangeFileState)
    (hn : num_countries ≠ 0) (hfam : addr_family = AF_INET ∨ addr_family = AF_INET6)
    (hopen : open_out_files (countries.take num_countries) (fun _ => none) = .ok out_files)
    (hrun : process_range_upto addr_family num_countries arr countries lines 1
      (range_start_state out_files cache) = some st)
    (hlen : lines.length < 4294967296) :
    2 * family_bytes addr_family = (if addr_family = AF_INET then 8 else 32) ∧
    (∀ p file, st.out_files p = some file →
      file.data.length % (2 * family_bytes addr_family) = 0) ∧
    (∀ row st1,
      process_range_upto addr_family num_countries arr countries (lines ++ [row]) 1
        (range_start_state out_files cache) = some st1 →
      (st1.out_files = st.out_files ∧ st1.num_ranges = st.num_ranges) ∨
      ∃ pos file file1, st.out_files pos = some file ∧ st1.out_files pos = some file1 ∧
        (∀ q, q ≠ pos → st1.out_files q = st.out_files q) ∧
        st1.num_ranges = (st.num_ranges + 1) % 4294967296 ∧
        ((∃ s e, s.length = family_bytes addr_family ∧ e.length = family_bytes addr_family ∧
            file1.data = file.data ++ s ++ e) ∨
         (∃ pre e0 e, e0.length = family_bytes addr_family ∧
            e.length = family_bytes addr_family ∧
            file.data = pre ++ e0 ∧ file1.data = pre ++ e))) ∧
    ∃ res, process_range_file lines addr_family num_countries arr countries cache = .ok res ∧
      res.out_files = st.out_files ∧
      res.num_ranges = sink_pair_count (family_bytes addr_family) res.out_files +
        merged_rows 0 none
          (compiled_rows_of lines addr_family num_countries arr countries cache) := by
  have hempty := open_out_files_empty _ _ _ hopen (fun p file hp => by cases hp)
  have hstart : SinksWhole (family_bytes addr_family) (range_start_state out_files cache) := by
    refine ⟨?_, fun h => absurd rfl h⟩
    intro p file hp
    have hp2 : out_files p = some file := hp
    rw [hempty p file hp2]
    exact ⟨rfl, Nat.zero_mod _⟩
  obtain ⟨hinv, _, hcount, hnum, hle⟩ := process_range_upto_counts addr_family num_countries
    arr countries out_files lines 1 (range_start_state out_files cache) st hstart
    (fun _ => Iff.rfl)
    (by
      have h0 : (range_start_state out_files cache).num_ranges = 0 := rfl
      rw [h0]
      omega)
    hrun
  have hrows : compiled_rows_of lines addr_family num_countries arr countries cache
      = compiled_rows addr_family num_countries arr countries out_files lines 1
          (range_start_state out_files cache).cols (range_start_state out_files cache).cache := by
    unfold compiled_rows_of
    rw [hopen]
    rfl
  have hzero : sink_pair_count (family_bytes addr_family)
      (range_start_state out_files cache).out_files = 0 :=
    sink_pair_count_empty _ _ hempty
  have hn0 : (range_start_state out_files cache).num_ranges = 0 := rfl
  have hl0 : (range_start_state out_files cache).last_country_pos = 0 := rfl
  have hr0 : (range_start_state out_files cache).last_range = none := rfl
  rw [← hrows, hzero, hl0, hr0] at hcount
  rw [← hrows, hn0] at hnum
  rw [← hrows] at hle
  refine ⟨?_, fun p file hp => (hinv.1 p file hp).2, ?_, ?_⟩
  · unfold family_bytes
    split <;> rfl
  · intro row st1 h1
    rw [process_range_upto_append addr_family num_countries arr countries lines [row] 1 _ st
      hrun] at h1
    exact process_range_upto_single addr_family num_countries arr countries row _ st st1
      hinv h1
  · refine ⟨process_range_end st false "No usable data in file." (1 + lines.length), ?_, rfl, ?_⟩
    · unfold process_range_file
      rw [if_neg hn, if_neg (by
        rcases hfam with h | h
        · exact fun hh => hh.1 h
        · exact fun hh => hh.2 h), hopen]
      simp only
      have hpre := process_range_lines_upto addr_family num_countries arr countries lines []
        1 _ st hrun
      rw [List.append_nil] at hpre
      unfold range_start_state at hpre
      rw [hpre]
      rfl
    · have hres : (process_range_end st false "No usable data in file."
          (1 + lines.length)).num_ranges = st.num_ranges := rfl
      have hout : (process_range_end st false "No usable data in file."
          (1 + lines.length)).out_files = st.out_files := rfl
      rw [hres, hout, hnum]
      omega

set_option maxRecDepth 1000000 in
/-- On the header, the row `10.0.0.0/24` of `PT`, the contiguous row
`10.0.1.0/24` of `PT` and the row `10.0.3.0/24` of `ES`, no fatal condition
stops the run. -/
theorem process_range_file_count_is_appends_plus_merges_witness :
    2 * family_bytes AF_INET = (if AF_INET = AF_INET then 8 else 32) ∧
    (∀ p file, sample_counted.out_files p = some file →
      file.data.length % (2 * family_bytes AF_INET) = 0) ∧
    (∀ row st1,
      process_range_upto AF_INET 5 4096 sample_countries
        ([sample_range_header, "10.0.0.0/24,5,5,,0,0\n".toList,
          "10.0.1.0/24,5,5,,0,0\n".toList, "10.0.3.0/24,9,9,,0,0\n".toList] ++ [row]) 1
        (range_start_state sample_out_files CountryCache.initial) = some st1 →
      (st1.out_files = sample_counted.out_files ∧
        st1.num_ranges = sample_counted.num_ranges) ∨
      ∃ pos file file1, sample_counted.out_files pos = some file ∧
        st1.out_files pos = some file1 ∧
        (∀ q, q ≠ pos → st1.out_files q = sample_counted.out_files q) ∧
        st1.num_ranges = (sample_counted.num_ranges + 1) % 4294967296 ∧
        ((∃ s e, s.length = family_bytes AF_INET ∧ e.length = family_bytes AF_INET ∧
            file1.data = file.data ++ s ++ e) ∨
         (∃ pre e0 e, e0.length = family_bytes AF_INET ∧ e.length = family_bytes AF_INET ∧
            file.data = pre ++ e0 ∧ file1.data = pre ++ e))) ∧
    ∃ res, process_range_file
        [sample_range_header, "10.0.0.0/24,5,5,,0,0\n".toList,
         "10.0.1.0/24,5,5,,0,0\n".toList, "10.0.3.0/24,9,9,,0,0\n".toList]
        AF_INET 5 4096 sample_countries CountryCache.initial = .ok res ∧
      res.out_files = sample_counted.out_files ∧
      res.num_ranges = sink_pair_count (family_bytes AF_INET) res.out_files +
        merged_rows 0 none
          (compiled_rows_of
            [sample_range_header, "10.0.0.0/24,5,5,,0,0\n".toList,
             "10.0.1.0/24,5,5,,0,0\n".toList, "10.0.3.0/24,9,9,,0,0\n".toList]
            AF_INET 5 4096 sample_countries CountryCache.initial) :=
  process_range_file_count_is_appends_plus_merges
    [sample_range_header, "10.0.0.0/24,5,5,,0,0\n".toList, "10.0.1.0/24,5,5,,0,0\n".toList,
     "10.0.3.0/24,9,9,,0,0\n".toList]
    AF_INET 5 4096 sample_countries CountryCache.initial sample_out_files sample_counted
    (by decide) (Or.inl rfl) rfl
    (by
      have h : (process_range_upto AF_INET 5 4096 sample_countries
          [sample_range_header, "10.0.0.0/24,5,5,,0,0\n".toList,
           "10.0.1.0/24,5,5,,0,0\n".toList, "10.0.3.0/24,9,9,,0,0\n".toList] 1
          (range_start_state sample_out_files CountryCache.initial)).isSome = true := by decide
      unfold sample_counted
      cases hp : process_range_upto AF_INET 5 4096 sample_countries
          [sample_range_header, "10.0.0.0/24,5,5,,0,0\n".toList,
           "10.0.1.0/24,5,5,,0,0\n".toList, "10.0.3.0/24,9,9,,0,0\n".toList] 1
          (range_start_state sample_out_files CountryCache.initial) with
      | none => rw [hp] at h; cases h
      | some s => rfl)
    (by simp)

/-! ## The order of start and end in the pairs written -/

theorem same_output_refl (a : Except Fault RangeFileResult) : SameOutput a a := by
  cases a with
  | error f => exact rfl
  | ok r => exact ⟨rfl, fun _ => rfl⟩

end Mm2xtgeoip
